import Mathlib

/-!
# librad registry: sessions, identity store and login-state checks

A shallow embedding of `librad/registry` (`db.go`, `user.go`, `user_admin.go`).

* The two key-value stores (`rdbAuth`, `rdbNonce`) and the per-app document
  collections are explicit state, carried in a `World`.
* Every store call is appended to `World.log`; the call with number `n` fails
  exactly when `World.outage n` holds, and a failed call leaves the data as it was.
* Functions of the package that live in other files (token codec, id codec, HMAC)
  are parameters, collected in `Codec`.
* Go's `(value, error)` results are `Except Err value`, paired with the world
  after the call, because effects of a call persist when it returns an error.
-/

set_option autoImplicit false

namespace Librad

/-! ## Errors -/

/-- Status errors of the registry package. `driver` stands for an error value of a
collaborator (document-store driver, token codec) handed to the caller unchanged. -/
inductive Err where
  | invalidAppId
  | invalidState
  | invalidSignature
  | invalidNonce
  | invalidTimestamp
  | invalidToken
  | unauthenticated
  | userNotFound
  | roleNotFound
  | acctAlreadyExists
  | invalidArgument (msg : String)
  | malformedSessData
  | databaseUnavailable
  | driver (msg : String)
  deriving DecidableEq, Repr

/-! ## Data model (`db.go`) -/

/-- Constant `dbMaxAcctPerUser`. -/
def dbMaxAcctPerUser : Nat := 10

/-- Two's-complement wrap of a 64-bit signed result. -/
def wrap64 (x : Int) : Int := (x + 2 ^ 63) % 2 ^ 64 - 2 ^ 63

/-- Method `Time.Unix` of an instant given in Unix nanoseconds: its whole seconds,
rounded down. -/
def unixSeconds (t : Int) : Int := t / 1000000000

/-- Struct `xApp`; the permission rules and the cipher block play no part here. -/
structure xApp where
  Id : String
  Key : Nat
  Secret : String
  Fingerprint : String
  deriving DecidableEq, Repr

/-- Struct `xSessData`. -/
structure xSessData where
  RoleId : String
  RoleIndex : Nat
  deriving DecidableEq, Repr

/-- Struct `xSess`. Only `Token` and `Data` are serialised (the other fields carry
the msgpack tag `-`). -/
structure xSess where
  AppId : String
  UserId : String
  Token : String
  Data : xSessData
  app : Option xApp
  deriving DecidableEq, Repr

/-- A value of the session store: either the msgpack record `(token, data)` written
by `newSess` and by the update script, or bytes that do not decode as one. -/
inductive Blob where
  | packed (token : String) (data : xSessData)
  | raw (bytes : String)
  deriving DecidableEq, Repr

/-- Struct `dbUser`, with the ban fields read by `user_admin.go`. Times are Unix
seconds. `Metadata` is the stored sub-document, as a list of leaves
`(path inside metadata, value)`. -/
structure dbUser where
  Id : String
  AcctIds : List String
  CreateTime : Int
  CreateIp : String
  LoginTime : Int
  LoginIp : String
  Metadata : List (List String × String)
  BanTo : Int
  BanFor : String
  deriving DecidableEq, Repr

/-- Struct `dbRole`. -/
structure dbRole where
  Id : String
  Index : Nat
  UserId : String
  CreateTime : Int
  SignInTime : Int
  Metadata : List (List String × String)
  deriving DecidableEq, Repr

/-! ## Stores -/

/-- The store calls issued by the package. -/
inductive StoreOp where
  | createIndex (coll : String) (appId : String)
  | findOneAndUpdate (coll : String) (appId : String)
  | updateOne (coll : String) (appId : String)
  | updateMany (coll : String) (appId : String)
  | find (coll : String) (appId : String)
  | redisSet (key : String)
  | redisGet (key : String)
  | redisEval (key : String)
  | redisSetNX (key : String)
  | redisDel (keys : List String)
  deriving DecidableEq, Repr

/-- Process state and store contents. -/
structure World where
  users : String → List dbUser
  roles : String → List dbRole
  dbUserCollection : List String
  dbRoleCollection : List String
  rdbAuth : List (String × Blob)
  rdbNonce : List String
  log : List StoreOp
  outage : Nat → Bool

/-- Message `UniformLoginState`. -/
structure UniformLoginState where
  AcctId : List String
  Nonce : String
  Timestamp : Int
  Signature : String
  deriving DecidableEq, Repr

/-- Functions and constants of the package defined outside the embedded files, and
library functions. The extra `Nat` argument of `newToken` and `newUserId` is the
randomness they draw; `decId` gives the app key and the tag of an id. -/
structure Codec where
  newToken : xApp → String → Nat → Except String String
  decToken : String → Except String (xApp × String)
  newUserId : Nat → Nat → String
  decId : String → Nat × Nat
  userIdTag : Nat
  roleIdTag : Nat
  idBelongToAppId : String → List String → Bool
  hmac : UniformLoginState → String → String
  equalFold : String → String → Bool

/-- Record one store call; the boolean tells whether it failed. -/
def World.call (w : World) (op : StoreOp) : Bool × World :=
  (w.outage w.log.length, { w with log := w.log ++ [op] })

/-- No store call of `w` fails. -/
def World.healthy (w : World) : Prop := ∀ n, w.outage n = false

/-! ### Key-value maps as association lists -/

/-- Lookup of a key. -/
def kvGet {β : Type} (k : String) : List (String × β) → Option β
  | [] => none
  | (k', v) :: rest => if k' = k then some v else kvGet k rest

/-- Unconditional set: overwrite the entry of `k`, or add one. -/
def kvSet {β : Type} (k : String) (v : β) : List (String × β) → List (String × β)
  | [] => [(k, v)]
  | (k', v') :: rest => if k' = k then (k, v) :: rest else (k', v') :: kvSet k v rest

/-- Removal of a key. -/
def kvDel {β : Type} (k : String) : List (String × β) → List (String × β)
  | [] => []
  | (k', v') :: rest => if k' = k then kvDel k rest else (k', v') :: kvDel k rest

/-- Outcome of a read of the session store. -/
inductive RedisErr where
  | nil
  | io
  deriving DecidableEq, Repr

/-- Command `SET key value` on `rdbAuth` (no expiry). -/
def World.redisSet (w : World) (key : String) (val : Blob) : Option RedisErr × World :=
  match w.call (.redisSet key) with
  | (true, w') => (some .io, w')
  | (false, w') => (none, { w' with rdbAuth := kvSet key val w'.rdbAuth })

/-- Command `GET key` on `rdbAuth`. -/
def World.redisGet (w : World) (key : String) : Except RedisErr Blob × World :=
  match w.call (.redisGet key) with
  | (true, w') => (.error .io, w')
  | (false, w') =>
    match kvGet key w'.rdbAuth with
    | none => (.error .nil, w')
    | some b => (.ok b, w')

/-! ## Sessions (`db.go`) -/

/-- Encoding `msgpack.Marshal` of a session: the fields `token` and `data`. -/
def marshalSess (s : xSess) : Blob := .packed s.Token s.Data

/-- Decoding `msgpack.Unmarshal(b, &s)`: fills `Token` and `Data` of `s`. -/
def unmarshalSess (b : Blob) (s : xSess) : Option xSess :=
  match b with
  | .packed token data => some { s with Token := token, Data := data }
  | .raw _ => none

/-- Function `newSess`. The error of the store write is tested, but the body of the
test is empty, and the session is returned in either case. -/
def newSess (c : Codec) (w : World) (app : xApp) (userId : String) (seed : Nat) :
    Except Err xSess × World :=
  match c.newToken app userId seed with
  | .error e => (.error (.driver e), w)
  | .ok token =>
    let s : xSess :=
      { Token := token, AppId := app.Id, UserId := userId,
        Data := { RoleId := "", RoleIndex := 0 }, app := none }
    match w.redisSet userId (marshalSess s) with
    | (some _, w') => (.ok s, w')
    | (none, w') => (.ok s, w')

/-- Function `checkToken`. -/
def checkToken (c : Codec) (w : World) (token : String) : Except Err xSess × World :=
  match c.decToken token with
  | .error _ => (.error .invalidToken, w)
  | .ok (app, userId) =>
    match w.redisGet userId with
    | (.error .nil, w') => (.error .invalidToken, w')
    | (.error .io, w') => (.error .databaseUnavailable, w')
    | (.ok b, w') =>
      let s : xSess :=
        { AppId := app.Id, UserId := userId, Token := "",
          Data := { RoleId := "", RoleIndex := 0 }, app := some app }
      match unmarshalSess b s with
      | none => (.error .malformedSessData, w')
      | some s' =>
        if s'.Token ≠ token then (.error .invalidToken, w') else (.ok s', w')

/-- One `newSess` call of a history. -/
structure SessCall where
  app : xApp
  userId : String
  seed : Nat
  deriving DecidableEq, Repr

/-- The world after a history of `newSess` calls, oldest first. -/
def runNewSess (c : Codec) (w : World) : List SessCall → World
  | [] => w
  | k :: rest => runNewSess c (newSess c w k.app k.userId k.seed).2 rest

/-- The app and the session returned by the most recent `newSess` of the history
that returned a session for user `u`; the history is run from the world `w`, and
`acc` is the value before it. -/
def latestReturned (c : Codec) (u : String) :
    Option (xApp × xSess) → World → List SessCall → Option (xApp × xSess)
  | acc, _, [] => acc
  | acc, w, k :: rest =>
    if k.userId = u then
      match (newSess c w k.app k.userId k.seed).1 with
      | .ok s =>
        latestReturned c u (some (k.app, s)) (newSess c w k.app k.userId k.seed).2 rest
      | .error _ => latestReturned c u acc (newSess c w k.app k.userId k.seed).2 rest
    else latestReturned c u acc (newSess c w k.app k.userId k.seed).2 rest

/-- The tokens of the sessions returned by the calls of a history run from `w`,
oldest first. -/
def returnedTokens (c : Codec) : World → List SessCall → List String
  | _, [] => []
  | w, k :: rest =>
    match (newSess c w k.app k.userId k.seed).1 with
    | .ok s => s.Token :: returnedTokens c (newSess c w k.app k.userId k.seed).2 rest
    | .error _ => returnedTokens c (newSess c w k.app k.userId k.seed).2 rest

/-- The app and the token that the codec mints in the most recent call of the
history for user `u` in which it mints one, starting from `acc`. -/
def latestSess (c : Codec) (u : String) (acc : Option (xApp × String)) :
    List SessCall → Option (xApp × String)
  | [] => acc
  | k :: rest =>
    if k.userId = u then
      match c.newToken k.app k.userId k.seed with
      | .ok t => latestSess c u (some (k.app, t)) rest
      | .error _ => latestSess c u acc rest
    else latestSess c u acc rest

/-- The tokens that the codec mints in the calls of a history, oldest first. -/
def mintedTokens (c : Codec) : List SessCall → List String
  | [] => []
  | k :: rest =>
    match c.newToken k.app k.userId k.seed with
    | .ok t => t :: mintedTokens c rest
    | .error _ => mintedTokens c rest

/-- A world with empty stores in which no store call fails. -/
def World.init : World :=
  { users := fun _ => [], roles := fun _ => [], dbUserCollection := [],
    dbRoleCollection := [], rdbAuth := [], rdbNonce := [], log := [],
    outage := fun _ => false }

/-! ## Users (`db.go`) -/

/-- The zero value of `time.Time`, in Unix seconds. -/
def zeroTime : Int := -62135596800

/-- Function `getUserCollection`: the handle is cached per app; the first use
ensures the unique index on `acct_ids`. -/
def getUserCollection (w : World) (appId : String) : Except Err Unit × World :=
  if appId ∈ w.dbUserCollection then (.ok (), w)
  else
    match w.call (.createIndex "users" appId) with
    | (true, w') => (.error (.driver "failed to create index"), w')
    | (false, w') => (.ok (), { w' with dbUserCollection := appId :: w'.dbUserCollection })

/-- Update operator `$addToSet` with `$each`: append the values not yet present. -/
def addToSet (old : List String) : List String → List String
  | [] => old
  | a :: rest => addToSet (if a ∈ old then old else old ++ [a]) rest

/-- Unique index on `acct_ids`: is `a` in the array of a user other than `self`? -/
def heldByOther (coll : List dbUser) (self : String) (a : String) : Bool :=
  coll.any (fun u => decide (u.Id ≠ self) && decide (a ∈ u.AcctIds))

/-- Apply `f` to the first document that satisfies `p`. -/
def updateFirst {α : Type} (p : α → Bool) (f : α → α) : List α → List α
  | [] => []
  | x :: xs => if p x then f x :: xs else x :: updateFirst p f xs

/-- Replace the users collection of one app. -/
def World.setUsers (w : World) (appId : String) (coll : List dbUser) : World :=
  { w with users := fun a => if a = appId then coll else w.users a }

/-- Outcome of a document-store command, as the driver reports it. -/
inductive MongoErr where
  | noDocuments
  | other
  deriving DecidableEq, Repr

/-- The upsert of `loginUser`: `FindOneAndUpdate` with the filter "some element of
`acct_ids` is in `acctIds`", `$set` of the login fields, `$addToSet` of the ids,
`$setOnInsert` of `fresh`, returning the document after the update. A write that
would put an id into the arrays of two users, or reuse an `_id`, is refused by the
unique indexes. -/
def World.upsertLogin (w : World) (appId : String) (acctIds : List String)
    (now : Int) (userIp : String) (fresh : dbUser) : Except MongoErr dbUser × World :=
  match w.call (.findOneAndUpdate "users" appId) with
  | (true, w') => (.error .other, w')
  | (false, w') =>
    let coll := w'.users appId
    match coll.find? (fun u => acctIds.any (fun a => decide (a ∈ u.AcctIds))) with
    | some u =>
      if acctIds.any (heldByOther coll u.Id) then (.error .other, w')
      else
        let d := { u with LoginTime := now, LoginIp := userIp,
                          AcctIds := addToSet u.AcctIds acctIds }
        (.ok d, w'.setUsers appId
          (updateFirst (fun u => acctIds.any (fun a => decide (a ∈ u.AcctIds)))
            (fun _ => d) coll))
    | none =>
      if coll.any (fun u => decide (u.Id = fresh.Id)) then (.error .other, w')
      else
        let d := { fresh with LoginTime := now, LoginIp := userIp,
                              AcctIds := addToSet [] acctIds }
        (.ok d, w'.setUsers appId (coll ++ [d]))

/-- The update of `bindAcctToUser`: `FindOneAndUpdate` by `_id` with `$addToSet`,
no upsert, returning the document after the update. -/
def World.addAccts (w : World) (appId userId : String) (acctIds : List String) :
    Except MongoErr dbUser × World :=
  match w.call (.findOneAndUpdate "users" appId) with
  | (true, w') => (.error .other, w')
  | (false, w') =>
    let coll := w'.users appId
    match coll.find? (fun u => decide (u.Id = userId)) with
    | none => (.error .noDocuments, w')
    | some u =>
      if acctIds.any (heldByOther coll u.Id) then (.error .other, w')
      else
        let d := { u with AcctIds := addToSet u.AcctIds acctIds }
        (.ok d, w'.setUsers appId
          (updateFirst (fun u => decide (u.Id = userId)) (fun _ => d) coll))

/-- Function `limitUserAcctCount`: keep the last `dbMaxAcctPerUser` ids; a failure
of the update is logged only. -/
def limitUserAcctCount (w : World) (appId : String) (user : dbUser) : World :=
  if user.AcctIds.length > dbMaxAcctPerUser then
    match w.call (.updateOne "users" appId) with
    | (true, w') => w'
    | (false, w') =>
      w'.setUsers appId (updateFirst (fun u => decide (u.Id = user.Id))
        (fun u => { u with AcctIds := u.AcctIds.drop (u.AcctIds.length - dbMaxAcctPerUser) })
        (w'.users appId))
  else w

/-- Function `loginUser`; `now` is the clock reading, `idSeed` and `tokSeed` the
randomness of the new user id and of the token. -/
def loginUser (c : Codec) (w : World) (app : xApp) (userIp : String)
    (acctIds : List String) (now : Int) (idSeed tokSeed : Nat) :
    Except Err (dbUser × xSess) × World :=
  if acctIds.length > dbMaxAcctPerUser then
    (.error (.invalidArgument "too many acct ids"), w)
  else
    match getUserCollection w app.Id with
    | (.error e, w₁) => (.error e, w₁)
    | (.ok _, w₁) =>
      let user : dbUser :=
        { Id := c.newUserId app.Key idSeed, AcctIds := [], CreateTime := now,
          CreateIp := userIp, LoginTime := zeroTime, LoginIp := "", Metadata := [],
          BanTo := zeroTime, BanFor := "" }
      match w₁.upsertLogin app.Id acctIds now userIp user with
      | (.error _, w₂) => (.error .databaseUnavailable, w₂)
      | (.ok user', w₂) =>
        let w₃ := limitUserAcctCount w₂ app.Id user'
        match newSess c w₃ app user'.Id tokSeed with
        | (.error e, w₄) => (.error e, w₄)
        | (.ok sess, w₄) => (.ok (user', sess), w₄)

/-- Function `bindAcctToUser`. -/
def bindAcctToUser (w : World) (appId userId : String) (acctIds : List String) :
    Except Err Unit × World :=
  if acctIds.length > dbMaxAcctPerUser then
    (.error (.invalidArgument "too many acct ids"), w)
  else
    match getUserCollection w appId with
    | (.error e, w₁) => (.error e, w₁)
    | (.ok _, w₁) =>
      match w₁.addAccts appId userId acctIds with
      | (.error .noDocuments, w₂) => (.error .userNotFound, w₂)
      | (.error .other, w₂) => (.error .databaseUnavailable, w₂)
      | (.ok user, w₂) => (.ok (), limitUserAcctCount w₂ appId user)

/-! ### Metadata updates -/

/-- The update document of `setUserMetadata`: the maps under `$set` and `$unset`. -/
structure MetadataUpdate where
  set : List (String × String)
  unset : List (String × Nat)
  deriving DecidableEq, Repr

/-- The loop of `setUserMetadata` over the entries of `md`. -/
def metadataUpdate : List (String × String) → MetadataUpdate → MetadataUpdate
  | [], acc => acc
  | (key, val) :: rest, acc =>
    if val ≠ "" then
      metadataUpdate rest { acc with set := kvSet ("metadata." ++ key) val acc.set }
    else metadataUpdate rest { acc with unset := kvSet ("metadata." ++ key) 1 acc.unset }

/-- Split at every `.`; `cur` holds the characters of the current part, reversed. -/
def splitDots : List Char → List Char → List (List Char)
  | [], cur => [cur.reverse]
  | ch :: rest, cur =>
    if ch = '.' then cur.reverse :: splitDots rest [] else splitDots rest (ch :: cur)

/-- The field names of a dotted path, as the document store reads it. -/
def parsePath (path : String) : List String := (splitDots path.data []).map String.mk

/-- The part of a path below `metadata`; `none` for a path the store rejects (an
empty field name, one that begins with `$`, which the store reads as a positional
operator, or one with a NUL character, which no key of a document can hold) and
for a path outside `metadata`. -/
def metadataPath (path : String) : Option (List String) :=
  match parsePath path with
  | [] => none
  | root :: rest =>
    if root = "metadata" ∧ rest ≠ [] ∧ "" ∉ rest ∧
      ∀ f ∈ rest, f.data.head? ≠ some '$' ∧ Char.ofNat 0 ∉ f.data
    then some rest else none

/-- A key that is one field name for the document store: not empty, without `.`,
not beginning with `$`, and without a NUL character. -/
def plainKey (k : String) : Prop :=
  k ≠ "" ∧ '.' ∉ k.data ∧ k.data.head? ≠ some '$' ∧ Char.ofNat 0 ∉ k.data

instance (k : String) : Decidable (plainKey k) := by
  unfold plainKey
  infer_instance

/-- Operator `$set` on the leaves of the metadata document: the value at `p` and
everything below it is replaced; a string on the way to `p` makes the store refuse. -/
def applySet (m : List (List String × String)) (p : List String) (v : String) :
    Option (List (List String × String)) :=
  if m.any (fun q => q.1.isPrefixOf p && decide (q.1 ≠ p)) then none
  else some (m.filter (fun q => !p.isPrefixOf q.1) ++ [(p, v)])

/-- Operator `$unset`: the value at `p` and everything below it is removed. -/
def applyUnset (m : List (List String × String)) (p : List String) :
    List (List String × String) :=
  m.filter (fun q => !p.isPrefixOf q.1)

/-- All `$set` entries, in turn. -/
def applySets (m : List (List String × String)) :
    List (String × String) → Option (List (List String × String))
  | [] => some m
  | (path, v) :: rest =>
    match metadataPath path with
    | none => none
    | some p =>
      match applySet m p v with
      | none => none
      | some m' => applySets m' rest

/-- All `$unset` entries, in turn. -/
def applyUnsets (m : List (List String × String)) :
    List (String × Nat) → Option (List (List String × String))
  | [] => some m
  | (path, _) :: rest =>
    match metadataPath path with
    | none => none
    | some p => applyUnsets (applyUnset m p) rest

/-- Two paths of one update may not be equal, nor one lie below the other. -/
def pathsConflict : List (List String) → Bool
  | [] => false
  | p :: rest => rest.any (fun q => p.isPrefixOf q || q.isPrefixOf p) || pathsConflict rest

/-- Is the update document accepted: every path is well formed and no two conflict.
An empty `$set` or `$unset` part is accepted, as the store does from version 5.0. -/
def updateAccepted (upd : MetadataUpdate) : Bool :=
  let paths := upd.set.map Prod.fst ++ upd.unset.map Prod.fst
  paths.all (fun path => (metadataPath path).isSome) &&
    !pathsConflict (paths.filterMap metadataPath)

/-- Command `UpdateOne` with filter `{_id: userId}` and the update document of
`setUserMetadata`. No matching document is not an error. -/
def World.updateOneMetadata (w : World) (appId userId : String) (upd : MetadataUpdate) :
    Option MongoErr × World :=
  match w.call (.updateOne "users" appId) with
  | (true, w') => (some .other, w')
  | (false, w') =>
    if !updateAccepted upd then (some .other, w')
    else
      match (w'.users appId).find? (fun u => decide (u.Id = userId)) with
      | none => (none, w')
      | some u =>
        match applySets u.Metadata upd.set with
        | none => (some .other, w')
        | some m₁ =>
          match applyUnsets m₁ upd.unset with
          | none => (some .other, w')
          | some m₂ =>
            (none, w'.setUsers appId
              (updateFirst (fun u => decide (u.Id = userId))
                (fun u => { u with Metadata := m₂ }) (w'.users appId)))

/-- Function `setUserMetadata`. -/
def setUserMetadata (w : World) (appId userId : String) (md : List (String × String)) :
    Except Err Unit × World :=
  match getUserCollection w appId with
  | (.error e, w₁) => (.error e, w₁)
  | (.ok _, w₁) =>
    match w₁.updateOneMetadata appId userId (metadataUpdate md { set := [], unset := [] }) with
    | (some _, w₂) => (.error .databaseUnavailable, w₂)
    | (none, w₂) => (.ok (), w₂)

/-- The `$set` part as the spec words it: `"metadata." + k ↦ v` for the entries of
`md` with a non-empty value. -/
def specSet (md : List (String × String)) : List (String × String) :=
  (md.filter (fun kv => decide (kv.2 ≠ ""))).map (fun kv => ("metadata." ++ kv.1, kv.2))

/-- The `$unset` part as the spec words it: `"metadata." + k` for the entries of `md`
with the empty value. -/
def specUnset (md : List (String × String)) : List (String × Nat) :=
  (md.filter (fun kv => decide (kv.2 = ""))).map (fun kv => ("metadata." ++ kv.1, 1))

/-- Leaves of a metadata document have a non-empty path. -/
def wfLeaves (m : List (List String × String)) : Prop := ∀ q ∈ m, q.1 ≠ []

/-- The value of key `k` of a metadata document, when it is a string. -/
def metaGet (m : List (List String × String)) (k : String) : Option String :=
  (m.find? (fun q => decide (q.1 = [k]))).map (fun q => q.2)

/-- The metadata document of a user of an app. -/
def World.metadataOf (w : World) (appId userId : String) : List (List String × String) :=
  match (w.users appId).find? (fun u => decide (u.Id = userId)) with
  | none => []
  | some u => u.Metadata

/-! ### Store functions outside the embedded files -/

/-- Modelled from the spec: `bindAcctIdToUser`, the bind with a takeover flag that
`BindAcctId` calls, is not in the embedded files. Without takeover, an id that
belongs to another user makes it fail with `AcctAlreadyExists`; with takeover the
ids are first pulled from every other user; then the ids are added to the user. -/
def bindAcctIdToUser (w : World) (appId userId : String) (acctIds : List String)
    (takeover : Bool) : Except Err Unit × World :=
  if takeover then
    match w.call (.updateMany "users" appId) with
    | (true, w') => (.error .databaseUnavailable, w')
    | (false, w') =>
      bindAcctToUser
        (w'.setUsers appId ((w'.users appId).map (fun u =>
          if u.Id = userId then u
          else { u with AcctIds := u.AcctIds.filter (fun a => decide (a ∉ acctIds)) })))
        appId userId acctIds
  else
    match w.call (.find "users" appId) with
    | (true, w') => (.error .databaseUnavailable, w')
    | (false, w') =>
      if acctIds.any (heldByOther (w'.users appId) userId) then
        (.error .acctAlreadyExists, w')
      else bindAcctToUser w' appId userId acctIds

/-- Modelled from the spec: `banUsers` is not in the embedded files; it sets `banTo`
and `banFor` of the users with the given ids. The instant `banTo` comes in Unix
nanoseconds and is kept, like the other times of a user, in whole Unix seconds. -/
def banUsers (w : World) (appId : String) (ids : List String) (banTo : Int)
    (banFor : String) : Except Err Unit × World :=
  match w.call (.updateMany "users" appId) with
  | (true, w') => (.error (.driver "update failed"), w')
  | (false, w') =>
    (.ok (), w'.setUsers appId ((w'.users appId).map (fun u =>
      if u.Id ∈ ids then { u with BanTo := unixSeconds banTo, BanFor := banFor } else u)))

/-- Modelled from the spec: `unbanUsers` is not in the embedded files; it clears
`banTo` and `banFor` of the users with the given ids. -/
def unbanUsers (w : World) (appId : String) (ids : List String) : Except Err Unit × World :=
  match w.call (.updateMany "users" appId) with
  | (true, w') => (.error (.driver "update failed"), w')
  | (false, w') =>
    (.ok (), w'.setUsers appId ((w'.users appId).map (fun u =>
      if u.Id ∈ ids then { u with BanTo := zeroTime, BanFor := "" } else u)))

/-- Modelled from the spec: `logoutUser` is not in the embedded files; it deletes
the session entries of the given users. -/
def logoutUser (w : World) (ids : List String) : Except Err Unit × World :=
  match w.call (.redisDel ids) with
  | (true, w') => (.error (.driver "del failed"), w')
  | (false, w') => (.ok (), { w' with rdbAuth := ids.foldl (fun m k => kvDel k m) w'.rdbAuth })

/-- Modelled from the spec: `getUsers` (and `getUsersWithFields`, which reads the
same documents) is not in the embedded files; it returns the user documents of the
app whose `_id` is among the ids, each document once. -/
def getUsers (w : World) (appId : String) (ids : List String) :
    Except Err (List dbUser) × World :=
  match w.call (.find "users" appId) with
  | (true, w') => (.error (.driver "find failed"), w')
  | (false, w') => (.ok ((w'.users appId).filter (fun u => decide (u.Id ∈ ids))), w')

/-- Modelled from the spec: `getRoles` is not in the embedded files; it returns the
role documents of the app whose `_id` is among the ids, each document once. -/
def getRoles (w : World) (appId : String) (ids : List String) :
    Except Err (List dbRole) × World :=
  match w.call (.find "roles" appId) with
  | (true, w') => (.error (.driver "find failed"), w')
  | (false, w') => (.ok ((w'.roles appId).filter (fun r => decide (r.Id ∈ ids))), w')

/-- Modelled from the spec: `getRolesByUserId` is not in the embedded files; it
returns the role documents of the app owned by one of the users. -/
def getRolesByUserId (w : World) (appId : String) (userIds : List String) :
    Except Err (List dbRole) × World :=
  match w.call (.find "roles" appId) with
  | (true, w') => (.error (.driver "find failed"), w')
  | (false, w') => (.ok ((w'.roles appId).filter (fun r => decide (r.UserId ∈ userIds))), w')

/-! ## Admin service (`user_admin.go`) -/

/-- The type of the bind called by `BindAcctId`. -/
abbrev BindFn := World → String → String → List String → Bool → Except Err Unit × World

/-- Method `userAdminServer.BindAcctId`. `trusted` is the app id of the secret
authorisation, if there is one; `bind` is the function `bindAcctIdToUser`. -/
def BindAcctId (c : Codec) (bind : BindFn) (w : World) (trusted : Option String)
    (userId : String) (acctIds : List String) (takeOver : Bool) :
    Except Err Unit × World :=
  match trusted with
  | none => (.error .unauthenticated, w)
  | some appId =>
    if !c.idBelongToAppId appId [userId] then (.error .unauthenticated, w)
    else
      match bind w appId userId acctIds takeOver with
      | (.error _, w') => (.error .databaseUnavailable, w')
      | (.ok _, w') => (.ok (), w')

/-- Message `UserAdminGetRequest.Options`. -/
structure GetOptions where
  Fuzzy : Bool
  WithRoles : Bool
  deriving DecidableEq, Repr

/-- The loop of `Get` over the ids of a fuzzy request: ids with the user tag, and
ids with the role tag. -/
def partitionIds (c : Codec) : List String → List String × List String
  | [] => ([], [])
  | id :: rest =>
    let tag := (c.decId id).2
    if tag = c.userIdTag then (id :: (partitionIds c rest).1, (partitionIds c rest).2)
    else if tag = c.roleIdTag then ((partitionIds c rest).1, id :: (partitionIds c rest).2)
    else partitionIds c rest

/-- Method `userAdminServer.Get`; the result is the pair of the users and the roles
of the response. -/
def Get (c : Codec) (w : World) (trusted : Option String) (ids : List String)
    (options : Option GetOptions) : Except Err (List dbUser × List dbRole) × World :=
  match trusted with
  | none => (.error .unauthenticated, w)
  | some appId =>
    if !c.idBelongToAppId appId ids then (.error .unauthenticated, w)
    else
      let fuzzy := match options with
        | some o => o.Fuzzy
        | none => false
      let withRoles := match options with
        | some o => o.WithRoles
        | none => false
      let userIds := if fuzzy then (partitionIds c ids).1 else ids
      let roleIds := if fuzzy then (partitionIds c ids).2 else []
      let deref : Except Err (List String) × World :=
        if roleIds.length > 0 then
          match getRoles w appId roleIds with
          | (.error _, w₁) => (.error .databaseUnavailable, w₁)
          | (.ok roles, w₁) => (.ok (userIds ++ roles.map (fun r => r.UserId)), w₁)
        else (.ok userIds, w)
      match deref with
      | (.error e, w₁) => (.error e, w₁)
      | (.ok userIds', w₁) =>
        match getUsers w₁ appId userIds' with
        | (.error _, w₂) => (.error .databaseUnavailable, w₂)
        | (.ok users, w₂) =>
          if withRoles then
            match getRolesByUserId w₂ appId userIds' with
            | (.error _, w₃) => (.error .databaseUnavailable, w₃)
            | (.ok roles, w₃) => (.ok (users, roles), w₃)
          else (.ok (users, []), w₂)

/-- Message `UserBanState`; `BanTo = 0` and `BanFor = ""` when no ban is running. -/
structure UserBanState where
  Id : String
  BanTo : Int
  BanFor : String
  deriving DecidableEq, Repr

/-- The instant `now.Add(time.Duration(seconds) * time.Second)`, in Unix
nanoseconds like `now`: the product is a 64-bit count of nanoseconds, and `Add`
adds it exactly. -/
def addSeconds (now seconds : Int) : Int :=
  now + wrap64 (seconds * 1000000000)

/-- Method `userAdminServer.Ban`; `now` is the clock reading taken for the ban,
`now'` the later one taken for the response, both in Unix nanoseconds; `seconds`
is the request field, a signed integer of at most 64 bits. -/
def Ban (c : Codec) (w : World) (trusted : Option String) (userIds : List String)
    (seconds : Int) (reason : String) (now now' : Int) :
    Except Err (List UserBanState) × World :=
  match trusted with
  | none => (.error .unauthenticated, w)
  | some appId =>
    if !c.idBelongToAppId appId userIds then (.error .unauthenticated, w)
    else if userIds.length > 0 then
      let change : Option Err × World :=
        if seconds > 0 then
          match banUsers w appId userIds (addSeconds now seconds) reason with
          | (.error _, w₁) => (some .databaseUnavailable, w₁)
          | (.ok _, w₁) =>
            match logoutUser w₁ userIds with
            | (.error _, w₂) => (some .databaseUnavailable, w₂)
            | (.ok _, w₂) => (none, w₂)
        else if seconds < 0 then
          match unbanUsers w appId userIds with
          | (.error _, w₁) => (some .databaseUnavailable, w₁)
          | (.ok _, w₁) => (none, w₁)
        else (none, w)
      match change with
      | (some e, w₂) => (.error e, w₂)
      | (none, w₂) =>
        match getUsers w₂ appId userIds with
        | (.error _, w₃) => (.error .databaseUnavailable, w₃)
        | (.ok users, w₃) =>
          (.ok (users.map (fun user =>
            if user.BanTo * 1000000000 > now' then
              { Id := user.Id, BanTo := user.BanTo, BanFor := user.BanFor }
            else { Id := user.Id, BanTo := 0, BanFor := "" })), w₃)
    else (.ok [], w)

/-! ## Roles (`db.go`) -/

/-- Function `getRoleCollection`: as for users, with the unique index on
`(user_id, index)`. -/
def getRoleCollection (w : World) (appId : String) : Except Err Unit × World :=
  if appId ∈ w.dbRoleCollection then (.ok (), w)
  else
    match w.call (.createIndex "roles" appId) with
    | (true, w') => (.error (.driver "failed to create index"), w')
    | (false, w') => (.ok (), { w' with dbRoleCollection := appId :: w'.dbRoleCollection })

/-- Replace the roles collection of one app. -/
def World.setRoles (w : World) (appId : String) (coll : List dbRole) : World :=
  { w with roles := fun a => if a = appId then coll else w.roles a }

/-- The update of `signInRole`: `FindOneAndUpdate` with the filter
`{_id: roleId, user_id: userId}` and `$set` of `sign_in_time`; the document found is
returned. -/
def World.touchRole (w : World) (appId roleId userId : String) (now : Int) :
    Except MongoErr dbRole × World :=
  match w.call (.findOneAndUpdate "roles" appId) with
  | (true, w') => (.error .other, w')
  | (false, w') =>
    let hit := fun (r : dbRole) => decide (r.Id = roleId) && decide (r.UserId = userId)
    match (w'.roles appId).find? hit with
    | none => (.error .noDocuments, w')
    | some r =>
      (.ok r, w'.setRoles appId
        (updateFirst hit (fun x => { x with SignInTime := now }) (w'.roles appId)))

/-- Script `luaUpdateSessData`, run on `rdbAuth` with key `key` and the packed
session data as argument: read the value, replace its `data` field, write it back,
in one step. For an absent key the script evaluates the name `Nil`, which the
script engine rejects as an undefined global; a value that does not unpack is a
script error as well. -/
def luaUpdateSessData (w : World) (key : String) (arg : xSessData) :
    Option RedisErr × World :=
  match w.call (.redisEval key) with
  | (true, w') => (some .io, w')
  | (false, w') =>
    match kvGet key w'.rdbAuth with
    | none => (some .io, w')
    | some (.raw _) => (some .io, w')
    | some (.packed token _) =>
      (none, { w' with rdbAuth := kvSet key (.packed token arg) w'.rdbAuth })

/-- Function `signInRole`. -/
def signInRole (w : World) (appId userId roleId : String) (now : Int) :
    Except Err Unit × World :=
  match getRoleCollection w appId with
  | (.error e, w₁) => (.error e, w₁)
  | (.ok _, w₁) =>
    match w₁.touchRole appId roleId userId now with
    | (.error .noDocuments, w₂) => (.error .roleNotFound, w₂)
    | (.error .other, w₂) => (.error .databaseUnavailable, w₂)
    | (.ok role, w₂) =>
      match luaUpdateSessData w₂ userId { RoleId := roleId, RoleIndex := role.Index } with
      | (some .nil, w₃) => (.error .invalidToken, w₃)
      | (some .io, w₃) => (.error .databaseUnavailable, w₃)
      | (none, w₃) => (.ok (), w₃)

/-! ## Login state (`user.go`) -/

/-- Function `checkNonce`: set-if-absent of the key `appId$nonce` on `rdbNonce`.
The store is the set of keys that have not expired. -/
def checkNonce (w : World) (appId nonce : String) : Except RedisErr Bool × World :=
  let key := appId ++ "$" ++ nonce
  match w.call (.redisSetNX key) with
  | (true, w') => (.error .io, w')
  | (false, w') =>
    if key ∈ w'.rdbNonce then (.ok false, w')
    else (.ok true, { w' with rdbNonce := key :: w'.rdbNonce })

/-- The decoded `Any` payload of a login request. -/
inductive LoginState where
  | undecodable
  | dev (username : String)
  | uniform (st : UniformLoginState)
  | other
  deriving DecidableEq, Repr

/-- Function `checkState` of the registry; `isDevEnv` is `comm.IsDevEnv()`, `now` is
`time.Now().Unix()`. -/
def checkState (c : Codec) (w : World) (isDevEnv : Bool) (app : xApp)
    (any : LoginState) (now : Int) : Except Err (List String) × World :=
  match any with
  | .undecodable => (.error .invalidState, w)
  | .dev username =>
    if !isDevEnv then (.error .invalidState, w) else (.ok ["dev$" ++ username], w)
  | .uniform state =>
    match checkNonce w app.Id state.Nonce with
    | (.error _, w') => (.error .databaseUnavailable, w')
    | (.ok false, w') => (.error .invalidNonce, w')
    | (.ok true, w') =>
      let ts := now
      if state.Timestamp < wrap64 (ts - 10) ∨ state.Timestamp > wrap64 (ts + 3) then
        (.error .invalidTimestamp, w')
      else
        let signature := state.Signature
        let expected := c.hmac { state with Signature := "" } app.Secret
        if !c.equalFold signature expected then (.error .invalidSignature, w')
        else (.ok state.AcctId, w')
  | .other => (.error .invalidState, w)

/-- One `checkState` call of a history. -/
structure StateCall where
  isDevEnv : Bool
  app : xApp
  any : LoginState
  now : Int
  deriving DecidableEq, Repr

/-- The world after a history of `checkState` calls, oldest first. -/
def runCheckState (c : Codec) (w : World) : List StateCall → World
  | [] => w
  | k :: rest => runCheckState c (checkState c w k.isDevEnv k.app k.any k.now).2 rest

/-- Does the call carry a `UniformLoginState` with this app id and nonce? -/
def StateCall.uses (k : StateCall) (appId nonce : String) : Bool :=
  match k.any with
  | .uniform st => decide (k.app.Id = appId) && decide (st.Nonce = nonce)
  | _ => false

/-! ## PubSub (`pub_sub.go`) -/

/-- Errors of the stream store, as the helpers `isNoGroupError`, `isBusyGroupError`
and `isCanceledError` and the comparison with `redis.Nil` tell them apart. -/
inductive XErr where
  | noGroup
  | busyGroup
  | canceled
  | nil
  | other (msg : String)
  deriving DecidableEq, Repr

/-- What a pubsub function yields instead of a value: a returned error, or a panic. -/
inductive PsErr where
  | unauthenticated
  | invalidArgument (msg : String)
  | unavailable (msg : String)
  | store (e : XErr)
  | failure (msg : String)
  | panic (msg : String)
  deriving DecidableEq, Repr

/-- Function `getAppId`; `trusted` is the app id of the secret authorisation. -/
def getAppId (trusted : Option String) : Except PsErr String :=
  match trusted with
  | none => .error .unauthenticated
  | some appId => .ok appId

/-- Function `toStream`. -/
def toStream (appId topic : String) : Except PsErr String :=
  if ':' ∈ appId.data then .error (.panic "invalid app id")
  else .ok (appId ++ ":" ++ topic)

/-- The characters after the first `:`, if there is one. -/
def afterColon : List Char → Option (List Char)
  | [] => none
  | ch :: rest => if ch = ':' then some rest else afterColon rest

/-- Function `toTopic`. -/
def toTopic (stream : String) : Except PsErr String :=
  match afterColon stream.data with
  | none => .error (.panic "invalid stream")
  | some rest => .ok (String.mk rest)

/-- The value of a string of decimal digits, most significant first, on top of `acc`;
`none` when a character is not a digit. -/
def parseDigits : List Char → Nat → Option Nat
  | [], acc => some acc
  | ch :: rest, acc =>
    if '0' ≤ ch ∧ ch ≤ '9' then parseDigits rest (acc * 10 + (ch.toNat - '0'.toNat))
    else none

/-- Function `strconv.ParseUint(s, 10, 64)`. -/
def parseUint (s : List Char) : Option Nat :=
  match s with
  | [] => none
  | _ =>
    match parseDigits s 0 with
    | none => none
    | some n => if n < 2 ^ 64 then some n else none

/-- Function `strconv.ParseInt(s, 10, 64)`; `none` stands for a non-nil error. -/
def parseInt (s : List Char) : Option Int :=
  match s with
  | [] => none
  | '+' :: rest =>
    match parseUint rest with
    | none => none
    | some n => if n ≥ 2 ^ 63 then none else some (n : Int)
  | '-' :: rest =>
    match parseUint rest with
    | none => none
    | some n => if n > 2 ^ 63 then none else some (-(n : Int))
  | _ =>
    match parseUint s with
    | none => none
    | some n => if n ≥ 2 ^ 63 then none else some (n : Int)

/-- The first element of `strings.SplitN(s, "-", 2)`. -/
def beforeDash (s : String) : List Char := s.data.takeWhile (fun ch => decide (ch ≠ '-'))

/-- The rendering of a 64-bit integer by the verb `%d`: its decimal digits, after a
minus sign when it is negative. -/
def formatInt (v : Int) : String := toString v

/-- Message `PubSub_Subscription`. -/
structure Subscription where
  Topic : String
  SinceMilliTimestamp : Int
  AfterId : String
  BatchSize : Nat
  deriving DecidableEq, Repr

/-- The start id that the loop of `Subscribe` computes for one subscription. -/
def subscribeStartId (sub : Subscription) : Except PsErr String :=
  let id := formatInt sub.SinceMilliTimestamp ++ "-0"
  if sub.AfterId ≠ "" then
    match parseInt (beforeDash sub.AfterId) with
    | none => .error (.invalidArgument ("invalid subscription after id: " ++ sub.AfterId))
    | some v => if v ≥ sub.SinceMilliTimestamp then .ok sub.AfterId else .ok id
  else .ok id

/-- Struct `redis.XReadArgs` of a reader: stream, start id and count. -/
structure XReadArgs where
  Stream : String
  Id : String
  Count : Nat
  deriving DecidableEq, Repr

/-- The loop of `Subscribe` over the subscriptions: the readers started, and the
error or panic that ends the loop early, if any. -/
def subscribeLoop (appId : String) : List Subscription → List XReadArgs × Option PsErr
  | [] => ([], none)
  | sub :: rest =>
    match subscribeStartId sub with
    | .error e => ([], some e)
    | .ok id =>
      match toStream appId sub.Topic with
      | .error e => ([], some e)
      | .ok stream =>
        let reader : XReadArgs := { Stream := stream, Id := id, Count := sub.BatchSize }
        (reader :: (subscribeLoop appId rest).1, (subscribeLoop appId rest).2)

/-- Method `pubSubServer.Subscribe`, up to the start of the readers: the arguments
of the readers it starts and its return value. -/
def Subscribe (trusted : Option String) (subs : List Subscription) :
    List XReadArgs × Option PsErr :=
  match getAppId trusted with
  | .error e => ([], some e)
  | .ok appId => subscribeLoop appId subs

/-- Message `PubSub_Message`: id, topic and payload (bytes). -/
structure Message where
  Id : String
  Topic : String
  Payload : List Nat
  deriving DecidableEq, Repr

/-- Library functions used by the pubsub service: `proto.Marshal`, `proto.Unmarshal`
and the standard base64 encoding. -/
structure PubSubLib where
  marshal : Message → Option (List Nat)
  unmarshal : List Nat → Option Message
  b64encode : List Nat → String
  b64decode : String → Option (List Nat)

/-- Struct `redis.XMessage`: an entry of a stream, with its fields. -/
structure XMessage where
  ID : String
  Values : List (String × String)
  deriving DecidableEq, Repr

/-- Function `parseXMessage`. -/
def parseXMessage (lib : PubSubLib) (m : XMessage) (topic : String) :
    Except PsErr Message :=
  match kvGet "pubsub" m.Values with
  | none => .error (.failure "failed to get pubsub message value")
  | some v =>
    match lib.b64decode v with
    | none => .error (.failure "failed to decode pubsub message")
    | some b =>
      match lib.unmarshal b with
      | none => .error (.failure "failed to unmarshal pubsub message")
      | some r => .ok { r with Topic := topic, Id := m.ID }

/-- Message `PubSub_PublishRequest.Opts`. -/
structure PublishOptions where
  CreateTopic : Bool
  MaxLen : Int
  MinId : String
  deriving DecidableEq, Repr

/-- Struct `redis.XAddArgs`. -/
structure XAddArgs where
  Stream : String
  NoMkStream : Bool
  MaxLen : Int
  MinID : String
  Approx : Bool
  ID : String
  Values : List String
  deriving DecidableEq, Repr

/-- The fields of an entry, from the alternating field names and values of `XADD`. -/
def fieldPairs : List String → List (String × String)
  | k :: v :: rest => kvSet k v (fieldPairs rest)
  | _ => []

/-- The entry that the store holds after an `XADD` to which it gave the id `id`. -/
def entryOf (args : XAddArgs) (id : String) : XMessage :=
  { ID := id, Values := fieldPairs args.Values }

/-- The loop of `Publish` over the messages. `xadd n` is the answer of the store to
the `n`-th `XADD`: the id of the new entry, or an error. The result is the error
that ends the loop early, if any, and the entries added with their ids. -/
def publishLoop (lib : PubSubLib) (xadd : Nat → Except XErr String) (appId : String)
    (args : XAddArgs) : List Message → Nat → Option PsErr × List (XAddArgs × String)
  | [], _ => (none, [])
  | msg :: rest, n =>
    match lib.marshal msg with
    | none => (some (.invalidArgument "bad msg"), [])
    | some b =>
      match toStream appId msg.Topic with
      | .error e => (some e, [])
      | .ok stream =>
        let args' := { args with Stream := stream, Values := ["pubsub", lib.b64encode b] }
        match xadd n with
        | .error e => (some (.store e), [])
        | .ok id =>
          (((publishLoop lib xadd appId args' rest (n + 1)).1),
            (args', id) :: (publishLoop lib xadd appId args' rest (n + 1)).2)

/-- Method `pubSubServer.Publish`: its return value and the entries added. -/
def Publish (lib : PubSubLib) (xadd : Nat → Except XErr String) (trusted : Option String)
    (opts : Option PublishOptions) (msgs : List Message) :
    Option PsErr × List (XAddArgs × String) :=
  match getAppId trusted with
  | .error e => (some e, [])
  | .ok appId =>
    let args : XAddArgs :=
      match opts with
      | none =>
        { Stream := "", NoMkStream := false, MaxLen := 0, MinID := "", Approx := true,
          ID := "*", Values := [] }
      | some o =>
        { Stream := "", NoMkStream := !o.CreateTopic, MaxLen := o.MaxLen, MinID := o.MinId,
          Approx := true, ID := "*", Values := [] }
    publishLoop lib xadd appId args msgs 0

/-- Reading back the entries of a `Publish`: each entry is parsed with the topic of
its stream name. -/
def parseEntries (lib : PubSubLib) (entries : List (XAddArgs × String)) :
    List (Except PsErr Message) :=
  entries.map (fun e =>
    match toTopic e.1.Stream with
    | .error err => .error err
    | .ok topic => parseXMessage lib (entryOf e.1 e.2) topic)

/-- The messages with the ids that the store gave them, counting from `n`. -/
def withIds (ids : Nat → String) : List Message → Nat → List Message
  | [], _ => []
  | m :: rest, n => { m with Id := ids n } :: withIds ids rest (n + 1)

/-! ### Consumer groups -/

/-- Message `PubSub_Consumption`. -/
structure Consumption where
  Topic : String
  GroupId : Int
  AckTimeoutMilli : Int
  deriving DecidableEq, Repr

/-- Message `PubSub_Ack`. -/
structure Ack where
  Topic : String
  GroupId : Int
  MsgIds : List String
  deriving DecidableEq, Repr

/-- Struct `redis.XStream`: the entries read from one stream. -/
structure XStream where
  Stream : String
  Messages : List XMessage
  deriving DecidableEq, Repr

/-- The answers of the stream store to one worker, by the number of store calls the
worker has made before: the entries and the error of `XAUTOCLAIM`, the error of
`XGROUP CREATE`, the streams and the error of `XREADGROUP`. -/
structure GroupStore where
  xAutoClaim : Nat → List XMessage × Option XErr
  xGroupCreateMkStream : Nat → Option XErr
  xReadGroup : Nat → List XStream × Option XErr

/-- A store call of a worker: the command with stream, group and count, and for a
claim the number of entries it returned and whether it failed. -/
inductive GroupCall where
  | xAutoClaim (stream group : String) (count : Nat) (got : Nat) (failed : Bool)
  | xGroupCreateMkStream (stream group : String)
  | xReadGroup (stream group : String) (count : Nat)
  deriving DecidableEq, Repr

/-- A run of `readGroup`: the messages and the error it returns, `none` while it has
not returned, and the store calls it made. -/
structure GroupRun where
  result : Option (List Message × Option XErr)
  calls : List GroupCall
  deriving DecidableEq, Repr

/-- The run that makes `calls` and goes on as `r`. -/
def GroupRun.after (calls : List GroupCall) (r : GroupRun) : GroupRun :=
  { r with calls := calls ++ r.calls }

/-- Method `pubSubServer.createGroup`: a `BUSYGROUP` error counts as success. -/
def createGroup (o : GroupStore) (n : Nat) : Option XErr :=
  match o.xGroupCreateMkStream n with
  | some .busyGroup => none
  | e => e

/-- The parse loop of `readGroup`: entries that do not parse are skipped. -/
def parseAll (lib : PubSubLib) (topic : String) : List XMessage → List Message
  | [] => []
  | m :: rest =>
    match parseXMessage lib m topic with
    | .error _ => parseAll lib topic rest
    | .ok msg => msg :: parseAll lib topic rest

/-- The loop of `readGroup`, entered with no message collected. `fuel` bounds the
jumps, `n` counts the store calls made; `atRead` tells the label: `false` for
`xAutoClaim`, `true` for `xReadGroup` with an empty claim. -/
def readGroupLoop (lib : PubSubLib) (o : GroupStore) (stream group topic : String) :
    Nat → Nat → Bool → GroupRun
  | 0, _, _ => { result := none, calls := [] }
  | fuel + 1, n, false =>
    match o.xAutoClaim n with
    | (_, some e) =>
      if e = .noGroup then
        match createGroup o (n + 1) with
        | none =>
          (readGroupLoop lib o stream group topic fuel (n + 2) false).after
            [.xAutoClaim stream group 1 0 true, .xGroupCreateMkStream stream group]
        | some e' =>
          { result := some ([], some e'),
            calls := [.xAutoClaim stream group 1 0 true, .xGroupCreateMkStream stream group] }
      else { result := some ([], some e), calls := [.xAutoClaim stream group 1 0 true] }
    | (r, none) =>
      if r.length = 0 then
        (readGroupLoop lib o stream group topic fuel (n + 1) true).after
          [.xAutoClaim stream group 1 0 false]
      else
        let msgs := parseAll lib topic r
        if msgs.length = 0 then
          (readGroupLoop lib o stream group topic fuel (n + 1) false).after
            [.xAutoClaim stream group 1 r.length false]
        else
          { result := some (msgs, none), calls := [.xAutoClaim stream group 1 r.length false] }
  | fuel + 1, n, true =>
    match o.xReadGroup n with
    | (r1, err) =>
      if err ≠ none ∧ err ≠ some .nil then
        if err = some .noGroup then
          match createGroup o (n + 1) with
          | none =>
            (readGroupLoop lib o stream group topic fuel (n + 2) true).after
              [.xReadGroup stream group 1, .xGroupCreateMkStream stream group]
          | some e' =>
            { result := some ([], some e'),
              calls := [.xReadGroup stream group 1, .xGroupCreateMkStream stream group] }
        else { result := some ([], err), calls := [.xReadGroup stream group 1] }
      else
        let r := (r1.filter (fun e => decide (e.Stream = stream))).flatMap
          (fun e => e.Messages)
        let msgs := parseAll lib topic r
        if msgs.length = 0 then
          (readGroupLoop lib o stream group topic fuel (n + 1) false).after
            [.xReadGroup stream group 1]
        else { result := some (msgs, err), calls := [.xReadGroup stream group 1] }

/-- Method `pubSubServer.readGroup`; the error of the result is a panic. -/
def readGroup (lib : PubSubLib) (o : GroupStore) (appId : String) (con : Consumption)
    (fuel : Nat) : Except PsErr GroupRun :=
  match toStream appId con.Topic with
  | .error e => .error e
  | .ok stream =>
    .ok (readGroupLoop lib o stream (formatInt con.GroupId) con.Topic fuel 0 false)

/-- Is every group read of the calls made after a claim of the same iteration that
returned nothing? `emptyClaim` tells whether the last claim did. -/
def readsFollowEmptyClaim : List GroupCall → Bool → Bool
  | [], _ => true
  | .xAutoClaim _ _ _ got failed :: rest, _ =>
    readsFollowEmptyClaim rest (decide (got = 0) && !failed)
  | .xGroupCreateMkStream _ _ :: rest, emptyClaim => readsFollowEmptyClaim rest emptyClaim
  | .xReadGroup _ _ _ :: rest, emptyClaim => emptyClaim && readsFollowEmptyClaim rest emptyClaim

/-- The ack phase of `Consume`: method `pubSubServer.ack`; `xack n` is the error of
the `n`-th `XACK`. -/
def ackLoop (xack : Nat → Option XErr) (appId : String) : List Ack → Nat → Option PsErr
  | [], _ => none
  | ack :: rest, n =>
    match toStream appId ack.Topic with
    | .error e => some e
    | .ok _ =>
      match xack n with
      | some _ => some (.unavailable "db error")
      | none => ackLoop xack appId rest (n + 1)

/-- How a call ends: it returns, it panics, or it does not return. -/
inductive Ending (α : Type) where
  | returned (a : α)
  | panicked (e : PsErr)
  | blocked

/-- The messages that a worker of `Consume` appends to the response. -/
def workerMsgs (r : Except PsErr GroupRun) : List Message :=
  match r with
  | .ok { result := some (msgs, none), calls := _ } => msgs
  | _ => []

/-- Method `pubSubServer.Consume`. Each consumption comes with the store answers seen
by its worker and a bound on the worker's jumps; `order` lists the workers in the
order in which they enter the critical section. A worker that never returns keeps
`Consume` waiting. -/
def Consume (lib : PubSubLib) (xack : Nat → Option XErr) (trusted : Option String)
    (acks : List Ack) (workers : List (Consumption × GroupStore × Nat)) (order : List Nat) :
    Ending (Except PsErr (List Message)) :=
  match getAppId trusted with
  | .error e => .returned (.error e)
  | .ok appId =>
    match ackLoop xack appId acks 0 with
    | some (.panic msg) => .panicked (.panic msg)
    | some e => .returned (.error e)
    | none =>
      let runs := workers.map (fun w => readGroup lib w.2.1 appId w.1 w.2.2)
      match runs.find? (fun r => match r with
        | .error _ => true
        | .ok _ => false) with
      | some (.error e) => .panicked e
      | _ =>
        if runs.any (fun r => match r with
          | .ok { result := none, calls := _ } => true
          | _ => false) then .blocked
        else
          .returned (.ok (order.flatMap (fun i => ((runs.get? i).map workerMsgs).getD [])))

/-! ## Suffix index (`suffix_tree.go`) -/

/-- Two's-complement wrap of a 32-bit signed result. -/
def wrap32 (x : Int) : Int := (x + 2 ^ 31) % 2 ^ 32 - 2 ^ 31

/-- Struct `SuffixTree`: `Num` (an `int32`), `Ends`, and the map `Sons` as a list
of entries. -/
inductive SuffixTree where
  | mk (Num : Int) (Ends : List String) (Sons : List (Char × SuffixTree))

/-- Field `Num`. -/
def SuffixTree.Num : SuffixTree → Int
  | .mk num _ _ => num

/-- Field `Ends`. -/
def SuffixTree.Ends : SuffixTree → List String
  | .mk _ ends _ => ends

/-- Field `Sons`. -/
def SuffixTree.Sons : SuffixTree → List (Char × SuffixTree)
  | .mk _ _ sons => sons

/-- Function `NewSuffixTree`. -/
def NewSuffixTree : SuffixTree := .mk 0 [] []

/-- Map lookup `Sons[c]`. -/
def sonGet (c : Char) : List (Char × SuffixTree) → Option SuffixTree
  | [] => none
  | (c', t) :: rest => if c' = c then some t else sonGet c rest

/-- Map assignment `Sons[c] = t`. -/
def sonSet (c : Char) (t : SuffixTree) : List (Char × SuffixTree) → List (Char × SuffixTree)
  | [] => [(c, t)]
  | (c', t') :: rest => if c' = c then (c, t) :: rest else (c', t') :: sonSet c t rest

/-- Map removal `delete(Sons, c)`. -/
def sonErase (c : Char) (sons : List (Char × SuffixTree)) : List (Char × SuffixTree) :=
  sons.filter (fun e => e.1 ≠ c)

/-- Go's `<` on strings: byte-wise, which on UTF-8 text is the lexicographic order
of the code points. -/
def strLess (x y : String) : Prop := x.data < y.data

instance (x y : String) : Decidable (strLess x y) := by
  unfold strLess
  infer_instance

/-- The loop of `sort.Search` with the test `ends[h] >= s`, on the window `[i, j)`;
`fuel` bounds the iterations (the window shrinks in each one). -/
def searchLoop (ends : List String) (s : String) : Nat → Nat → Nat → Nat
  | 0, i, _ => i
  | fuel + 1, i, j =>
    if i < j then
      if strLess (ends.getD ((i + j) / 2) "") s then searchLoop ends s fuel ((i + j) / 2 + 1) j
      else searchLoop ends s fuel i ((i + j) / 2)
    else i

/-- Function `sort.SearchStrings`. -/
def searchStrings (ends : List String) (s : String) : Nat :=
  searchLoop ends s ends.length 0 ends.length

/-- Method `SuffixTree.add`: the result and the tree afterwards. -/
def SuffixTree.add : List Char → String → SuffixTree → Bool × SuffixTree
  | [], s, .mk num ends sons =>
    let i := searchStrings ends s
    if i < ends.length ∧ ends.getD i "" = s then (false, .mk num ends sons)
    else (true, .mk (wrap32 (num + 1)) (ends.take i ++ s :: ends.drop i) sons)
  | c :: a, s, .mk num ends sons =>
    let son := (sonGet c sons).getD NewSuffixTree
    if !(SuffixTree.add a s son).1 then
      (false, .mk num ends (sonSet c (SuffixTree.add a s son).2 sons))
    else (true, .mk (wrap32 (num + 1)) ends (sonSet c (SuffixTree.add a s son).2 sons))

/-- Method `SuffixTree.del`: the result and the tree afterwards. -/
def SuffixTree.del : List Char → String → SuffixTree → Bool × SuffixTree
  | [], s, .mk num ends sons =>
    let i := searchStrings ends s
    if ¬ (i < ends.length ∧ ends.getD i "" = s) then (false, .mk num ends sons)
    else (true, .mk (wrap32 (num - 1)) (ends.take i ++ ends.drop (i + 1)) sons)
  | c :: a, s, .mk num ends sons =>
    match sonGet c sons with
    | none => (false, .mk num ends sons)
    | some son =>
      if !(SuffixTree.del a s son).1 then
        (false, .mk num ends (sonSet c (SuffixTree.del a s son).2 sons))
      else if (SuffixTree.del a s son).2.Num = 0 then
        (true, .mk (wrap32 (num - 1)) ends (sonErase c sons))
      else (true, .mk (wrap32 (num - 1)) ends (sonSet c (SuffixTree.del a s son).2 sons))

mutual
/-- Method `SuffixTree.search` for the empty query: the `Ends` of the node, then
those of the subtrees of its sons. -/
def SuffixTree.collect : SuffixTree → List String
  | .mk _ ends sons => ends ++ collectSons sons
/-- The range loop of `search` over the sons. -/
def collectSons : List (Char × SuffixTree) → List String
  | [] => []
  | (_, son) :: rest => son.collect ++ collectSons rest
end

/-- Method `SuffixTree.search`. -/
def SuffixTree.search : List Char → SuffixTree → List String
  | [], t => t.collect
  | c :: a, .mk _ _ sons =>
    match sonGet c sons with
    | none => []
    | some son => SuffixTree.search a son

/-- Method `SuffixTree.Add`; the runes of `s` are its characters. -/
def SuffixTree.Add (s : String) (t : SuffixTree) : Bool × SuffixTree :=
  let a := s.data
  if !(t.add a s).1 then (false, (t.add a s).2)
  else
    (true, (List.range' 1 (a.length - 1)).foldl
      (fun t i => (t.add (a.drop i) s).2) (t.add a s).2)

/-- Method `SuffixTree.Del`. -/
def SuffixTree.Del (s : String) (t : SuffixTree) : Bool × SuffixTree :=
  let a := s.data
  if (t.del a s).1 then (false, (t.del a s).2)
  else
    (true, (List.range' 1 (a.length - 1)).foldl
      (fun t i => (t.del (a.drop i) s).2) (t.del a s).2)

/-- Method `SuffixTree.Search`. -/
def SuffixTree.Search (s : String) (t : SuffixTree) : List String :=
  t.search s.data

/-- The node reached from `t` along the runes `p`; a node that does not exist
reads as an empty one. -/
def nodeAt : List Char → SuffixTree → SuffixTree
  | [], t => t
  | c :: p, t => nodeAt p ((sonGet c t.Sons).getD NewSuffixTree)

/-- The sum of `Num` over the sons. -/
def sumNum (sons : List (Char × SuffixTree)) : Int :=
  (sons.map (fun e => e.2.Num)).sum

mutual
/-- The number of entries stored in the subtree: the length of `Ends` of every
node in it. -/
def SuffixTree.entries : SuffixTree → Nat
  | .mk _ ends sons => ends.length + entriesSons sons
/-- The number of entries stored below the sons. -/
def entriesSons : List (Char × SuffixTree) → Nat
  | [] => 0
  | (_, son) :: rest => son.entries + entriesSons rest
end

/-- A node is in order: the keys of `Sons` are distinct (it is a map), and `Num` is
the 32-bit value of `len(Ends)` plus the sum of `Num` over the sons. -/
def nodeOk (n : SuffixTree) : Prop :=
  (n.Sons.map Prod.fst).Nodup ∧ n.Num = wrap32 (n.Ends.length + sumNum n.Sons)

/-- Every node of the tree is in order. -/
def SuffixTree.ok (t : SuffixTree) : Prop := ∀ p, nodeOk (nodeAt p t)

/-- At every node of the tree `Ends` is strictly increasing, as `sort.SearchStrings`
expects it. -/
def SuffixTree.sorted (t : SuffixTree) : Prop := ∀ p, (nodeAt p t).Ends.Pairwise strLess

/-- The paths at which `Add` stores a string with runes `a`: `a` itself and its
non-empty proper suffixes. -/
def entryPaths (a : List Char) : List (List Char) :=
  a :: (List.range' 1 (a.length - 1)).map (fun i => a.drop i)

/-- The tree after a sequence of `Add` calls, oldest first. -/
def addAll (t : SuffixTree) : List String → SuffixTree
  | [] => t
  | s :: rest => addAll (t.Add s).2 rest

/-- A call of the index: `Add` or `Del`. -/
inductive IndexOp where
  | add (s : String)
  | del (s : String)
  deriving DecidableEq, Repr

/-- The tree after a sequence of `Add` and `Del` calls, oldest first. -/
def runIndex (t : SuffixTree) : List IndexOp → SuffixTree
  | [] => t
  | .add s :: rest => runIndex (t.Add s).2 rest
  | .del s :: rest => runIndex (t.Del s).2 rest

/-! ## Sample data -/

/-- A sample app. -/
def appA : xApp := { Id := "A", Key := 7, Secret := "s", Fingerprint := "f" }

/-- A sample token encoder: three tokens for two users of `appA`. -/
def demoNewToken (app : xApp) (u : String) (seed : Nat) : Except String String :=
  if app = appA ∧ u = "U1" ∧ seed = 0 then .ok "t10"
  else if app = appA ∧ u = "U1" ∧ seed = 1 then .ok "t11"
  else if app = appA ∧ u = "U2" ∧ seed = 0 then .ok "t20"
  else .error "no entropy"

/-- The decoder of the sample tokens. -/
def demoDecToken (t : String) : Except String (xApp × String) :=
  if t = "t10" ∨ t = "t11" then .ok (appA, "U1")
  else if t = "t20" then .ok (appA, "U2")
  else .error "malformed token"

/-- A sample codec: ids are `u…` for users and `r…` for roles. -/
def demoCodec : Codec :=
  { newToken := demoNewToken
    decToken := demoDecToken
    newUserId := fun _ seed => if seed = 0 then "U1" else "U2"
    decId := fun id =>
      (7, if id.data.head? = some 'U' then 1 else if id.data.head? = some 'R' then 2 else 0)
    userIdTag := 1
    roleIdTag := 2
    idBelongToAppId := fun appId _ => appId == "A"
    hmac := fun st secret => secret ++ st.Nonce
    equalFold := fun a b => a.data.map Char.toLower == b.data.map Char.toLower }

/-- A world with empty stores in which every store call fails. -/
def World.down : World := { World.init with outage := fun _ => true }

/-- A world with empty stores in which exactly the third store call fails. -/
def World.thirdFails : World := { World.init with outage := fun n => decide (n = 2) }

/-- A sample world of app `A`: `U1` holds `a1` and has role `R1`, `U2` holds `a2`,
both have a session, no store call fails. -/
def demoWorld : World :=
  { World.init with
    users := fun a =>
      if a = "A" then
        [{ Id := "U1", AcctIds := ["a1"], CreateTime := 1, CreateIp := "", LoginTime := 1,
           LoginIp := "", Metadata := [(["lang"], "en"), (["tz"], "utc")], BanTo := zeroTime,
           BanFor := "" },
         { Id := "U2", AcctIds := ["a2"], CreateTime := 2, CreateIp := "", LoginTime := 2,
           LoginIp := "", Metadata := [], BanTo := zeroTime, BanFor := "" }]
      else []
    roles := fun a =>
      if a = "A" then
        [{ Id := "R1", Index := 3, UserId := "U1", CreateTime := 1, SignInTime := 1,
           Metadata := [] }]
      else []
    rdbAuth := [("U1", .packed "t10" { RoleId := "", RoleIndex := 0 }),
                ("U2", .packed "t20" { RoleId := "", RoleIndex := 0 })] }

/-- A sample login state. -/
def demoState : UniformLoginState :=
  { AcctId := ["u$1"], Nonce := "n1", Timestamp := 1000, Signature := "sn1" }

/-- A sample app whose id contains the separator of the nonce keys. -/
def appAB : xApp := { Id := "a$b", Key := 8, Secret := "s", Fingerprint := "f" }

/-- A sample app whose id is the part of `appAB.Id` before the separator. -/
def appA' : xApp := { Id := "a", Key := 9, Secret := "s", Fingerprint := "f" }

/-- A login state with nonce `c`. -/
def stateC : UniformLoginState := { demoState with Nonce := "c" }

/-- A login state with nonce `b$c`. -/
def stateBC : UniformLoginState := { demoState with Nonce := "b$c" }

/-- A login state with nonce `n2`. -/
def stateN2 : UniformLoginState := { demoState with Nonce := "n2" }

/-- The sample login state, sent again two seconds later without signature. -/
def stateReplay : UniformLoginState :=
  { demoState with Timestamp := 1002, Signature := "" }

/-- A sample history: sessions for `U1`, `U2`, and `U1` again. -/
def demoCalls : List SessCall :=
  [{ app := appA, userId := "U1", seed := 0 }, { app := appA, userId := "U2", seed := 0 },
   { app := appA, userId := "U1", seed := 1 }]

/-- A sample message on topic `news`. -/
def msgNews : Message := { Id := "", Topic := "news", Payload := [104, 105] }

/-- A sample message on topic `chat:eu`. -/
def msgChat : Message := { Id := "", Topic := "chat:eu", Payload := [] }

/-- A sample library: a serialisation known for the two sample messages, and an
encoding of bytes by capital letters standing in for base64. -/
def demoLib : PubSubLib :=
  { marshal := fun m =>
      if m = msgNews then some [1, 2, 3] else if m = msgChat then some [4, 5] else none
    unmarshal := fun b =>
      if b = [1, 2, 3] then some msgNews else if b = [4, 5] then some msgChat else none
    b64encode := fun b => String.mk (b.map (fun n => Char.ofNat (n + 65)))
    b64decode := fun v =>
      if v.data.all (fun ch => decide ('A' ≤ ch ∧ ch ≤ 'Z')) then
        some (v.data.map (fun ch => ch.toNat - 65))
      else none }

/-- Sample ids of new entries: `1-0`, `2-0`, and so on. -/
def demoIds (n : Nat) : String := toString (n + 1) ++ "-0"

/-- The stored entry of `msgNews` with id `7-0`. -/
def entryNews : XMessage := { ID := "7-0", Values := [("pubsub", "BCD")] }

/-- A sample consumption of topic `news` by group 3. -/
def conNews : Consumption := { Topic := "news", GroupId := 3, AckTimeoutMilli := 500 }

/-- A store with one stale pending entry to claim. -/
def storeStale : GroupStore :=
  { xAutoClaim := fun _ => ([entryNews], none)
    xGroupCreateMkStream := fun _ => none
    xReadGroup := fun _ => ([], some .nil) }

/-- A store without the group at first, then with nothing to claim and one new
entry to read. -/
def storeFresh : GroupStore :=
  { xAutoClaim := fun n => if n = 0 then ([], some .noGroup) else ([], none)
    xGroupCreateMkStream := fun _ => none
    xReadGroup := fun _ => ([{ Stream := "myapp:news", Messages := [entryNews] }], none) }

/-- A store that fails every call. -/
def storeDown : GroupStore :=
  { xAutoClaim := fun _ => ([], some (.other "connection refused"))
    xGroupCreateMkStream := fun _ => some (.other "connection refused")
    xReadGroup := fun _ => ([], some (.other "connection refused")) }

/-- The index that holds the string "ab". -/
def treeAb : SuffixTree := addAll NewSuffixTree ["ab"]

/-- A history of the index: two adds, a delete, an add. -/
def opsDemo : List IndexOp := [.add "ab", .add "b", .del "ab", .add "abc"]

/-- The string of `n` letters `a`. -/
def longString (n : Nat) : String := String.mk (List.replicate n 'a')

/-- The strings `a`, `aa`, ... up to `n` letters. -/
def manyStrings (n : Nat) : List String := (List.range n).map (fun k => longString (k + 1))

/-! ## Session lemmas -/

theorem kvGet_kvSet_same {β : Type} (k : String) (v : β) (m : List (String × β)) :
    kvGet k (kvSet k v m) = some v := by
  induction m with
  | nil => simp [kvSet, kvGet]
  | cons p rest ih =>
    obtain ⟨k', v'⟩ := p
    by_cases h : k' = k
    · simp [kvSet, kvGet, h]
    · simp [kvSet, kvGet, h, ih]

theorem kvGet_kvSet_other {β : Type} (k k' : String) (v : β) (m : List (String × β))
    (h : k ≠ k') : kvGet k (kvSet k' v m) = kvGet k m := by
  induction m with
  | nil => simp [kvSet, kvGet, Ne.symm h]
  | cons p rest ih =>
    obtain ⟨k₁, v₁⟩ := p
    by_cases h₁ : k₁ = k'
    · subst h₁
      simp [kvSet, kvGet, Ne.symm h]
    · by_cases h₂ : k₁ = k
      · simp [kvSet, kvGet, h₂, h]
      · simp [kvSet, kvGet, h₁, h₂, ih]

theorem newSess_outage (c : Codec) (w : World) (app : xApp) (u : String) (seed : Nat) :
    (newSess c w app u seed).2.outage = w.outage := by
  unfold newSess World.redisSet World.call
  cases c.newToken app u seed with
  | error e => rfl
  | ok t => cases w.outage w.log.length <;> rfl

theorem newSess_rdbAuth (c : Codec) (w : World) (hw : w.healthy) (app : xApp)
    (u : String) (seed : Nat) :
    (newSess c w app u seed).2.rdbAuth =
      match c.newToken app u seed with
      | .ok t => kvSet u (.packed t { RoleId := "", RoleIndex := 0 }) w.rdbAuth
      | .error _ => w.rdbAuth := by
  unfold newSess World.redisSet World.call
  cases c.newToken app u seed with
  | error e => rfl
  | ok t => simp [hw w.log.length, marshalSess]

theorem runNewSess_outage (c : Codec) (calls : List SessCall) (w : World) :
    (runNewSess c w calls).outage = w.outage := by
  induction calls generalizing w with
  | nil => rfl
  | cons k rest ih => rw [runNewSess, ih, newSess_outage]

/-- The stored session of `u` after a history is the one of the most recent call
for `u` that returned a session. -/
theorem runNewSess_kvGet (c : Codec) (u : String) (calls : List SessCall) (w : World)
    (hw : w.healthy) (acc : Option (xApp × String))
    (hacc : kvGet u w.rdbAuth =
      acc.map (fun p => Blob.packed p.2 { RoleId := "", RoleIndex := 0 })) :
    kvGet u (runNewSess c w calls).rdbAuth =
      (latestSess c u acc calls).map
        (fun p => Blob.packed p.2 { RoleId := "", RoleIndex := 0 }) := by
  induction calls generalizing w acc with
  | nil => simpa [runNewSess, latestSess] using hacc
  | cons k rest ih =>
    have hw' : (newSess c w k.app k.userId k.seed).2.healthy := by
      intro n
      rw [newSess_outage]
      exact hw n
    have hst := newSess_rdbAuth c w hw k.app k.userId k.seed
    rw [runNewSess, latestSess]
    by_cases hk : k.userId = u
    · rw [if_pos hk]
      cases hnt : c.newToken k.app k.userId k.seed with
      | error e =>
        rw [hnt] at hst
        exact ih _ hw' acc (by rw [hst]; exact hacc)
      | ok t =>
        rw [hnt] at hst
        refine ih _ hw' (some (k.app, t)) ?_
        rw [hst, hk, kvGet_kvSet_same]
        rfl
    · rw [if_neg hk]
      refine ih _ hw' acc ?_
      rw [hst]
      cases c.newToken k.app k.userId k.seed with
      | error e => exact hacc
      | ok t =>
        show kvGet u (kvSet k.userId _ w.rdbAuth) = _
        rw [kvGet_kvSet_other u k.userId _ _ (Ne.symm hk)]
        exact hacc

/-- The result of `checkToken` when no store call fails. -/
theorem checkToken_healthy (c : Codec) (w : World) (hw : w.healthy) (token : String) :
    (checkToken c w token).1 =
      match c.decToken token with
      | .error _ => .error .invalidToken
      | .ok (app, userId) =>
        match kvGet userId w.rdbAuth with
        | none => .error .invalidToken
        | some (.raw _) => .error .malformedSessData
        | some (.packed t d) =>
          if t ≠ token then .error .invalidToken
          else .ok { AppId := app.Id, UserId := userId, Token := t, Data := d,
                     app := some app } := by
  unfold checkToken World.redisGet World.call
  cases c.decToken token with
  | error e => rfl
  | ok p =>
    obtain ⟨app, userId⟩ := p
    simp only [hw w.log.length]
    cases hg : kvGet userId w.rdbAuth with
    | none => rfl
    | some b =>
      cases b with
      | raw bytes => rfl
      | packed t d =>
        simp only [unmarshalSess]
        by_cases ht : t = token <;> simp [ht]

theorem latestSess_append (c : Codec) (u : String) (l₁ l₂ : List SessCall)
    (acc : Option (xApp × String)) :
    latestSess c u acc (l₁ ++ l₂) = latestSess c u (latestSess c u acc l₁) l₂ := by
  induction l₁ generalizing acc with
  | nil => rfl
  | cons k rest ih =>
    simp only [List.cons_append, latestSess]
    split
    · split <;> exact ih _
    · exact ih _

theorem mintedTokens_append (c : Codec) (l₁ l₂ : List SessCall) :
    mintedTokens c (l₁ ++ l₂) = mintedTokens c l₁ ++ mintedTokens c l₂ := by
  induction l₁ with
  | nil => rfl
  | cons k rest ih =>
    simp only [List.cons_append, mintedTokens]
    split <;> simp [ih]

/-- The latest session is the starting value or comes from a call of the history. -/
theorem latestSess_cases (c : Codec) (u : String) (l : List SessCall)
    (acc : Option (xApp × String)) :
    latestSess c u acc l = acc ∨
      ∃ app t, latestSess c u acc l = some (app, t) ∧ t ∈ mintedTokens c l ∧
        ∃ seed, c.newToken app u seed = .ok t := by
  induction l generalizing acc with
  | nil => exact Or.inl rfl
  | cons k rest ih =>
    simp only [latestSess, mintedTokens]
    by_cases hk : k.userId = u
    · rw [if_pos hk]
      cases hnt : c.newToken k.app k.userId k.seed with
      | error e => simpa using ih acc
      | ok t =>
        rcases ih (some (k.app, t)) with h | ⟨app, t', h, hm, hs⟩
        · exact Or.inr ⟨k.app, t, h, by simp, k.seed, by rw [← hk]; exact hnt⟩
        · exact Or.inr ⟨app, t', h, by simp [hm], hs⟩
    · rw [if_neg hk]
      rcases ih acc with h | ⟨app, t', h, hm, hs⟩
      · exact Or.inl h
      · refine Or.inr ⟨app, t', h, ?_, hs⟩
        cases c.newToken k.app k.userId k.seed <;> simp [hm]

/-- After a call for `u` that returned a session, the latest session comes from the
history. -/
theorem latestSess_of_call (c : Codec) (u : String) (l : List SessCall)
    (acc : Option (xApp × String))
    (h : ∃ k ∈ l, k.userId = u ∧ ∃ t, c.newToken k.app k.userId k.seed = .ok t) :
    ∃ app t, latestSess c u acc l = some (app, t) ∧ t ∈ mintedTokens c l := by
  induction l generalizing acc with
  | nil => simp at h
  | cons k rest ih =>
    obtain ⟨k', hk', hu, t', ht'⟩ := h
    simp only [latestSess, mintedTokens]
    rcases List.mem_cons.mp hk' with rfl | hrest
    · rw [if_pos hu, ht']
      rcases latestSess_cases c u rest (some (k'.app, t')) with h | ⟨app, t, h, hm, _⟩
      · exact ⟨k'.app, t', h, by simp⟩
      · exact ⟨app, t, h, by simp [hm]⟩
    · obtain ⟨app, t, h, hm⟩ :
          ∃ app t, latestSess c u
            (if k.userId = u then
              match c.newToken k.app k.userId k.seed with
              | .ok t => some (k.app, t)
              | .error _ => acc
             else acc) rest = some (app, t) ∧ t ∈ mintedTokens c rest :=
        ih _ ⟨k', hrest, hu, t', ht'⟩
      refine ⟨app, t, ?_, ?_⟩
      · rw [← h]
        split
        · split <;> rfl
        · rfl
      · cases c.newToken k.app k.userId k.seed <;> simp [hm]

/-- From an empty session store and with no failing store call, `checkToken` accepts
exactly the token minted in the most recent call for the user. -/
theorem checkToken_latestSess (c : Codec)
    (hrt : ∀ app u seed t, c.newToken app u seed = .ok t → c.decToken t = .ok (app, u))
    (calls : List SessCall) (hfresh : (mintedTokens c calls).Nodup)
    (w0 : World) (hempty : w0.rdbAuth = []) (hup : w0.healthy) :
    (∀ t u, (∃ s, (checkToken c (runNewSess c w0 calls) t).1 = .ok s ∧ s.UserId = u) ↔
        ∃ app, latestSess c u none calls = some (app, t)) ∧
    (∀ t u app, latestSess c u none calls = some (app, t) →
        (checkToken c (runNewSess c w0 calls) t).1 =
          .ok { AppId := app.Id, UserId := u, Token := t,
                Data := { RoleId := "", RoleIndex := 0 }, app := some app }) ∧
    (∀ pre k post t, calls = pre ++ k :: post →
        c.newToken k.app k.userId k.seed = .ok t →
        (∃ k' ∈ post, k'.userId = k.userId ∧
          ∃ t', c.newToken k'.app k'.userId k'.seed = .ok t') →
        (checkToken c (runNewSess c w0 calls) t).1 = .error .invalidToken) := by
  have hw : (runNewSess c w0 calls).healthy := by
    intro n
    rw [runNewSess_outage]
    exact hup n
  have hget : ∀ u, kvGet u (runNewSess c w0 calls).rdbAuth =
      (latestSess c u none calls).map
        (fun p => Blob.packed p.2 { RoleId := "", RoleIndex := 0 }) := fun u =>
    runNewSess_kvGet c u calls w0 hup none (by simp [hempty, kvGet])
  have hdec : ∀ u app t, latestSess c u none calls = some (app, t) →
      c.decToken t = .ok (app, u) := by
    intro u app t h
    rcases latestSess_cases c u calls none with h' | ⟨app', t', h', _, seed, hs⟩
    · rw [h'] at h
      cases h
    · rw [h'] at h
      cases h
      exact hrt _ _ _ _ hs
  have hacc : ∀ t u app, latestSess c u none calls = some (app, t) →
      (checkToken c (runNewSess c w0 calls) t).1 =
        .ok { AppId := app.Id, UserId := u, Token := t,
              Data := { RoleId := "", RoleIndex := 0 }, app := some app } := by
    intro t u app h
    rw [checkToken_healthy c _ hw, hdec u app t h]
    simp only [hget u, h, Option.map_some']
    simp
  refine ⟨?_, hacc, ?_⟩
  · intro t u
    constructor
    · rintro ⟨s, hs, hsu⟩
      rw [checkToken_healthy c _ hw] at hs
      cases hd : c.decToken t with
      | error e => simp [hd] at hs
      | ok p =>
        obtain ⟨app, userId⟩ := p
        simp only [hd, hget userId] at hs
        cases hl : latestSess c userId none calls with
        | none => simp [hl] at hs
        | some q =>
          obtain ⟨app', t'⟩ := q
          simp only [hl, Option.map_some'] at hs
          by_cases ht : t' = t
          · subst ht
            simp at hs
            subst hs
            simp at hsu
            subst hsu
            exact ⟨app', hl⟩
          · simp [ht] at hs
    · rintro ⟨app, h⟩
      exact ⟨_, hacc t u app h, rfl⟩
  · intro pre k post t hcalls hk hlater
    obtain ⟨app, t', hl, hm⟩ := latestSess_of_call c k.userId post
      (latestSess c k.userId none (pre ++ [k])) hlater
    have hl' : latestSess c k.userId none calls = some (app, t') := by
      rw [hcalls, show pre ++ k :: post = (pre ++ [k]) ++ post by simp, latestSess_append]
      exact hl
    have hne : t' ≠ t := by
      intro heq
      rw [hcalls, mintedTokens_append] at hfresh
      simp only [mintedTokens, hk] at hfresh
      have := (List.nodup_append.mp hfresh).2.1
      rw [List.nodup_cons] at this
      exact this.1 (heq ▸ hm)
    rw [checkToken_healthy c _ hw, hrt _ _ _ _ hk]
    simp only [hget k.userId, hl', Option.map_some']
    simp [hne]

/-- The result of `newSess`: the session with the minted token, or the failure of
the codec. -/
theorem newSess_fst (c : Codec) (w : World) (app : xApp) (u : String) (seed : Nat) :
    (newSess c w app u seed).1 =
      match c.newToken app u seed with
      | .ok t => .ok { Token := t, AppId := app.Id, UserId := u,
                       Data := { RoleId := "", RoleIndex := 0 }, app := none }
      | .error e => .error (.driver e) := by
  unfold newSess
  cases c.newToken app u seed with
  | error e => rfl
  | ok t =>
    simp only
    split <;> rfl

theorem newSess_ok_iff (c : Codec) (w : World) (app : xApp) (u : String) (seed : Nat)
    (s : xSess) :
    (newSess c w app u seed).1 = .ok s ↔
      c.newToken app u seed = .ok s.Token ∧
      s = { Token := s.Token, AppId := app.Id, UserId := u,
            Data := { RoleId := "", RoleIndex := 0 }, app := none } := by
  rw [newSess_fst]
  cases c.newToken app u seed with
  | error e => simp
  | ok t =>
    simp only [Except.ok.injEq]
    constructor
    · intro h
      subst h
      exact ⟨rfl, rfl⟩
    · rintro ⟨h₁, h₂⟩
      rw [h₂, h₁]

theorem returnedTokens_eq (c : Codec) (calls : List SessCall) (w : World) :
    returnedTokens c w calls = mintedTokens c calls := by
  induction calls generalizing w with
  | nil => rfl
  | cons k rest ih =>
    simp only [returnedTokens, mintedTokens, newSess_fst]
    cases c.newToken k.app k.userId k.seed with
    | error e => exact ih _
    | ok t => simp only [ih]

theorem latestReturned_eq (c : Codec) (u : String) (calls : List SessCall) (w : World)
    (acc : Option (xApp × xSess)) :
    (latestReturned c u acc w calls).map (fun p => (p.1, p.2.Token)) =
      latestSess c u (acc.map (fun p => (p.1, p.2.Token))) calls := by
  induction calls generalizing w acc with
  | nil => rfl
  | cons k rest ih =>
    simp only [latestReturned, latestSess, newSess_fst]
    by_cases hk : k.userId = u
    · simp only [if_pos hk]
      cases c.newToken k.app k.userId k.seed with
      | error e => exact ih _ _
      | ok t => exact ih _ _
    · simp only [if_neg hk]
      exact ih _ _

/-- Claim C1. Starting from an empty session store, after any history of `newSess`
calls in which no store call fails, for a token codec that round-trips and with the
tokens of the returned sessions all different: `checkToken t` succeeds for user `u`
exactly when `t` is the token of the session returned by the most recent `newSess`
for `u`; that token is accepted with `UserId = u` and `AppId = app.Id`; and the
token of every session returned by an earlier `newSess` for the same user fails
with `InvalidToken`. -/
theorem checkToken_accepts_exactly_latest (c : Codec)
    (hrt : ∀ app u seed t, c.newToken app u seed = .ok t → c.decToken t = .ok (app, u))
    (calls : List SessCall) (w0 : World) (hfresh : (returnedTokens c w0 calls).Nodup)
    (hempty : w0.rdbAuth = []) (hup : w0.healthy) :
    (∀ t u, (∃ s, (checkToken c (runNewSess c w0 calls) t).1 = .ok s ∧ s.UserId = u) ↔
        ∃ app s, latestReturned c u none w0 calls = some (app, s) ∧ s.Token = t) ∧
    (∀ u app s, latestReturned c u none w0 calls = some (app, s) →
        (checkToken c (runNewSess c w0 calls) s.Token).1 =
          .ok { AppId := app.Id, UserId := u, Token := s.Token,
                Data := { RoleId := "", RoleIndex := 0 }, app := some app }) ∧
    (∀ pre k mid k' post s s', calls = pre ++ k :: (mid ++ k' :: post) →
        (newSess c (runNewSess c w0 pre) k.app k.userId k.seed).1 = .ok s →
        k'.userId = k.userId →
        (newSess c (runNewSess c w0 (pre ++ k :: mid)) k'.app k'.userId k'.seed).1 =
          .ok s' →
        (checkToken c (runNewSess c w0 calls) s.Token).1 = .error .invalidToken) := by
  rw [returnedTokens_eq] at hfresh
  obtain ⟨h₁, h₂, h₃⟩ := checkToken_latestSess c hrt calls hfresh w0 hempty hup
  have hmap : ∀ u, (latestReturned c u none w0 calls).map (fun p => (p.1, p.2.Token)) =
      latestSess c u none calls := fun u => latestReturned_eq c u calls w0 none
  refine ⟨?_, ?_, ?_⟩
  · intro t u
    rw [h₁ t u, ← hmap u]
    constructor
    · rintro ⟨app, h⟩
      cases hl : latestReturned c u none w0 calls with
      | none => simp [hl] at h
      | some p =>
        obtain ⟨app', s⟩ := p
        simp only [hl, Option.map_some', Option.some.injEq, Prod.mk.injEq] at h
        exact ⟨app', s, rfl, h.2⟩
    · rintro ⟨app, s, hl, ht⟩
      exact ⟨app, by simp [hl, ht]⟩
  · intro u app s hl
    apply h₂
    rw [← hmap u, hl]
    rfl
  · intro pre k mid k' post s s' hcalls hs hu hs'
    apply h₃ pre k (mid ++ k' :: post) s.Token hcalls
      ((newSess_ok_iff c _ _ _ _ s).1 hs).1
    exact ⟨k', by simp, hu, s'.Token, ((newSess_ok_iff c _ _ _ _ s').1 hs').1⟩

/-- Witness of C1 on the sample history: the token returned by the second call for
`U1` is accepted, the one returned by the first call is refused. -/
theorem checkToken_accepts_exactly_latest_witness :
    (∀ app u seed t, demoCodec.newToken app u seed = .ok t →
      demoCodec.decToken t = .ok (app, u)) ∧
    (returnedTokens demoCodec World.init demoCalls).Nodup ∧ World.init.rdbAuth = [] ∧
    World.init.healthy ∧
    latestReturned demoCodec "U1" none World.init demoCalls =
      some (appA, { AppId := "A", UserId := "U1", Token := "t11",
                    Data := { RoleId := "", RoleIndex := 0 }, app := none }) ∧
    (checkToken demoCodec (runNewSess demoCodec World.init demoCalls) "t11").1 =
      .ok { AppId := "A", UserId := "U1", Token := "t11",
            Data := { RoleId := "", RoleIndex := 0 }, app := some appA } ∧
    (newSess demoCodec World.init appA "U1" 0).1 =
      .ok { AppId := "A", UserId := "U1", Token := "t10",
            Data := { RoleId := "", RoleIndex := 0 }, app := none } ∧
    (checkToken demoCodec (runNewSess demoCodec World.init demoCalls) "t10").1 =
      .error .invalidToken := by
  have hrt : ∀ app u seed t, demoCodec.newToken app u seed = .ok t →
      demoCodec.decToken t = .ok (app, u) := by
    intro app u seed t h
    simp only [demoCodec, demoNewToken] at h
    split_ifs at h with h₁ h₂ h₃
    · obtain ⟨rfl, rfl, rfl⟩ := h₁
      cases h
      rfl
    · obtain ⟨rfl, rfl, rfl⟩ := h₂
      cases h
      rfl
    · obtain ⟨rfl, rfl, rfl⟩ := h₃
      cases h
      rfl
  have hn : (returnedTokens demoCodec World.init demoCalls).Nodup := by decide
  have H := checkToken_accepts_exactly_latest demoCodec hrt demoCalls World.init hn rfl
    (fun _ => rfl)
  refine ⟨hrt, hn, rfl, fun _ => rfl, rfl, H.2.1 "U1" appA _ rfl, rfl, ?_⟩
  exact H.2.2 [] { app := appA, userId := "U1", seed := 0 }
    [{ app := appA, userId := "U2", seed := 0 }] { app := appA, userId := "U1", seed := 1 } []
    { AppId := "A", UserId := "U1", Token := "t10",
      Data := { RoleId := "", RoleIndex := 0 }, app := none }
    { AppId := "A", UserId := "U1", Token := "t11",
      Data := { RoleId := "", RoleIndex := 0 }, app := none }
    rfl rfl rfl rfl

/-- Claim C3, evaluated where the write of the session store fails. `newSess` with
a failing store returns a session and no error, the store holding nothing; and
`loginUser`, when only the session write fails, returns the user with a session
whose token `checkToken` then refuses. -/
theorem newSess_returns_session_on_failed_write :
    (newSess demoCodec World.down appA "U1" 0).1 =
      .ok { AppId := "A", UserId := "U1", Token := "t10",
            Data := { RoleId := "", RoleIndex := 0 }, app := none } ∧
    (newSess demoCodec World.down appA "U1" 0).2.rdbAuth = [] ∧
    (loginUser demoCodec World.thirdFails appA "10.0.0.1" ["a1"] 100 0 0).1 =
      .ok ({ Id := "U1", AcctIds := ["a1"], CreateTime := 100, CreateIp := "10.0.0.1",
             LoginTime := 100, LoginIp := "10.0.0.1", Metadata := [],
             BanTo := zeroTime, BanFor := "" },
           { AppId := "A", UserId := "U1", Token := "t10",
             Data := { RoleId := "", RoleIndex := 0 }, app := none }) ∧
    (loginUser demoCodec World.thirdFails appA "10.0.0.1" ["a1"] 100 0 0).2.rdbAuth = [] ∧
    (checkToken demoCodec
        (loginUser demoCodec World.thirdFails appA "10.0.0.1" ["a1"] 100 0 0).2 "t10").1 =
      .error .invalidToken := by
  exact ⟨rfl, rfl, rfl, rfl, rfl⟩

theorem getUserCollection_error (w : World) (appId : String) (e : Err)
    (h : (getUserCollection w appId).1 = .error e) :
    e = .driver "failed to create index" := by
  unfold getUserCollection World.call at h
  split at h
  · simp at h
  · cases hout : w.outage w.log.length <;> simp [hout] at h
    exact h.symm

theorem newSess_error (c : Codec) (w : World) (app : xApp) (u : String) (seed : Nat)
    (e : Err) (h : (newSess c w app u seed).1 = .error e) : ∃ m, e = .driver m := by
  unfold newSess at h
  split at h
  · simp at h
    exact ⟨_, h.symm⟩
  · dsimp only at h
    split at h <;> simp at h

/-- Claim C7. `loginUser` fails with `InvalidArgument` exactly when more than 10
account ids are given (10 are accepted); in that case the world is returned as it
was: no store call is logged, no collection handle is cached, no session is
written. -/
theorem loginUser_invalidArgument_iff (c : Codec) (w : World) (app : xApp)
    (userIp : String) (acctIds : List String) (now : Int) (idSeed tokSeed : Nat) :
    ((∃ msg, (loginUser c w app userIp acctIds now idSeed tokSeed).1 =
        .error (.invalidArgument msg)) ↔ 10 < acctIds.length) ∧
    (10 < acctIds.length →
      loginUser c w app userIp acctIds now idSeed tokSeed =
        (.error (.invalidArgument "too many acct ids"), w)) := by
  have hgt : 10 < acctIds.length →
      loginUser c w app userIp acctIds now idSeed tokSeed =
        (.error (.invalidArgument "too many acct ids"), w) := by
    intro h
    simp [loginUser, dbMaxAcctPerUser, h]
  refine ⟨⟨?_, fun h => ⟨_, by rw [hgt h]⟩⟩, hgt⟩
  rintro ⟨msg, hmsg⟩
  by_contra hle
  have hle' : ¬ acctIds.length > dbMaxAcctPerUser := hle
  simp only [loginUser, if_neg hle'] at hmsg
  rcases hg : getUserCollection w app.Id with ⟨_ | _, w₁⟩
  · rw [hg] at hmsg
    have := getUserCollection_error w app.Id _ (by rw [hg])
    simp at hmsg
    simp [hmsg] at this
  · simp only [hg] at hmsg
    split at hmsg
    · simp at hmsg
    · split at hmsg
      · rename_i e w₄ hns
        have := newSess_error c _ app _ tokSeed e (by rw [hns])
        simp at hmsg
        simp [hmsg] at this
      · simp at hmsg

/-! ## Role sign-in -/

theorem getRoleCollection_healthy (w : World) (hw : w.healthy) (appId : String) :
    (getRoleCollection w appId).1 = .ok () ∧
    (getRoleCollection w appId).2.rdbAuth = w.rdbAuth ∧
    (getRoleCollection w appId).2.roles = w.roles ∧
    (getRoleCollection w appId).2.healthy := by
  unfold getRoleCollection World.call
  by_cases h : appId ∈ w.dbRoleCollection
  · simp [h, hw]
  · simp only [if_neg h, hw w.log.length]
    exact ⟨trivial, trivial, trivial, hw⟩

theorem touchRole_healthy (w : World) (hw : w.healthy) (appId roleId userId : String)
    (now : Int) (r : dbRole)
    (hr : (w.roles appId).find?
      (fun r => decide (r.Id = roleId) && decide (r.UserId = userId)) = some r) :
    (w.touchRole appId roleId userId now).1 = .ok r ∧
    (w.touchRole appId roleId userId now).2.rdbAuth = w.rdbAuth ∧
    (w.touchRole appId roleId userId now).2.healthy := by
  unfold World.touchRole World.call
  simp only [hw w.log.length, hr]
  exact ⟨trivial, rfl, hw⟩

/-- Claim C2. When no store call fails, user `u` has a stored session with token
`t`, and the roles with `_id = roleId` and `user_id = u` exist and carry index `i`:
`signInRole` succeeds, the stored session of `u` keeps token `t` and has data
`{roleId, i}`, the sessions of all other users are as before, and `checkToken t`
(for a token `t` of `u`) succeeds and reports `Data.RoleId = roleId`. -/
theorem signInRole_patches_session_data (c : Codec) (w : World) (hw : w.healthy)
    (appId u roleId t : String) (d : xSessData) (i : Nat) (now : Int)
    (hsess : kvGet u w.rdbAuth = some (.packed t d))
    (hex : ∃ r ∈ w.roles appId, r.Id = roleId ∧ r.UserId = u)
    (hidx : ∀ r ∈ w.roles appId, r.Id = roleId → r.UserId = u → r.Index = i) :
    (signInRole w appId u roleId now).1 = .ok () ∧
    kvGet u (signInRole w appId u roleId now).2.rdbAuth =
      some (.packed t { RoleId := roleId, RoleIndex := i }) ∧
    (∀ u', u' ≠ u →
      kvGet u' (signInRole w appId u roleId now).2.rdbAuth = kvGet u' w.rdbAuth) ∧
    (∀ app, c.decToken t = .ok (app, u) →
      (checkToken c (signInRole w appId u roleId now).2 t).1 =
        .ok { AppId := app.Id, UserId := u, Token := t,
              Data := { RoleId := roleId, RoleIndex := i }, app := some app }) := by
  obtain ⟨hg₁, hg₂, hg₃, hg₄⟩ := getRoleCollection_healthy w hw appId
  obtain ⟨r, hfind⟩ : ∃ r, (w.roles appId).find?
      (fun r => decide (r.Id = roleId) && decide (r.UserId = u)) = some r := by
    obtain ⟨r₀, hr₀, h₁, h₂⟩ := hex
    cases hf : (w.roles appId).find?
        (fun r => decide (r.Id = roleId) && decide (r.UserId = u)) with
    | some r => exact ⟨r, rfl⟩
    | none =>
      have := List.find?_eq_none.mp hf r₀ hr₀
      simp [h₁, h₂] at this
  have hmatch := List.find?_some hfind
  simp only [Bool.and_eq_true, decide_eq_true_eq] at hmatch
  have hri : r.Index = i := hidx r (List.mem_of_find?_eq_some hfind) hmatch.1 hmatch.2
  rcases hgc : getRoleCollection w appId with ⟨res₁, w₁⟩
  rw [hgc] at hg₁ hg₂ hg₃ hg₄
  simp only at hg₁ hg₂ hg₃ hg₄
  subst hg₁
  obtain ⟨ht₁, ht₂, ht₃⟩ := touchRole_healthy w₁ hg₄ appId roleId u now r
    (by rw [hg₃]; exact hfind)
  rcases htr : w₁.touchRole appId roleId u now with ⟨res₂, w₂⟩
  rw [htr] at ht₁ ht₂ ht₃
  simp only at ht₁ ht₂ ht₃
  subst ht₁
  have hs₂ : kvGet u w₂.rdbAuth = some (.packed t d) := by rw [ht₂, hg₂]; exact hsess
  have hrun : signInRole w appId u roleId now =
      (.ok (), { w₂ with
        log := w₂.log ++ [.redisEval u]
        rdbAuth := kvSet u (.packed t { RoleId := roleId, RoleIndex := i }) w₂.rdbAuth }) := by
    simp only [signInRole, hgc, htr, luaUpdateSessData, World.call, ht₃ w₂.log.length, hs₂,
      hri]
  rw [hrun]
  have hw₃ : World.healthy { w₂ with
      log := w₂.log ++ [.redisEval u]
      rdbAuth := kvSet u (.packed t { RoleId := roleId, RoleIndex := i }) w₂.rdbAuth } := ht₃
  refine ⟨rfl, kvGet_kvSet_same _ _ _, ?_, ?_⟩
  · intro u' hu'
    show kvGet u' (kvSet u _ w₂.rdbAuth) = _
    rw [kvGet_kvSet_other u' u _ _ hu', ht₂, hg₂]
  · intro app hdec
    rw [checkToken_healthy c _ hw₃, hdec]
    simp only [kvGet_kvSet_same]
    simp

/-- Witness of C2 on the sample world: `U1` signs in role `R1`. -/
theorem signInRole_patches_session_data_witness :
    demoWorld.healthy ∧
    kvGet "U1" demoWorld.rdbAuth = some (.packed "t10" { RoleId := "", RoleIndex := 0 }) ∧
    (signInRole demoWorld "A" "U1" "R1" 50).1 = .ok () ∧
    kvGet "U1" (signInRole demoWorld "A" "U1" "R1" 50).2.rdbAuth =
      some (.packed "t10" { RoleId := "R1", RoleIndex := 3 }) ∧
    kvGet "U2" (signInRole demoWorld "A" "U1" "R1" 50).2.rdbAuth =
      kvGet "U2" demoWorld.rdbAuth ∧
    (checkToken demoCodec (signInRole demoWorld "A" "U1" "R1" 50).2 "t10").1 =
      .ok { AppId := "A", UserId := "U1", Token := "t10",
            Data := { RoleId := "R1", RoleIndex := 3 }, app := some appA } := by
  have H := signInRole_patches_session_data demoCodec demoWorld (fun _ => rfl)
    "A" "U1" "R1" "t10" { RoleId := "", RoleIndex := 0 } 3 50 rfl
    ⟨_, List.mem_singleton.mpr rfl, rfl, rfl⟩
    (by
      intro r hr _ _
      simp only [demoWorld, World.init, if_true, List.mem_singleton] at hr
      rw [hr])
  exact ⟨fun _ => rfl, rfl, H.1, H.2.1, H.2.2.1 "U2" (by decide), H.2.2.2 appA rfl⟩

/-! ## Login state -/

theorem wrap64_of_range (x : Int) (h₁ : -(2 ^ 63) ≤ x) (h₂ : x < 2 ^ 63) : wrap64 x = x := by
  unfold wrap64
  omega

/-- The result of `checkState` on a `UniformLoginState` whose nonce check succeeds. -/
theorem checkState_uniform_of_nonce (c : Codec) (w : World) (isDevEnv : Bool) (app : xApp)
    (st : UniformLoginState) (now : Int)
    (hnonce : (checkNonce w app.Id st.Nonce).1 = .ok true) :
    (checkState c w isDevEnv app (.uniform st) now).1 =
      if st.Timestamp < wrap64 (now - 10) ∨ st.Timestamp > wrap64 (now + 3) then
        .error .invalidTimestamp
      else if !c.equalFold st.Signature (c.hmac { st with Signature := "" } app.Secret) then
        .error .invalidSignature
      else .ok st.AcctId := by
  rcases hcn : checkNonce w app.Id st.Nonce with ⟨r, w'⟩
  rw [hcn] at hnonce
  simp only at hnonce
  subst hnonce
  simp only [checkState, hcn]
  split_ifs <;> rfl

/-- Claim C5. For a `UniformLoginState` whose nonce check succeeds, and a clock
reading `now` for which `now - 10` and `now + 3` are 64-bit values, `checkState`
returns `InvalidTimestamp` exactly when `timestamp < now - 10` or
`timestamp > now + 3`; `now - 10` and `now + 3` pass, `now - 11` fails; and
whether it returns `InvalidTimestamp` is the same for every signature. -/
theorem checkState_invalidTimestamp_iff (c : Codec) (w : World) (isDevEnv : Bool)
    (app : xApp) (st : UniformLoginState) (now : Int)
    (hnonce : (checkNonce w app.Id st.Nonce).1 = .ok true)
    (hlo : -(2 ^ 63) + 10 ≤ now) (hhi : now ≤ 2 ^ 63 - 4) :
    ((checkState c w isDevEnv app (.uniform st) now).1 = .error .invalidTimestamp ↔
      st.Timestamp < now - 10 ∨ st.Timestamp > now + 3) ∧
    (checkState c w isDevEnv app (.uniform { st with Timestamp := now - 10 }) now).1 ≠
      .error .invalidTimestamp ∧
    (checkState c w isDevEnv app (.uniform { st with Timestamp := now + 3 }) now).1 ≠
      .error .invalidTimestamp ∧
    (checkState c w isDevEnv app (.uniform { st with Timestamp := now - 11 }) now).1 =
      .error .invalidTimestamp ∧
    (∀ sig, (checkState c w isDevEnv app (.uniform { st with Signature := sig }) now).1 =
        .error .invalidTimestamp ↔
      (checkState c w isDevEnv app (.uniform st) now).1 = .error .invalidTimestamp) := by
  have hw₁ : wrap64 (now - 10) = now - 10 := wrap64_of_range _ (by omega) (by omega)
  have hw₂ : wrap64 (now + 3) = now + 3 := wrap64_of_range _ (by omega) (by omega)
  have key : ∀ st' : UniformLoginState, st'.Nonce = st.Nonce →
      ((checkState c w isDevEnv app (.uniform st') now).1 = .error .invalidTimestamp ↔
        st'.Timestamp < now - 10 ∨ st'.Timestamp > now + 3) := by
    intro st' hn
    rw [checkState_uniform_of_nonce c w isDevEnv app st' now (by rw [hn]; exact hnonce),
      hw₁, hw₂]
    split_ifs with h₁ h₂
    · simp [h₁]
    · simp [h₁]
    · simp [h₁]
  refine ⟨key st rfl, ?_, ?_, ?_, ?_⟩
  · rw [Ne, key { st with Timestamp := now - 10 } rfl]
    simp only [not_or, not_lt, gt_iff_lt]
    constructor <;> omega
  · rw [Ne, key { st with Timestamp := now + 3 } rfl]
    simp only [not_or, not_lt, gt_iff_lt]
    constructor <;> omega
  · rw [key { st with Timestamp := now - 11 } rfl]
    left
    show now - 11 < now - 10
    omega
  · intro sig
    rw [key { st with Signature := sig } rfl, key st rfl]

/-- Witness of C5: the sample state, first use of its nonce, at clock reading 1005. -/
theorem checkState_invalidTimestamp_iff_witness :
    (checkNonce World.init appA.Id demoState.Nonce).1 = .ok true ∧
    ((checkState demoCodec World.init false appA (.uniform demoState) 1005).1 =
        .error .invalidTimestamp ↔
      demoState.Timestamp < 1005 - 10 ∨ demoState.Timestamp > 1005 + 3) ∧
    (checkState demoCodec World.init false appA
        (.uniform { AcctId := demoState.AcctId, Nonce := demoState.Nonce,
                    Timestamp := 1005 - 11, Signature := demoState.Signature }) 1005).1 =
      .error .invalidTimestamp :=
  have H := checkState_invalidTimestamp_iff demoCodec World.init false appA demoState 1005
    rfl (by norm_num) (by norm_num)
  ⟨rfl, H.1, H.2.2.2.1⟩

/-! ### Nonces -/

/-- Splitting at a separator that occurs in neither left part is unambiguous. -/
theorem append_sep_inj {α : Type} (c : α) (l₁ l₂ r₁ r₂ : List α) (h₁ : c ∉ l₁)
    (h₂ : c ∉ l₂) (h : l₁ ++ c :: r₁ = l₂ ++ c :: r₂) : l₁ = l₂ ∧ r₁ = r₂ := by
  induction l₁ generalizing l₂ with
  | nil =>
    cases l₂ with
    | nil => simpa using h
    | cons y ys =>
      simp only [List.nil_append, List.cons_append, List.cons.injEq] at h
      exact absurd (List.mem_cons.mpr (Or.inl h.1)) h₂
  | cons x xs ih =>
    cases l₂ with
    | nil =>
      simp only [List.nil_append, List.cons_append, List.cons.injEq] at h
      exact absurd (List.mem_cons.mpr (Or.inl h.1.symm)) h₁
    | cons y ys =>
      simp only [List.cons_append, List.cons.injEq] at h
      obtain ⟨rfl, hrest⟩ := h
      obtain ⟨rfl, rfl⟩ := ih ys (fun hm => h₁ (List.mem_cons_of_mem _ hm))
        (fun hm => h₂ (List.mem_cons_of_mem _ hm)) hrest
      exact ⟨rfl, rfl⟩

/-- The nonce key determines app id and nonce, for app ids without `$`. -/
theorem nonceKey_inj (a₁ a₂ n₁ n₂ : String) (h₁ : '$' ∉ a₁.data) (h₂ : '$' ∉ a₂.data)
    (h : a₁ ++ "$" ++ n₁ = a₂ ++ "$" ++ n₂) : a₁ = a₂ ∧ n₁ = n₂ := by
  have hd := congrArg String.data h
  simp only [String.data_append, List.append_assoc] at hd
  have := append_sep_inj '$' a₁.data a₂.data n₁.data n₂.data h₁ h₂ hd
  exact ⟨String.ext this.1, String.ext this.2⟩

theorem checkNonce_outage (w : World) (appId nonce : String) :
    (checkNonce w appId nonce).2.outage = w.outage := by
  unfold checkNonce World.call
  simp only
  cases w.outage w.log.length
  · simp only
    split <;> rfl
  · rfl

/-- The nonce keys after `checkNonce`: the old ones, and possibly the key asked for. -/
theorem checkNonce_keys (w : World) (appId nonce : String) (k : String) :
    (k ∈ (checkNonce w appId nonce).2.rdbNonce → k ∈ w.rdbNonce ∨ k = appId ++ "$" ++ nonce) ∧
    (k ∈ w.rdbNonce → k ∈ (checkNonce w appId nonce).2.rdbNonce) := by
  unfold checkNonce World.call
  simp only
  cases w.outage w.log.length
  · simp only
    split
    · exact ⟨Or.inl, id⟩
    · simp only [List.mem_cons]
      exact ⟨fun h => h.symm, Or.inr⟩
  · exact ⟨Or.inl, id⟩

/-- After a `checkNonce` whose store call succeeds the key is in the store. -/
theorem checkNonce_records (w : World) (hw : w.healthy) (appId nonce : String) :
    appId ++ "$" ++ nonce ∈ (checkNonce w appId nonce).2.rdbNonce := by
  unfold checkNonce World.call
  simp only [hw w.log.length]
  split
  · assumption
  · exact List.mem_cons_self _ _

/-- The result of `checkNonce` when the store call succeeds. -/
theorem checkNonce_healthy (w : World) (hw : w.healthy) (appId nonce : String) :
    (checkNonce w appId nonce).1 = .ok (decide (appId ++ "$" ++ nonce ∉ w.rdbNonce)) := by
  unfold checkNonce World.call
  simp only [hw w.log.length]
  split <;> simp [*]

/-- The world after `checkState`: only the nonce check touches it. -/
theorem checkState_world (c : Codec) (w : World) (isDevEnv : Bool) (app : xApp)
    (any : LoginState) (now : Int) :
    (checkState c w isDevEnv app any now).2 =
      match any with
      | .uniform st => (checkNonce w app.Id st.Nonce).2
      | _ => w := by
  cases any with
  | undecodable => rfl
  | other => rfl
  | dev username =>
    simp only [checkState]
    split <;> rfl
  | uniform st =>
    simp only [checkState]
    rcases checkNonce w app.Id st.Nonce with ⟨_ | _ | _, w'⟩ <;> simp only
    split
    · rfl
    · split <;> rfl

theorem checkState_outage (c : Codec) (w : World) (isDevEnv : Bool) (app : xApp)
    (any : LoginState) (now : Int) :
    (checkState c w isDevEnv app any now).2.outage = w.outage := by
  rw [checkState_world]
  cases any with
  | uniform st => exact checkNonce_outage w app.Id st.Nonce
  | _ => rfl

theorem runCheckState_outage (c : Codec) (hist : List StateCall) (w : World) :
    (runCheckState c w hist).outage = w.outage := by
  induction hist generalizing w with
  | nil => rfl
  | cons k rest ih => rw [runCheckState, ih, checkState_outage]

/-- Nonce keys are never removed by `checkState`. -/
theorem checkState_keeps_keys (c : Codec) (w : World) (isDevEnv : Bool) (app : xApp)
    (any : LoginState) (now : Int) (k : String) (hk : k ∈ w.rdbNonce) :
    k ∈ (checkState c w isDevEnv app any now).2.rdbNonce := by
  rw [checkState_world]
  cases any with
  | uniform st => exact (checkNonce_keys w app.Id st.Nonce k).2 hk
  | _ => exact hk

theorem runCheckState_keeps_keys (c : Codec) (hist : List StateCall) (w : World)
    (k : String) (hk : k ∈ w.rdbNonce) : k ∈ (runCheckState c w hist).rdbNonce := by
  induction hist generalizing w with
  | nil => exact hk
  | cons call rest ih => exact ih _ (checkState_keeps_keys c w _ _ _ _ k hk)

/-- Every nonce key of the store after a history was already there or is the key of
a `UniformLoginState` of the history. -/
theorem runCheckState_keys_from (c : Codec) (hist : List StateCall) (w : World)
    (k : String) (hk : k ∈ (runCheckState c w hist).rdbNonce) :
    k ∈ w.rdbNonce ∨ ∃ call ∈ hist, ∃ st, call.any = .uniform st ∧
      k = call.app.Id ++ "$" ++ st.Nonce := by
  induction hist generalizing w with
  | nil => exact Or.inl hk
  | cons call rest ih =>
    rcases ih _ hk with h | ⟨call', hc, st, hst, hkey⟩
    · rw [checkState_world] at h
      cases hany : call.any with
      | uniform st =>
        rw [hany] at h
        rcases (checkNonce_keys w call.app.Id st.Nonce k).1 h with h' | h'
        · exact Or.inl h'
        · exact Or.inr ⟨call, List.mem_cons_self _ _, st, hany, h'⟩
      | undecodable => rw [hany] at h; exact Or.inl h
      | other => rw [hany] at h; exact Or.inl h
      | dev username => rw [hany] at h; exact Or.inl h
    · exact Or.inr ⟨call', List.mem_cons_of_mem _ hc, st, hst, hkey⟩

/-- The result of `checkState` on a `UniformLoginState` whose nonce key is stored,
when the store call succeeds. -/
theorem checkState_of_stored_key (c : Codec) (w : World) (hw : w.healthy)
    (isDevEnv : Bool) (app : xApp) (st : UniformLoginState) (now : Int)
    (hk : app.Id ++ "$" ++ st.Nonce ∈ w.rdbNonce) :
    (checkState c w isDevEnv app (.uniform st) now).1 = .error .invalidNonce := by
  have h := checkNonce_healthy w hw app.Id st.Nonce
  simp only [hk, not_true_eq_false, decide_False] at h
  rcases hcn : checkNonce w app.Id st.Nonce with ⟨r, w'⟩
  rw [hcn] at h
  simp only at h
  subst h
  simp only [checkState, hcn]

/-- A `checkState` that returns `InvalidNonce` found the nonce key in the store. -/
theorem stored_key_of_invalidNonce (c : Codec) (w : World) (isDevEnv : Bool) (app : xApp)
    (st : UniformLoginState) (now : Int)
    (h : (checkState c w isDevEnv app (.uniform st) now).1 = .error .invalidNonce) :
    app.Id ++ "$" ++ st.Nonce ∈ w.rdbNonce := by
  by_contra hk
  simp only [checkState, checkNonce, World.call] at h
  cases hout : w.outage w.log.length
  · simp only [hout, if_neg hk] at h
    split at h
    · simp at h
    · split at h <;> simp at h
  · simp [hout] at h

/-- Claim C6 as stated fails: after one login for app `a$b` with nonce `c`, the
first use of nonce `b$c` for app `a` builds the same key `a$b$c` and is answered
with `InvalidNonce`. -/
theorem checkState_first_use_invalidNonce :
    StateCall.uses
      { isDevEnv := false, app := appAB, any := .uniform stateC, now := 1000 }
      "a" "b$c" = false ∧
    (checkState demoCodec
      (runCheckState demoCodec World.init
        [{ isDevEnv := false, app := appAB, any := .uniform stateC, now := 1000 }])
      false appA' (.uniform stateBC) 1000).1 = .error .invalidNonce :=
  ⟨rfl, rfl⟩

/-- Claim C6, amended. With a nonce store that is a set of keys and store calls that
succeed: once `checkState` has processed a `UniformLoginState` with some app and
nonce, every later `checkState` of a `UniformLoginState` with the same app id and
nonce returns `InvalidNonce`, whatever its timestamp and signature. Starting from an
empty nonce store, and as long as no app id contains `$`, the first use of a nonce
for an app never returns `InvalidNonce`. -/
theorem checkState_nonce_once (c : Codec) :
    (∀ (w : World) (isDevEnv isDevEnv' : Bool) (app app' : xApp)
        (st st' : UniformLoginState) (now now' : Int) (mid : List StateCall),
      w.healthy → app'.Id = app.Id → st'.Nonce = st.Nonce →
      (checkState c
        (runCheckState c (checkState c w isDevEnv app (.uniform st) now).2 mid)
        isDevEnv' app' (.uniform st') now').1 = .error .invalidNonce) ∧
    (∀ (w : World) (hist : List StateCall) (isDevEnv : Bool) (app : xApp)
        (st : UniformLoginState) (now : Int),
      w.rdbNonce = [] → '$' ∉ app.Id.data → (∀ k ∈ hist, '$' ∉ k.app.Id.data) →
      (∀ k ∈ hist, k.uses app.Id st.Nonce = false) →
      (checkState c (runCheckState c w hist) isDevEnv app (.uniform st) now).1 ≠
        .error .invalidNonce) := by
  constructor
  · intro w isDevEnv isDevEnv' app app' st st' now now' mid hw happ hn
    have hw₁ : (checkState c w isDevEnv app (.uniform st) now).2.healthy := by
      intro n
      rw [checkState_outage]
      exact hw n
    have hw₂ : (runCheckState c
        (checkState c w isDevEnv app (.uniform st) now).2 mid).healthy := by
      intro n
      rw [runCheckState_outage]
      exact hw₁ n
    apply checkState_of_stored_key c _ hw₂
    apply runCheckState_keeps_keys
    rw [checkState_world, happ, hn]
    exact checkNonce_records w hw app.Id st.Nonce
  · intro w hist isDevEnv app st now hempty happ hhist hfirst hbad
    have hk := stored_key_of_invalidNonce c _ isDevEnv app st now hbad
    rcases runCheckState_keys_from c hist w _ hk with h | ⟨call, hc, st₀, hany, hkey⟩
    · simp [hempty] at h
    · obtain ⟨h₁, h₂⟩ := nonceKey_inj _ _ _ _ happ (hhist call hc) hkey
      have := hfirst call hc
      simp [StateCall.uses, hany, h₁, h₂] at this

/-- Witness of C6: the sample state is replayed after an unrelated login, and a
nonce is used for the first time after a login with another nonce. -/
theorem checkState_nonce_once_witness :
    World.init.healthy ∧ World.init.rdbNonce = [] ∧ '$' ∉ appA.Id.data ∧
    (checkState demoCodec
      (runCheckState demoCodec
        (checkState demoCodec World.init false appA (.uniform demoState) 1000).2
        [{ isDevEnv := true, app := appA, any := .dev "bob", now := 1001 }])
      false appA (.uniform stateReplay) 1002).1 = .error .invalidNonce ∧
    (checkState demoCodec
      (runCheckState demoCodec World.init
        [{ isDevEnv := false, app := appA, any := .uniform demoState, now := 1000 }])
      false appA (.uniform stateN2) 1000).1 ≠ .error .invalidNonce := by
  have hd : '$' ∉ appA.Id.data := by decide
  refine ⟨fun _ => rfl, rfl, hd, ?_, ?_⟩
  · exact (checkState_nonce_once demoCodec).1 World.init false false appA appA demoState
      { demoState with Timestamp := 1002, Signature := "" } 1000 1002
      [{ isDevEnv := true, app := appA, any := .dev "bob", now := 1001 }]
      (fun _ => rfl) rfl rfl
  · refine (checkState_nonce_once demoCodec).2 World.init
      [{ isDevEnv := false, app := appA, any := .uniform demoState, now := 1000 }]
      false appA stateN2 1000 rfl hd ?_ ?_
    · intro k hk
      rw [List.mem_singleton.mp hk]
      exact hd
    · intro k hk
      rw [List.mem_singleton.mp hk]
      rfl

/-! ## Binding account ids -/

theorem getUserCollection_healthy (w : World) (hw : w.healthy) (appId : String) :
    (getUserCollection w appId).1 = .ok () ∧
    (getUserCollection w appId).2.users = w.users ∧
    (getUserCollection w appId).2.rdbAuth = w.rdbAuth ∧
    (getUserCollection w appId).2.healthy := by
  unfold getUserCollection World.call
  by_cases h : appId ∈ w.dbUserCollection
  · simp [h, hw]
  · simp only [if_neg h, hw w.log.length]
    exact ⟨trivial, trivial, trivial, hw⟩

/-- Claim C4 as stated fails: `U1` holds `a1`, `U2` holds `a2`, and binding `a2` to
`U1` without takeover ends in `DatabaseUnavailable`, both through the admin method
and in `bindAcctToUser`. -/
theorem bind_conflict_databaseUnavailable :
    heldByOther (demoWorld.users "A") "U1" "a2" = true ∧
    (BindAcctId demoCodec bindAcctIdToUser demoWorld (some "A") "U1" ["a2"] false).1 =
      .error .databaseUnavailable ∧
    (bindAcctToUser demoWorld "A" "U1" ["a2"]).1 = .error .databaseUnavailable :=
  ⟨rfl, rfl, rfl⟩

/-- Claim C4, amended. Take a bind request without takeover in which one of the
account ids is held by another user of the app. The admin method `BindAcctId`,
authorised by secret, fails with `DatabaseUnavailable`; whatever the bind it calls
does, it never answers `AcctAlreadyExists`. `bindAcctToUser`, for at most 10 ids, an
existing user and store calls that succeed, fails with `DatabaseUnavailable` and
leaves the users as they were; for more than 10 ids it fails with
`InvalidArgument`. -/
theorem bind_conflict_fails (c : Codec) (w : World) (appId userId : String)
    (acctIds : List String)
    (hconf : acctIds.any (heldByOther (w.users appId) userId) = true) :
    (c.idBelongToAppId appId [userId] = true →
      (BindAcctId c bindAcctIdToUser w (some appId) userId acctIds false).1 =
        .error .databaseUnavailable) ∧
    (∀ (bind : BindFn) (trusted : Option String) (takeOver : Bool),
      (BindAcctId c bind w trusted userId acctIds takeOver).1 ≠ .error .acctAlreadyExists) ∧
    (w.healthy → acctIds.length ≤ 10 → (∃ u ∈ w.users appId, u.Id = userId) →
      (bindAcctToUser w appId userId acctIds).1 = .error .databaseUnavailable ∧
      (bindAcctToUser w appId userId acctIds).2.users = w.users) ∧
    (10 < acctIds.length →
      (bindAcctToUser w appId userId acctIds).1 =
        .error (.invalidArgument "too many acct ids")) := by
  refine ⟨?_, ?_, ?_, ?_⟩
  · intro hauth
    simp only [BindAcctId, hauth, bindAcctIdToUser, World.call]
    cases w.outage w.log.length
    · simp [hconf]
    · simp
  · intro bind trusted takeOver
    unfold BindAcctId
    cases trusted with
    | none => simp
    | some a =>
      simp only
      split
      · simp
      · rcases bind w a userId acctIds takeOver with ⟨_ | _, w'⟩ <;> simp
  · intro hw hlen hex
    obtain ⟨hg₁, hg₂, -, hg₄⟩ := getUserCollection_healthy w hw appId
    rcases hgc : getUserCollection w appId with ⟨res₁, w₁⟩
    rw [hgc] at hg₁ hg₂ hg₄
    simp only at hg₁ hg₂ hg₄
    subst hg₁
    obtain ⟨u, hfind⟩ : ∃ u, (w.users appId).find? (fun u => decide (u.Id = userId)) =
        some u := by
      obtain ⟨u₀, hu₀, hid⟩ := hex
      cases hf : (w.users appId).find? (fun u => decide (u.Id = userId)) with
      | some u => exact ⟨u, rfl⟩
      | none =>
        have := List.find?_eq_none.mp hf u₀ hu₀
        simp [hid] at this
    have hid : u.Id = userId := by simpa using List.find?_some hfind
    have hlen' : ¬ acctIds.length > dbMaxAcctPerUser := by
      simp only [dbMaxAcctPerUser]
      omega
    simp only [bindAcctToUser, if_neg hlen', hgc, World.addAccts, World.call,
      hg₄ w₁.log.length, hg₂, hfind, hid, hconf, if_true]
    exact ⟨trivial, trivial⟩
  · intro hlen
    simp [bindAcctToUser, dbMaxAcctPerUser, hlen]

/-- Witness of C4 on the sample world: `a2`, held by `U2`, is bound to `U1`. -/
theorem bind_conflict_fails_witness :
    List.any ["a2"] (heldByOther (demoWorld.users "A") "U1") = true ∧
    (BindAcctId demoCodec bindAcctIdToUser demoWorld (some "A") "U1" ["a2"] false).1 =
      .error .databaseUnavailable ∧
    (bindAcctToUser demoWorld "A" "U1" ["a2"]).2.users = demoWorld.users :=
  have H := bind_conflict_fails demoCodec demoWorld "A" "U1" ["a2"] rfl
  ⟨rfl, H.1 rfl,
    (H.2.2.1 (fun _ => rfl) (by decide) ⟨_, List.mem_cons_self _ _, rfl⟩).2⟩

/-! ## Ban -/

theorem kvGet_kvDel {β : Type} (k k' : String) (m : List (String × β)) :
    kvGet k (kvDel k' m) = if k = k' then none else kvGet k m := by
  induction m with
  | nil => simp [kvDel, kvGet]
  | cons p rest ih =>
    obtain ⟨k₁, v₁⟩ := p
    by_cases h₁ : k₁ = k'
    · subst h₁
      by_cases h : k = k₁
      · subst h
        simpa [kvDel] using ih
      · simp [kvDel, kvGet, ih, h, Ne.symm h]
    · by_cases h₂ : k₁ = k
      · subst h₂
        simp [kvDel, kvGet, h₁]
      · simp only [kvDel, if_neg h₁, kvGet, if_neg h₂, ih]

theorem kvGet_foldl_kvDel {β : Type} (k : String) (ids : List String)
    (m : List (String × β)) :
    kvGet k (ids.foldl (fun m k => kvDel k m) m) = if k ∈ ids then none else kvGet k m := by
  induction ids generalizing m with
  | nil => simp
  | cons i rest ih =>
    rw [List.foldl_cons, ih, kvGet_kvDel]
    by_cases h₁ : k ∈ rest
    · simp [h₁]
    · by_cases h₂ : k = i
      · simp [h₂]
      · simp [h₁, h₂]

/-- While the nanosecond count fits 64 bits, the ban ends `seconds` after `now`. -/
theorem addSeconds_of_fits (now seconds : Int) (h₁ : 0 < seconds)
    (h₂ : seconds ≤ 9223372036) :
    addSeconds now seconds = now + seconds * 1000000000 ∧
    unixSeconds (addSeconds now seconds) = unixSeconds now + seconds := by
  unfold addSeconds unixSeconds
  rw [wrap64_of_range _ (by omega) (by omega)]
  exact ⟨rfl, by omega⟩

/-- When the nanosecond count does not fit 64 bits, the ban ends earlier than
`seconds` after `now`. -/
theorem addSeconds_wraps (now seconds : Int) (h : 9223372036 < seconds) :
    unixSeconds (addSeconds now seconds) < unixSeconds now + seconds := by
  unfold addSeconds unixSeconds wrap64
  omega

/-- The run of `Ban` for a ban (`seconds > 0`) when no store call fails. -/
theorem Ban_healthy (c : Codec) (w : World) (hw : w.healthy) (appId : String)
    (userIds : List String) (seconds : Int) (reason : String) (now now' : Int)
    (hauth : c.idBelongToAppId appId userIds = true) (hne : userIds ≠ [])
    (hpos : 0 < seconds) :
    (∃ states, (Ban c w (some appId) userIds seconds reason now now').1 = .ok states) ∧
    (Ban c w (some appId) userIds seconds reason now now').2.users appId =
      (w.users appId).map (fun u =>
        if u.Id ∈ userIds then
          { u with BanTo := unixSeconds (addSeconds now seconds), BanFor := reason }
        else u) ∧
    (Ban c w (some appId) userIds seconds reason now now').2.rdbAuth =
      userIds.foldl (fun m k => kvDel k m) w.rdbAuth ∧
    (Ban c w (some appId) userIds seconds reason now now').2.outage = w.outage := by
  have hlen : userIds.length > 0 := List.length_pos.mpr hne
  have ho : ∀ n, w.outage n = false := hw
  simp only [Ban, hauth, hlen, hpos, banUsers, logoutUser, getUsers, World.call,
    World.setUsers, ho, Bool.not_true, Bool.false_eq_true, if_false, if_true, gt_iff_lt]
  exact ⟨⟨_, rfl⟩, by simp, trivial, trivial⟩

/-- The session store after `Ban` without a ban (`seconds ≤ 0`). -/
theorem Ban_keeps_sessions (c : Codec) (w : World) (trusted : Option String)
    (userIds : List String) (seconds : Int) (reason : String) (now now' : Int)
    (hle : seconds ≤ 0) :
    (Ban c w trusted userIds seconds reason now now').2.rdbAuth = w.rdbAuth := by
  have hpos : ¬ seconds > 0 := by omega
  unfold Ban
  cases trusted with
  | none => rfl
  | some appId =>
    simp only [hpos, if_false]
    split
    · rfl
    · split
      · by_cases hneg : seconds < 0
        · simp only [hneg, if_true, unbanUsers, getUsers, World.call, World.setUsers]
          cases w.outage w.log.length
          · simp only
            cases w.outage (w.log ++ [StoreOp.updateMany "users" appId]).length <;> rfl
          · rfl
        · simp only [hneg, if_false, getUsers, World.call]
          cases w.outage w.log.length <;> rfl
      · rfl

/-- Claim C8 as stated fails for a large `Seconds`: `9223372037` seconds are more
nanoseconds than 64 bits hold, the duration wraps to about minus 292 years, and
`Ban` at the clock reading `1000.5 s` records `U1` as banned until the Unix second
`-9223371037`, long past, instead of `1000 + 9223372037`; the response reports no
running ban, while the session of `U1` is deleted. -/
theorem Ban_overflow_past :
    demoWorld.healthy ∧ demoCodec.idBelongToAppId "A" ["U1"] = true ∧
    wrap64 (9223372037 * 1000000000) = -9223372036709551616 ∧
    addSeconds 1000500000000 9223372037 = -9223371036209551616 ∧
    (Ban demoCodec demoWorld (some "A") ["U1"] 9223372037 "abuse"
        1000500000000 1001000000000).1 =
      .ok [{ Id := "U1", BanTo := 0, BanFor := "" }] ∧
    ((Ban demoCodec demoWorld (some "A") ["U1"] 9223372037 "abuse"
        1000500000000 1001000000000).2.users "A").map
      (fun u => (u.Id, u.BanTo, u.BanFor)) =
      [("U1", -9223371037, "abuse"), ("U2", zeroTime, "")] ∧
    (-9223371037 : Int) ≠ unixSeconds 1000500000000 + 9223372037 ∧
    kvGet "U1" (Ban demoCodec demoWorld (some "A") ["U1"] 9223372037 "abuse"
        1000500000000 1001000000000).2.rdbAuth = none :=
  ⟨fun _ => rfl, rfl, by decide, by decide, rfl, by decide, by decide, by decide⟩

/-- Claim C8, amended. For a ban request authorised by secret, with a non-empty list
of user ids of the trusted app and `0 < Seconds`, when no store call fails: `Ban`
succeeds, every listed user is recorded as banned for the given reason until the
instant `now.Add(Seconds * time.Second)`, all other users are as before, no listed
user has a session entry, and `checkToken` of any token of a listed user fails with
`InvalidToken`. The recorded instant is `now + Seconds` when the duration fits its
64-bit nanosecond count (`Seconds ≤ 9223372036`) and earlier than that for every
larger `Seconds`. For `Seconds ≤ 0` the session store is left as it was. -/
theorem Ban_bans_and_logs_out (c : Codec) (w : World) (hw : w.healthy) (appId : String)
    (userIds : List String) (seconds : Int) (reason : String) (now now' : Int)
    (hauth : c.idBelongToAppId appId userIds = true) (hne : userIds ≠ [])
    (hpos : 0 < seconds) :
    (∃ states, (Ban c w (some appId) userIds seconds reason now now').1 = .ok states) ∧
    (Ban c w (some appId) userIds seconds reason now now').2.users appId =
      (w.users appId).map (fun u =>
        if u.Id ∈ userIds then
          { u with BanTo := unixSeconds (addSeconds now seconds), BanFor := reason }
        else u) ∧
    (seconds ≤ 9223372036 →
      addSeconds now seconds = now + seconds * 1000000000 ∧
      unixSeconds (addSeconds now seconds) = unixSeconds now + seconds) ∧
    (9223372036 < seconds →
      unixSeconds (addSeconds now seconds) < unixSeconds now + seconds) ∧
    (∀ id ∈ userIds,
      kvGet id (Ban c w (some appId) userIds seconds reason now now').2.rdbAuth = none) ∧
    (∀ t app id, c.decToken t = .ok (app, id) → id ∈ userIds →
      (checkToken c (Ban c w (some appId) userIds seconds reason now now').2 t).1 =
        .error .invalidToken) ∧
    (∀ (trusted : Option String) (seconds' : Int), seconds' ≤ 0 →
      (Ban c w trusted userIds seconds' reason now now').2.rdbAuth = w.rdbAuth) := by
  obtain ⟨h₁, h₂, h₃, h₄⟩ :=
    Ban_healthy c w hw appId userIds seconds reason now now' hauth hne hpos
  have hgone : ∀ id ∈ userIds,
      kvGet id (Ban c w (some appId) userIds seconds reason now now').2.rdbAuth = none := by
    intro id hid
    rw [h₃, kvGet_foldl_kvDel, if_pos hid]
  refine ⟨h₁, h₂, addSeconds_of_fits now seconds hpos, addSeconds_wraps now seconds,
    hgone, ?_, ?_⟩
  · intro t app id hdec hid
    have hw' : (Ban c w (some appId) userIds seconds reason now now').2.healthy := by
      intro n
      rw [h₄]
      exact hw n
    rw [checkToken_healthy c _ hw', hdec]
    simp only [hgone id hid]
  · intro trusted seconds' hle
    exact Ban_keeps_sessions c w trusted userIds seconds' reason now now' hle

/-- Witness of C8 on the sample world: `U1` is banned for 60 seconds at the clock
reading `1000.5 s`. -/
theorem Ban_bans_and_logs_out_witness :
    demoWorld.healthy ∧ demoCodec.idBelongToAppId "A" ["U1"] = true ∧
    (checkToken demoCodec demoWorld "t10").1 =
      .ok { AppId := "A", UserId := "U1", Token := "t10",
            Data := { RoleId := "", RoleIndex := 0 }, app := some appA } ∧
    (Ban demoCodec demoWorld (some "A") ["U1"] 60 "abuse" 1000500000000 1001000000000).1 =
      .ok [{ Id := "U1", BanTo := 1060, BanFor := "abuse" }] ∧
    (checkToken demoCodec
      (Ban demoCodec demoWorld (some "A") ["U1"] 60 "abuse"
        1000500000000 1001000000000).2 "t10").1 =
      .error .invalidToken ∧
    (Ban demoCodec demoWorld (some "A") ["U1"] 0 "abuse"
      1000500000000 1001000000000).2.rdbAuth = demoWorld.rdbAuth ∧
    ((Ban demoCodec demoWorld (some "A") ["U1"] 60 "abuse"
      1000500000000 1001000000000).2.users "A").map
      (fun u => (u.Id, u.BanTo, u.BanFor)) =
      [("U1", 1060, "abuse"), ("U2", zeroTime, "")] ∧
    unixSeconds (addSeconds 1000500000000 60) = unixSeconds 1000500000000 + 60 :=
  have H := Ban_bans_and_logs_out demoCodec demoWorld (fun _ => rfl) "A" ["U1"] 60 "abuse"
    1000500000000 1001000000000 rfl (by simp) (by norm_num)
  ⟨fun _ => rfl, rfl, rfl, rfl,
    H.2.2.2.2.2.1 "t10" appA "U1" rfl (List.mem_singleton.mpr rfl),
    H.2.2.2.2.2.2 (some "A") 0 (le_refl 0), by decide, (H.2.2.1 (by norm_num)).2⟩

/-! ## Fuzzy get -/

theorem mem_partitionIds_users (c : Codec) (ids : List String) (id : String) :
    id ∈ (partitionIds c ids).1 ↔ id ∈ ids ∧ (c.decId id).2 = c.userIdTag := by
  induction ids with
  | nil => simp [partitionIds]
  | cons x rest ih =>
    simp only [partitionIds, List.mem_cons]
    split
    · rename_i hx
      simp only [List.mem_cons, ih]
      constructor
      · rintro (rfl | ⟨h₁, h₂⟩)
        · exact ⟨Or.inl rfl, hx⟩
        · exact ⟨Or.inr h₁, h₂⟩
      · rintro ⟨rfl | h₁, h₂⟩
        · exact Or.inl rfl
        · exact Or.inr ⟨h₁, h₂⟩
    · rename_i hx
      have key : id ∈ (partitionIds c rest).1 ↔
          (id = x ∨ id ∈ rest) ∧ (c.decId id).2 = c.userIdTag := by
        rw [ih]
        constructor
        · rintro ⟨h₁, h₂⟩
          exact ⟨Or.inr h₁, h₂⟩
        · rintro ⟨rfl | h₁, h₂⟩
          · exact absurd h₂ hx
          · exact ⟨h₁, h₂⟩
      split <;> exact key

theorem mem_partitionIds_roles (c : Codec) (htags : c.userIdTag ≠ c.roleIdTag)
    (ids : List String) (id : String) :
    id ∈ (partitionIds c ids).2 ↔ id ∈ ids ∧ (c.decId id).2 = c.roleIdTag := by
  induction ids with
  | nil => simp [partitionIds]
  | cons x rest ih =>
    simp only [partitionIds, List.mem_cons]
    split
    · rename_i hx
      rw [ih]
      constructor
      · rintro ⟨h₁, h₂⟩
        exact ⟨Or.inr h₁, h₂⟩
      · rintro ⟨rfl | h₁, h₂⟩
        · exact absurd (hx.symm.trans h₂) htags
        · exact ⟨h₁, h₂⟩
    · split
      · rename_i hx
        simp only [List.mem_cons, ih]
        constructor
        · rintro (rfl | ⟨h₁, h₂⟩)
          · exact ⟨Or.inl rfl, hx⟩
          · exact ⟨Or.inr h₁, h₂⟩
        · rintro ⟨rfl | h₁, h₂⟩
          · exact Or.inl rfl
          · exact Or.inr ⟨h₁, h₂⟩
      · rename_i hx
        rw [ih]
        constructor
        · rintro ⟨h₁, h₂⟩
          exact ⟨Or.inr h₁, h₂⟩
        · rintro ⟨rfl | h₁, h₂⟩
          · exact absurd h₂ hx
          · exact ⟨h₁, h₂⟩

/-- The users returned by a fuzzy `Get` when no store call fails. -/
theorem Get_fuzzy_healthy (c : Codec) (w : World) (hw : w.healthy) (appId : String)
    (ids : List String) (withRoles : Bool)
    (hauth : c.idBelongToAppId appId ids = true) :
    ∃ roles, (Get c w (some appId) ids (some { Fuzzy := true, WithRoles := withRoles })).1 =
      .ok ((w.users appId).filter (fun u => decide (u.Id ∈
        (partitionIds c ids).1 ++
          ((w.roles appId).filter (fun r => decide (r.Id ∈ (partitionIds c ids).2))).map
            (fun r => r.UserId))), roles) := by
  have ho : ∀ n, w.outage n = false := hw
  by_cases hlen : (partitionIds c ids).2.length > 0
  · cases withRoles
    · refine ⟨[], ?_⟩
      simp only [Get, hauth, hlen, getRoles, getUsers, World.call, ho, Bool.not_true,
        Bool.false_eq_true, if_false, if_true]
    · refine ⟨(w.roles appId).filter (fun r => decide (r.UserId ∈
        (partitionIds c ids).1 ++
          ((w.roles appId).filter (fun r => decide (r.Id ∈ (partitionIds c ids).2))).map
            (fun r => r.UserId))), ?_⟩
      simp only [Get, hauth, hlen, getRoles, getUsers, getRolesByUserId, World.call, ho,
        Bool.not_true, Bool.false_eq_true, if_false, if_true]
  · have hnil : (partitionIds c ids).2 = [] := by
      cases h : (partitionIds c ids).2 with
      | nil => rfl
      | cons x xs => simp [h] at hlen
    cases withRoles
    · refine ⟨[], ?_⟩
      simp only [Get, hauth, getUsers, World.call, ho, Bool.not_true,
        Bool.false_eq_true, if_false, if_true, hnil, List.not_mem_nil, decide_False,
        List.filter_false, List.map_nil, List.append_nil, List.length_nil, gt_iff_lt,
        lt_self_iff_false]
    · refine ⟨(w.roles appId).filter (fun r => decide (r.UserId ∈ (partitionIds c ids).1)),
        ?_⟩
      simp only [Get, hauth, getUsers, getRolesByUserId, World.call, ho,
        Bool.not_true, Bool.false_eq_true, if_false, if_true, hnil, List.not_mem_nil,
        decide_False, List.filter_false, List.map_nil, List.append_nil, List.length_nil,
        gt_iff_lt, lt_self_iff_false]

/-- Claim C9. For a fuzzy `Get` authorised by secret, with user and role tags that
differ and store calls that succeed: a user document is returned exactly when it is
a user of the trusted app whose id is an input id with the user tag, or the owner
of a role of the app whose id is an input id with the role tag; the result is a
sublist of the collection, so with unique `_id`s every user is returned once; ids
with neither tag do not matter. -/
theorem Get_fuzzy_users (c : Codec) (w : World) (hw : w.healthy) (appId : String)
    (ids : List String) (withRoles : Bool)
    (hauth : c.idBelongToAppId appId ids = true) (htags : c.userIdTag ≠ c.roleIdTag) :
    ∃ users roles,
      (Get c w (some appId) ids (some { Fuzzy := true, WithRoles := withRoles })).1 =
        .ok (users, roles) ∧
      (∀ u, u ∈ users ↔ u ∈ w.users appId ∧
        ((u.Id ∈ ids ∧ (c.decId u.Id).2 = c.userIdTag) ∨
          ∃ r ∈ w.roles appId, r.Id ∈ ids ∧ (c.decId r.Id).2 = c.roleIdTag ∧
            r.UserId = u.Id)) ∧
      users.Sublist (w.users appId) ∧
      (((w.users appId).map (fun u => u.Id)).Nodup → (users.map (fun u => u.Id)).Nodup) := by
  obtain ⟨roles, hget⟩ := Get_fuzzy_healthy c w hw appId ids withRoles hauth
  refine ⟨_, roles, hget, ?_, List.filter_sublist _, ?_⟩
  · intro u
    simp only [List.mem_filter, decide_eq_true_eq, List.mem_append, List.mem_map,
      mem_partitionIds_users, mem_partitionIds_roles c htags]
    constructor
    · rintro ⟨hu, h | ⟨r, ⟨hr, hid, htag⟩, hown⟩⟩
      · exact ⟨hu, Or.inl h⟩
      · exact ⟨hu, Or.inr ⟨r, hr, hid, htag, hown⟩⟩
    · rintro ⟨hu, h | ⟨r, hr, hid, htag, hown⟩⟩
      · exact ⟨hu, Or.inl h⟩
      · exact ⟨hu, Or.inr ⟨r, ⟨hr, hid, htag⟩, hown⟩⟩
  · intro hnd
    exact List.Nodup.sublist ((List.filter_sublist _).map _) hnd

/-- Witness of C9 on the sample world: `U1` is asked for directly and through its
role `R1`, next to an id without tag, and is returned once. -/
theorem Get_fuzzy_users_witness :
    demoWorld.healthy ∧ demoCodec.idBelongToAppId "A" ["U1", "R1", "X9"] = true ∧
    demoCodec.userIdTag ≠ demoCodec.roleIdTag ∧
    ∃ users roles,
      (Get demoCodec demoWorld (some "A") ["U1", "R1", "X9"]
        (some { Fuzzy := true, WithRoles := false })).1 = .ok (users, roles) ∧
      users.map (fun u => u.Id) = ["U1"] ∧ users.Sublist (demoWorld.users "A") := by
  obtain ⟨users, roles, h₁, -, h₃, -⟩ :=
    Get_fuzzy_users demoCodec demoWorld (fun _ => rfl) "A" ["U1", "R1", "X9"] false rfl
      (by decide)
  refine ⟨fun _ => rfl, rfl, by decide, users, roles, h₁, ?_, h₃⟩
  have h₂ : (Get demoCodec demoWorld (some "A") ["U1", "R1", "X9"]
      (some { Fuzzy := true, WithRoles := false })).1 =
      .ok ((demoWorld.users "A").take 1, []) := rfl
  rw [h₂] at h₁
  cases h₁
  rfl

/-! ## Metadata -/

theorem splitDots_no_dot (cs cur : List Char) (h : '.' ∉ cs) :
    splitDots cs cur = [cur.reverse ++ cs] := by
  induction cs generalizing cur with
  | nil => simp [splitDots]
  | cons ch rest ih =>
    have hch : ch ≠ '.' := fun e => h (e ▸ List.mem_cons_self _ _)
    have hrest : '.' ∉ rest := fun hm => h (List.mem_cons_of_mem _ hm)
    simp [splitDots, hch, ih _ hrest]

theorem parsePath_metadata (k : String) :
    parsePath ("metadata." ++ k) = "metadata" :: (splitDots k.data []).map String.mk := by
  have hd : ("metadata." ++ k).data =
      'm' :: 'e' :: 't' :: 'a' :: 'd' :: 'a' :: 't' :: 'a' :: '.' :: k.data := by
    rw [String.data_append]
    rfl
  simp only [parsePath, hd, splitDots]
  simp only [Char.reduceEq, if_false, if_true, List.map_cons]
  rfl

/-- The path of a key without dots is the key itself. -/
theorem metadataPath_plain (k : String) (hne : k ≠ "") (hdot : '.' ∉ k.data)
    (hdol : k.data.head? ≠ some '$' ∧ Char.ofNat 0 ∉ k.data) :
    metadataPath ("metadata." ++ k) = some [k] := by
  simp only [metadataPath, parsePath_metadata, splitDots_no_dot _ _ hdot,
    List.reverse_nil, List.nil_append, List.map_cons, List.map_nil]
  have hk : String.mk k.data = k := rfl
  rw [hk]
  have : ¬ ("" : String) = k := fun e => hne e.symm
  simp [this, hdol.1, hdol.2]

theorem metadata_prefix_inj (k k' : String) (h : "metadata." ++ k = "metadata." ++ k') :
    k = k' := by
  have hd := congrArg String.data h
  simp only [String.data_append] at hd
  exact String.ext (List.append_cancel_left hd)

theorem kvSet_of_not_mem {β : Type} (k : String) (v : β) (l : List (String × β))
    (h : k ∉ l.map Prod.fst) : kvSet k v l = l ++ [(k, v)] := by
  induction l with
  | nil => rfl
  | cons p rest ih =>
    obtain ⟨k', v'⟩ := p
    simp only [List.map_cons, List.mem_cons, not_or] at h
    simp [kvSet, Ne.symm h.1, ih h.2]

theorem kvGet_eq_none {β : Type} (k : String) (l : List (String × β))
    (h : k ∉ l.map Prod.fst) : kvGet k l = none := by
  induction l with
  | nil => rfl
  | cons p rest ih =>
    obtain ⟨k', v'⟩ := p
    simp only [List.map_cons, List.mem_cons, not_or] at h
    simp [kvGet, Ne.symm h.1, ih h.2]

/-- With distinct keys, lookup and membership agree. -/
theorem kvGet_iff_mem {β : Type} (k : String) (v : β) (l : List (String × β))
    (hnd : (l.map Prod.fst).Nodup) : kvGet k l = some v ↔ (k, v) ∈ l := by
  induction l with
  | nil => simp [kvGet]
  | cons p rest ih =>
    obtain ⟨k', v'⟩ := p
    simp only [List.map_cons, List.nodup_cons] at hnd
    by_cases hk : k' = k
    · subst hk
      simp only [kvGet, if_true, Option.some.injEq, List.mem_cons, Prod.mk.injEq, true_and]
      constructor
      · intro h
        exact Or.inl h.symm
      · rintro (h | h)
        · exact h.symm
        · exact absurd (List.mem_map_of_mem Prod.fst h) hnd.1
    · simp only [kvGet, if_neg hk, ih hnd.2, List.mem_cons, Prod.mk.injEq]
      constructor
      · exact Or.inr
      · rintro (⟨h, -⟩ | h)
        · exact absurd h.symm hk
        · exact h

/-- With distinct keys the loop of `setUserMetadata` appends the two parts of the
spec to the maps it started from. -/
theorem metadataUpdate_eq (md : List (String × String)) (acc : MetadataUpdate)
    (hnd : (md.map Prod.fst).Nodup)
    (hfresh : ∀ kv ∈ md, "metadata." ++ kv.1 ∉ acc.set.map Prod.fst ∧
      "metadata." ++ kv.1 ∉ acc.unset.map Prod.fst) :
    metadataUpdate md acc =
      { set := acc.set ++ specSet md, unset := acc.unset ++ specUnset md } := by
  induction md generalizing acc with
  | nil => simp [metadataUpdate, specSet, specUnset]
  | cons kv rest ih =>
    obtain ⟨k, v⟩ := kv
    simp only [List.map_cons, List.nodup_cons] at hnd
    have hk := hfresh (k, v) (List.mem_cons_self _ _)
    have hother : ∀ kv' ∈ rest, "metadata." ++ kv'.1 ≠ "metadata." ++ k := by
      intro kv' hkv' e
      have := metadata_prefix_inj _ _ e
      exact hnd.1 (this ▸ List.mem_map_of_mem Prod.fst hkv')
    by_cases hv : v = ""
    · have hstep : metadataUpdate ((k, v) :: rest) acc =
          metadataUpdate rest { acc with unset := kvSet ("metadata." ++ k) 1 acc.unset } := by
        simp [metadataUpdate, hv]
      rw [hstep, ih _ hnd.2, kvSet_of_not_mem _ _ _ hk.2]
      · simp [specSet, specUnset, hv]
      · intro kv' hkv'
        have h' := hfresh kv' (List.mem_cons_of_mem _ hkv')
        refine ⟨h'.1, ?_⟩
        rw [kvSet_of_not_mem _ _ _ hk.2]
        simp only [List.map_append, List.map_cons, List.map_nil, List.mem_append,
          List.mem_singleton, not_or]
        exact ⟨h'.2, hother kv' hkv'⟩
    · have hstep : metadataUpdate ((k, v) :: rest) acc =
          metadataUpdate rest { acc with set := kvSet ("metadata." ++ k) v acc.set } := by
        simp [metadataUpdate, hv]
      rw [hstep, ih _ hnd.2, kvSet_of_not_mem _ _ _ hk.1]
      · simp [specSet, specUnset, hv]
      · intro kv' hkv'
        have h' := hfresh kv' (List.mem_cons_of_mem _ hkv')
        refine ⟨?_, h'.2⟩
        rw [kvSet_of_not_mem _ _ _ hk.1]
        simp only [List.map_append, List.map_cons, List.map_nil, List.mem_append,
          List.mem_singleton, not_or]
        exact ⟨h'.1, hother kv' hkv'⟩

theorem metaGet_applyUnset (m : List (List String × String)) (k k' : String) :
    metaGet (applyUnset m [k]) k' = if k' = k then none else metaGet m k' := by
  induction m with
  | nil => simp [applyUnset, metaGet]
  | cons q rest ih =>
    obtain ⟨path, val⟩ := q
    simp only [applyUnset, metaGet] at ih ⊢
    cases path with
    | nil => simpa [List.isPrefixOf, List.filter_cons, List.find?_cons] using ih
    | cons a as =>
      by_cases hka : k = a
      · subst hka
        by_cases hk' : k' = k
        · simpa [List.isPrefixOf, List.filter_cons, hk'] using ih
        · have : ¬ (k = k' ∧ as = []) := fun h => hk' h.1.symm
          simpa [List.isPrefixOf, List.filter_cons, List.find?_cons, hk', this] using ih
      · by_cases hhit : a = k' ∧ as = []
        · obtain ⟨rfl, rfl⟩ := hhit
          simp [List.isPrefixOf, List.filter_cons, List.find?_cons, hka, Ne.symm hka]
        · have hhit' : ¬ (a :: as = [k']) := by simpa using hhit
          simpa [List.isPrefixOf, List.filter_cons, List.find?_cons, hka, hhit'] using ih

theorem metaGet_append_leaf (m : List (List String × String)) (k k' v : String) :
    metaGet (m ++ [([k], v)]) k' =
      match metaGet m k' with
      | some x => some x
      | none => if k' = k then some v else none := by
  simp only [metaGet, List.find?_append]
  cases List.find? (fun q => decide (q.1 = [k'])) m with
  | some q => simp
  | none =>
    by_cases h : k' = k
    · simp [h]
    · simp [h, Ne.symm h]

/-- One `$set` of a key without dots on a well-formed document. -/
theorem applySet_key (m : List (List String × String)) (hm : wfLeaves m) (k v : String) :
    ∃ m', applySet m [k] v = some m' ∧ wfLeaves m' ∧
      ∀ k', metaGet m' k' = if k' = k then some v else metaGet m k' := by
  have hfree : m.any (fun q => q.1.isPrefixOf [k] && decide (q.1 ≠ [k])) = false := by
    rw [List.any_eq_false]
    intro q hq
    have hne := hm q hq
    cases hp : q.1 with
    | nil => exact absurd hp hne
    | cons a as =>
      cases as with
      | nil => by_cases h : a = k <;> simp [List.isPrefixOf, h]
      | cons b bs => simp [List.isPrefixOf]
  refine ⟨applyUnset m [k] ++ [([k], v)], ?_, ?_, ?_⟩
  · simp only [applySet, hfree, Bool.false_eq_true, if_false]
    rfl
  · intro q hq
    rcases List.mem_append.mp hq with h | h
    · exact hm q (List.mem_filter.mp h).1
    · rw [List.mem_singleton.mp h]
      simp
  · intro k'
    rw [metaGet_append_leaf, metaGet_applyUnset]
    by_cases h : k' = k
    · simp [h]
    · simp only [if_neg h]
      cases metaGet m k' <;> rfl

/-- The `$set` part of the spec, applied to a well-formed document, for keys without
dots. -/
theorem applySets_specSet (md : List (String × String))
    (hnd : (md.map Prod.fst).Nodup)
    (hplain : ∀ kv ∈ md, plainKey kv.1)
    (m : List (List String × String)) (hm : wfLeaves m) :
    ∃ m', applySets m (specSet md) = some m' ∧ wfLeaves m' ∧
      ∀ k', metaGet m' k' =
        match kvGet k' md with
        | some v => if v = "" then metaGet m k' else some v
        | none => metaGet m k' := by
  induction md generalizing m with
  | nil => exact ⟨m, rfl, hm, fun _ => rfl⟩
  | cons kv rest ih =>
    obtain ⟨k, v⟩ := kv
    simp only [List.map_cons, List.nodup_cons] at hnd
    have hrest : ∀ kv ∈ rest, plainKey kv.1 :=
      fun kv h => hplain kv (List.mem_cons_of_mem _ h)
    have hknone : kvGet k rest = none := kvGet_eq_none k rest hnd.1
    by_cases hv : v = ""
    · obtain ⟨m', h₁, h₂, h₃⟩ := ih hnd.2 hrest m hm
      refine ⟨m', ?_, h₂, ?_⟩
      · simpa [specSet, hv] using h₁
      · intro k'
        rw [h₃ k']
        by_cases hk : k = k'
        · subst hk
          simp [kvGet, hknone, hv]
        · simp [kvGet, hk]
    · obtain ⟨hne, hdot, hdol⟩ := hplain (k, v) (List.mem_cons_self _ _)
      obtain ⟨m₁, hs₁, hs₂, hs₃⟩ := applySet_key m hm k v
      obtain ⟨m', h₁, h₂, h₃⟩ := ih hnd.2 hrest m₁ hs₂
      refine ⟨m', ?_, h₂, ?_⟩
      · have : specSet ((k, v) :: rest) = ("metadata." ++ k, v) :: specSet rest := by
          simp [specSet, hv]
        rw [this]
        simp only [applySets, metadataPath_plain k hne hdot hdol, hs₁]
        exact h₁
      · intro k'
        rw [h₃ k', hs₃ k']
        by_cases hk : k' = k
        · subst hk
          simp [kvGet, hknone, hv]
        · simp only [kvGet, if_neg (Ne.symm hk), if_neg hk]

/-- The `$unset` part of the spec, applied to a document, for keys without dots. -/
theorem applyUnsets_specUnset (md : List (String × String))
    (hnd : (md.map Prod.fst).Nodup)
    (hplain : ∀ kv ∈ md, plainKey kv.1)
    (m : List (List String × String)) :
    ∃ m', applyUnsets m (specUnset md) = some m' ∧
      ∀ k', metaGet m' k' =
        match kvGet k' md with
        | some v => if v = "" then none else metaGet m k'
        | none => metaGet m k' := by
  induction md generalizing m with
  | nil => exact ⟨m, rfl, fun _ => rfl⟩
  | cons kv rest ih =>
    obtain ⟨k, v⟩ := kv
    simp only [List.map_cons, List.nodup_cons] at hnd
    have hrest : ∀ kv ∈ rest, plainKey kv.1 :=
      fun kv h => hplain kv (List.mem_cons_of_mem _ h)
    have hknone : kvGet k rest = none := kvGet_eq_none k rest hnd.1
    by_cases hv : v = ""
    · obtain ⟨hne, hdot, hdol⟩ := hplain (k, v) (List.mem_cons_self _ _)
      obtain ⟨m', h₁, h₃⟩ := ih hnd.2 hrest (applyUnset m [k])
      refine ⟨m', ?_, ?_⟩
      · have : specUnset ((k, v) :: rest) = ("metadata." ++ k, 1) :: specUnset rest := by
          simp [specUnset, hv]
        rw [this]
        simp only [applyUnsets, metadataPath_plain k hne hdot hdol]
        exact h₁
      · intro k'
        rw [h₃ k', metaGet_applyUnset]
        by_cases hk : k' = k
        · subst hk
          simp [kvGet, hknone, hv]
        · simp only [kvGet, if_neg (Ne.symm hk), if_neg hk]
    · obtain ⟨m', h₁, h₃⟩ := ih hnd.2 hrest m
      refine ⟨m', ?_, ?_⟩
      · simpa [specUnset, hv] using h₁
      · intro k'
        rw [h₃ k']
        by_cases hk : k = k'
        · subst hk
          simp [kvGet, hknone, hv]
        · simp [kvGet, hk]

theorem pathsConflict_keys (ks : List String) (hnd : ks.Nodup) :
    pathsConflict (ks.map (fun k => [k])) = false := by
  induction ks with
  | nil => rfl
  | cons k rest ih =>
    rw [List.nodup_cons] at hnd
    simp only [List.map_cons, pathsConflict, ih hnd.2, Bool.or_false, List.any_eq_false]
    intro q hq
    obtain ⟨k', hk', rfl⟩ := List.mem_map.mp hq
    have : k ≠ k' := fun e => hnd.1 (e ▸ hk')
    simp [List.isPrefixOf, this, Ne.symm this]

/-- The update document of the spec is accepted, for distinct keys without dots. -/
theorem updateAccepted_spec (md : List (String × String))
    (hnd : (md.map Prod.fst).Nodup)
    (hplain : ∀ kv ∈ md, plainKey kv.1) :
    updateAccepted { set := specSet md, unset := specUnset md } = true := by
  have hpaths : (specSet md).map Prod.fst ++ (specUnset md).map Prod.fst =
      ((md.filter (fun kv => decide (kv.2 ≠ "")) ++
        md.filter (fun kv => !decide (kv.2 ≠ ""))).map Prod.fst).map
          (fun k => "metadata." ++ k) := by
    simp [specSet, specUnset, Function.comp_def]
  have hmem : ∀ k ∈ (md.filter (fun kv => decide (kv.2 ≠ "")) ++
      md.filter (fun kv => !decide (kv.2 ≠ ""))).map Prod.fst,
      metadataPath ("metadata." ++ k) = some [k] := by
    intro k hk
    obtain ⟨kv, hkv, rfl⟩ := List.mem_map.mp hk
    have hkv' : kv ∈ md := by
      rcases List.mem_append.mp hkv with h | h <;> exact (List.mem_filter.mp h).1
    exact metadataPath_plain _ (hplain kv hkv').1 (hplain kv hkv').2.1 (hplain kv hkv').2.2
  have hnd' : ((md.filter (fun kv => decide (kv.2 ≠ "")) ++
      md.filter (fun kv => !decide (kv.2 ≠ ""))).map Prod.fst).Nodup :=
    ((List.filter_append_perm _ md).map Prod.fst).nodup_iff.mpr hnd
  simp only [updateAccepted, hpaths, Bool.and_eq_true, List.all_eq_true,
    Bool.not_eq_true']
  constructor
  · intro path hpath
    obtain ⟨k, hk, rfl⟩ := List.mem_map.mp hpath
    rw [hmem k hk]
    rfl
  · have hfm : ∀ ks : List String, (∀ k ∈ ks, metadataPath ("metadata." ++ k) = some [k]) →
        (ks.map (fun k => "metadata." ++ k)).filterMap metadataPath =
          ks.map (fun k => [k]) := by
      intro ks
      induction ks with
      | nil => intro _; rfl
      | cons k rest ih =>
        intro h
        simp only [List.map_cons, List.filterMap_cons, h k (List.mem_cons_self _ _)]
        rw [ih (fun k' hk' => h k' (List.mem_cons_of_mem _ hk'))]
    rw [hfm _ hmem]
    exact pathsConflict_keys _ hnd'

theorem find?_updateFirst {α : Type} (p : α → Bool) (f : α → α) (l : List α) (x : α)
    (hx : l.find? p = some x) (hp : p (f x) = true) :
    (updateFirst p f l).find? p = some (f x) := by
  induction l with
  | nil => simp at hx
  | cons y rest ih =>
    by_cases hy : p y = true
    · simp only [List.find?_cons, hy, Option.some.injEq] at hx
      subst hx
      simp [updateFirst, hy, List.find?_cons, hp]
    · simp only [List.find?_cons, hy] at hx
      simp [updateFirst, hy, List.find?_cons, ih hx]

/-- Every entry of `md` lands in exactly one part of the update document. -/
theorem spec_parts_partition (md : List (String × String))
    (hnd : (md.map Prod.fst).Nodup) (kv : String × String) (hkv : kv ∈ md) :
    (kv.2 ≠ "" → kvGet ("metadata." ++ kv.1) (specSet md) = some kv.2 ∧
      kvGet ("metadata." ++ kv.1) (specUnset md) = none) ∧
    (kv.2 = "" → kvGet ("metadata." ++ kv.1) (specUnset md) = some 1 ∧
      kvGet ("metadata." ++ kv.1) (specSet md) = none) := by
  have hinj : Function.Injective (fun k : String => "metadata." ++ k) :=
    fun a b h => metadata_prefix_inj a b h
  have hsame : ∀ kv' ∈ md, "metadata." ++ kv'.1 = "metadata." ++ kv.1 → kv' = kv := by
    intro kv' hkv' e
    exact List.inj_on_of_nodup_map hnd hkv' hkv (metadata_prefix_inj _ _ e)
  have hndS : ((specSet md).map Prod.fst).Nodup := by
    have : (specSet md).map Prod.fst =
        ((md.filter (fun kv => decide (kv.2 ≠ ""))).map Prod.fst).map
          (fun k => "metadata." ++ k) := by
      simp [specSet, Function.comp_def]
    rw [this]
    exact (List.Nodup.sublist ((List.filter_sublist _).map _) hnd).map hinj
  have hndU : ((specUnset md).map Prod.fst).Nodup := by
    have : (specUnset md).map Prod.fst =
        ((md.filter (fun kv => decide (kv.2 = ""))).map Prod.fst).map
          (fun k => "metadata." ++ k) := by
      simp [specUnset, Function.comp_def]
    rw [this]
    exact (List.Nodup.sublist ((List.filter_sublist _).map _) hnd).map hinj
  constructor
  · intro hv
    constructor
    · rw [kvGet_iff_mem _ _ _ hndS]
      exact List.mem_map.mpr ⟨kv, List.mem_filter.mpr ⟨hkv, by simpa using hv⟩, rfl⟩
    · apply kvGet_eq_none
      intro hmem
      obtain ⟨e, he, hpath⟩ := List.mem_map.mp hmem
      obtain ⟨kv', hkv', rfl⟩ := List.mem_map.mp he
      obtain ⟨hin, hval⟩ := List.mem_filter.mp hkv'
      have := hsame kv' hin hpath
      subst this
      exact hv (by simpa using hval)
  · intro hv
    constructor
    · rw [kvGet_iff_mem _ _ _ hndU]
      exact List.mem_map.mpr ⟨kv, List.mem_filter.mpr ⟨hkv, by simpa using hv⟩, rfl⟩
    · apply kvGet_eq_none
      intro hmem
      obtain ⟨e, he, hpath⟩ := List.mem_map.mp hmem
      obtain ⟨kv', hkv', rfl⟩ := List.mem_map.mp he
      obtain ⟨hin, hval⟩ := List.mem_filter.mp hkv'
      have := hsame kv' hin hpath
      subst this
      simp [hv] at hval

/-- Claim C10 as stated fails for a key with a dot: the update `$set` of
`metadata.a.b` is accepted and creates the field `b` inside a document `a`, so the
resulting metadata has no value for the key `a.b`. -/
theorem setUserMetadata_dotted_key :
    (metadataUpdate [("a.b", "x")] { set := [], unset := [] }).set =
      [("metadata.a.b", "x")] ∧
    (setUserMetadata demoWorld "A" "U2" [("a.b", "x")]).1 = .ok () ∧
    (setUserMetadata demoWorld "A" "U2" [("a.b", "x")]).2.metadataOf "A" "U2" =
      [(["a", "b"], "x")] ∧
    metaGet ((setUserMetadata demoWorld "A" "U2" [("a.b", "x")]).2.metadataOf "A" "U2")
      "a.b" = none :=
  ⟨rfl, rfl, rfl, rfl⟩

/-- The update call of `setUserMetadata` is logged once, whatever its outcome. -/
theorem updateOneMetadata_log (w : World) (appId userId : String) (upd : MetadataUpdate) :
    (w.updateOneMetadata appId userId upd).2.log = w.log ++ [.updateOne "users" appId] := by
  unfold World.updateOneMetadata World.call
  cases w.outage w.log.length with
  | true => rfl
  | false =>
    simp only
    split
    · rfl
    · split
      · rfl
      · split
        · rfl
        · split <;> rfl

/-- The run of `setUserMetadata` for keys that are plain field names, when no store
call fails and the user exists. -/
theorem setUserMetadata_plain (w : World) (hw : w.healthy) (appId userId : String)
    (md : List (String × String)) (u : dbUser)
    (hnd : (md.map Prod.fst).Nodup)
    (hplain : ∀ kv ∈ md, plainKey kv.1)
    (hu : (w.users appId).find? (fun u => decide (u.Id = userId)) = some u)
    (hwf : wfLeaves u.Metadata) :
    (setUserMetadata w appId userId md).1 = .ok () ∧
    (∀ k, metaGet ((setUserMetadata w appId userId md).2.metadataOf appId userId) k =
      match kvGet k md with
      | some v => if v = "" then none else some v
      | none => metaGet u.Metadata k) := by
  have hupd : metadataUpdate md { set := [], unset := [] } =
      { set := specSet md, unset := specUnset md } := by
    rw [metadataUpdate_eq md _ hnd (by simp)]
    simp
  obtain ⟨hg₁, hg₂, -, hg₄⟩ := getUserCollection_healthy w hw appId
  rcases hgc : getUserCollection w appId with ⟨res₁, w₁⟩
  rw [hgc] at hg₁ hg₂ hg₄
  simp only at hg₁ hg₂ hg₄
  subst hg₁
  obtain ⟨m₁, hs₁, hs₂, hs₃⟩ := applySets_specSet md hnd hplain u.Metadata hwf
  obtain ⟨m₂, hu₁, hu₃⟩ := applyUnsets_specUnset md hnd hplain m₁
  have ho : ∀ n, w₁.outage n = false := hg₄
  have hrun : setUserMetadata w appId userId md =
      (.ok (), { w₁ with
        log := w₁.log ++ [.updateOne "users" appId]
        users := fun a =>
          if a = appId then
            updateFirst (fun u => decide (u.Id = userId))
              (fun u => { u with Metadata := m₂ }) (w₁.users appId)
          else w₁.users a }) := by
    simp only [setUserMetadata, hgc, hupd, World.updateOneMetadata, World.call, ho,
      updateAccepted_spec md hnd hplain, Bool.not_true, Bool.false_eq_true, if_false,
      hg₂, hu, hs₁, hu₁, World.setUsers]
  refine ⟨?_, ?_⟩
  · rw [hrun]
  · intro k
    have hfind : (updateFirst (fun u => decide (u.Id = userId))
        (fun u => { u with Metadata := m₂ }) (w₁.users appId)).find?
          (fun u => decide (u.Id = userId)) = some { u with Metadata := m₂ } := by
      apply find?_updateFirst _ _ _ u (by rw [hg₂]; exact hu)
      simpa using List.find?_some hu
    rw [hrun]
    simp only [World.metadataOf, if_true, hfind]
    rw [hu₃ k, hs₃ k]
    cases kvGet k md with
    | none => rfl
    | some v => by_cases hv : v = "" <;> simp [hv]

/-- Claim C10, amended. For every metadata map `md` (an association list with
distinct keys) and every world: the update document that `setUserMetadata` builds
has as `$set` part `"metadata."+k ↦ v` for the entries with a non-empty value and as
`$unset` part `"metadata."+k` for the entries with the empty value, every entry
landing in exactly one part; `setUserMetadata` is the run that issues `UpdateOne`
with this document; and when no store call fails it issues exactly one update.
When moreover every key is a plain field name (not empty, without `.` or NUL, not
beginning with `$`) and the user exists: the call succeeds and the resulting metadata is the
old one with the empty-valued keys removed, the other keys of `md` set to their
values, and every key outside `md` as before. -/
theorem setUserMetadata_partitions (w : World) (appId userId : String)
    (md : List (String × String)) (hnd : (md.map Prod.fst).Nodup) :
    metadataUpdate md { set := [], unset := [] } =
      { set := specSet md, unset := specUnset md } ∧
    (∀ kv ∈ md,
      (kv.2 ≠ "" → kvGet ("metadata." ++ kv.1) (specSet md) = some kv.2 ∧
        kvGet ("metadata." ++ kv.1) (specUnset md) = none) ∧
      (kv.2 = "" → kvGet ("metadata." ++ kv.1) (specUnset md) = some 1 ∧
        kvGet ("metadata." ++ kv.1) (specSet md) = none)) ∧
    setUserMetadata w appId userId md =
      (match getUserCollection w appId with
      | (.error e, w₁) => (.error e, w₁)
      | (.ok _, w₁) =>
        match w₁.updateOneMetadata appId userId
          { set := specSet md, unset := specUnset md } with
        | (some _, w₂) => (.error .databaseUnavailable, w₂)
        | (none, w₂) => (.ok (), w₂)) ∧
    (w.healthy → (setUserMetadata w appId userId md).2.log =
      (getUserCollection w appId).2.log ++ [.updateOne "users" appId]) ∧
    (∀ u, w.healthy → (∀ kv ∈ md, plainKey kv.1) →
      (w.users appId).find? (fun u => decide (u.Id = userId)) = some u →
      wfLeaves u.Metadata →
      (setUserMetadata w appId userId md).1 = .ok () ∧
      (∀ k, metaGet ((setUserMetadata w appId userId md).2.metadataOf appId userId) k =
        match kvGet k md with
        | some v => if v = "" then none else some v
        | none => metaGet u.Metadata k)) := by
  have hupd : metadataUpdate md { set := [], unset := [] } =
      { set := specSet md, unset := specUnset md } := by
    rw [metadataUpdate_eq md _ hnd (by simp)]
    simp
  refine ⟨hupd, fun kv hkv => spec_parts_partition md hnd kv hkv, ?_, ?_,
    fun u hw hplain hu hwf => setUserMetadata_plain w hw appId userId md u hnd hplain hu hwf⟩
  · unfold setUserMetadata
    rw [hupd]
  · intro hw
    obtain ⟨hg₁, -, -, -⟩ := getUserCollection_healthy w hw appId
    unfold setUserMetadata
    rcases hgc : getUserCollection w appId with ⟨r, w₁⟩
    rw [hgc] at hg₁
    simp only at hg₁
    subst hg₁
    simp only
    have hlog := updateOneMetadata_log w₁ appId userId
      (metadataUpdate md { set := [], unset := [] })
    rcases hum : w₁.updateOneMetadata appId userId
      (metadataUpdate md { set := [], unset := [] }) with ⟨e, w₂⟩
    rw [hum] at hlog
    cases e <;> exact hlog

/-- Witness of C10 on the sample world: `U1` changes `lang`, removes `tz`, adds `x`. -/
theorem setUserMetadata_partitions_witness :
    demoWorld.healthy ∧
    (setUserMetadata demoWorld "A" "U1" [("lang", "fr"), ("tz", ""), ("x", "y")]).1 =
      .ok () ∧
    metadataUpdate [("lang", "fr"), ("tz", ""), ("x", "y")] { set := [], unset := [] } =
      { set := [("metadata.lang", "fr"), ("metadata.x", "y")],
        unset := [("metadata.tz", 1)] } ∧
    (setUserMetadata demoWorld "A" "U1"
      [("lang", "fr"), ("tz", ""), ("x", "y")]).2.metadataOf "A" "U1" =
      [(["lang"], "fr"), (["x"], "y")] ∧
    (setUserMetadata demoWorld "A" "U1" [("lang", "fr"), ("tz", ""), ("x", "y")]).2.log =
      (getUserCollection demoWorld "A").2.log ++ [.updateOne "users" "A"] := by
  have H := setUserMetadata_partitions demoWorld "A" "U1"
    [("lang", "fr"), ("tz", ""), ("x", "y")] (by decide)
  have H₅ := H.2.2.2.2
    { Id := "U1", AcctIds := ["a1"], CreateTime := 1, CreateIp := "", LoginTime := 1,
      LoginIp := "", Metadata := [(["lang"], "en"), (["tz"], "utc")], BanTo := zeroTime,
      BanFor := "" }
    (fun _ => rfl) (by decide) rfl (by unfold wfLeaves; decide)
  exact ⟨fun _ => rfl, H₅.1, H.1, rfl, H.2.2.2.1 (fun _ => rfl)⟩

/-! ## Stream names -/

theorem afterColon_append (l r : List Char) (h : ':' ∉ l) :
    afterColon (l ++ ':' :: r) = some r := by
  induction l with
  | nil => simp [afterColon]
  | cons ch rest ih =>
    have hch : ch ≠ ':' := fun e => h (e ▸ List.mem_cons_self _ _)
    have hrest : ':' ∉ rest := fun hm => h (List.mem_cons_of_mem _ hm)
    simp [afterColon, hch, ih hrest]

theorem toStream_data (appId topic : String) :
    (appId ++ ":" ++ topic).data = appId.data ++ ':' :: topic.data := by
  simp only [String.data_append, List.append_assoc]
  rfl

/-- Claim C11. For an app id without `:` and any topic, `toStream` returns the app
id, a `:` and the topic, and `toTopic` of that stream name is the topic; for an app
id with a `:`, `toStream` panics. -/
theorem toStream_toTopic (appId topic : String) :
    (':' ∉ appId.data →
      toStream appId topic = .ok (appId ++ ":" ++ topic) ∧
      toTopic (appId ++ ":" ++ topic) = .ok topic) ∧
    (':' ∈ appId.data → toStream appId topic = .error (.panic "invalid app id")) := by
  constructor
  · intro h
    refine ⟨by simp [toStream, h], ?_⟩
    simp only [toTopic, toStream_data, afterColon_append _ _ h]
  · intro h
    simp [toStream, h]

/-- Witness of C11: app `myapp`, a topic that is empty, one that contains `:`. -/
theorem toStream_toTopic_witness :
    ':' ∉ "myapp".data ∧ ':' ∈ "my:app".data ∧
    toStream "myapp" "" = .ok "myapp:" ∧ toTopic "myapp:" = .ok "" ∧
    toStream "myapp" "a:b" = .ok "myapp:a:b" ∧ toTopic "myapp:a:b" = .ok "a:b" ∧
    toStream "my:app" "t" = .error (.panic "invalid app id") :=
  ⟨by decide, by decide,
    ((toStream_toTopic "myapp" "").1 (by decide)).1,
    ((toStream_toTopic "myapp" "").1 (by decide)).2,
    ((toStream_toTopic "myapp" "a:b").1 (by decide)).1,
    ((toStream_toTopic "myapp" "a:b").1 (by decide)).2,
    (toStream_toTopic "my:app" "t").2 (by decide)⟩

/-- Claim C18. Stream names are injective: for app ids without `:`, equal stream
names come from equal app ids and equal topics. -/
theorem toStream_injective (a₁ a₂ t₁ t₂ : String) (h₁ : ':' ∉ a₁.data)
    (h₂ : ':' ∉ a₂.data) (h : toStream a₁ t₁ = toStream a₂ t₂) : a₁ = a₂ ∧ t₁ = t₂ := by
  simp only [toStream, h₁, h₂, if_false, Except.ok.injEq] at h
  have hd := congrArg String.data h
  rw [toStream_data, toStream_data] at hd
  have := append_sep_inj ':' a₁.data a₂.data t₁.data t₂.data h₁ h₂ hd
  exact ⟨String.ext this.1, String.ext this.2⟩

/-- Witness of C18: a stream name of app `myapp`. -/
theorem toStream_injective_witness :
    ':' ∉ "myapp".data ∧ toStream "myapp" "a:b" = toStream "myapp" "a:b" ∧
    ("myapp" = "myapp" ∧ "a:b" = "a:b") :=
  ⟨by decide, rfl, toStream_injective "myapp" "myapp" "a:b" "a:b" (by decide) (by decide) rfl⟩

/-! ## Subscriptions -/

/-- Claim C12 as stated fails: for `sinceMilliTimestamp = 1000` and `afterId =
"1000-5"` the integer before the first `-` is not strictly greater than 1000, yet the
start id is the `afterId`, not `"1000-0"`. -/
theorem subscribeStartId_equal_millis :
    parseInt (beforeDash "1000-5") = some 1000 ∧ ¬ ((1000 : Int) > 1000) ∧
    subscribeStartId
      { Topic := "t", SinceMilliTimestamp := 1000, AfterId := "1000-5", BatchSize := 1 } =
      .ok "1000-5" ∧
    "1000-5" ≠ formatInt 1000 ++ "-0" :=
  ⟨rfl, by decide, rfl, by decide⟩

/-- Claim C12, amended. The start id of a subscription is `afterId` exactly when
`afterId` is non-empty and the integer before its first `-` is greater than or equal
to `sinceMilliTimestamp`; when `afterId` is empty, or that integer is less than
`sinceMilliTimestamp`, the start id is the decimal rendering of
`sinceMilliTimestamp` followed by `-0`; a non-empty `afterId` whose part before the
first `-` is not a 64-bit decimal integer is refused with `InvalidArgument`. -/
theorem subscribeStartId_spec (sub : Subscription) :
    (sub.AfterId = "" →
      subscribeStartId sub = .ok (formatInt sub.SinceMilliTimestamp ++ "-0")) ∧
    (∀ v, sub.AfterId ≠ "" → parseInt (beforeDash sub.AfterId) = some v →
      (sub.SinceMilliTimestamp ≤ v → subscribeStartId sub = .ok sub.AfterId) ∧
      (v < sub.SinceMilliTimestamp →
        subscribeStartId sub = .ok (formatInt sub.SinceMilliTimestamp ++ "-0"))) ∧
    (sub.AfterId ≠ "" → parseInt (beforeDash sub.AfterId) = none →
      subscribeStartId sub =
        .error (.invalidArgument ("invalid subscription after id: " ++ sub.AfterId))) := by
  refine ⟨?_, ?_, ?_⟩
  · intro h
    simp [subscribeStartId, h]
  · intro v hne hv
    constructor
    · intro hle
      simp [subscribeStartId, hne, hv, hle]
    · intro hlt
      have : ¬ sub.SinceMilliTimestamp ≤ v := by omega
      simp [subscribeStartId, hne, hv, this]
  · intro hne hv
    simp [subscribeStartId, hne, hv]

/-- Witness of C12: resuming after `1700000000005-3` with since `1700000000000`, and
an older `afterId`. -/
theorem subscribeStartId_spec_witness :
    parseInt (beforeDash "1700000000005-3") = some 1700000000005 ∧
    subscribeStartId
      { Topic := "t", SinceMilliTimestamp := 1700000000000, AfterId := "1700000000005-3",
        BatchSize := 10 } = .ok "1700000000005-3" ∧
    subscribeStartId
      { Topic := "t", SinceMilliTimestamp := 1700000000000, AfterId := "1699999999999-7",
        BatchSize := 10 } = .ok "1700000000000-0" :=
  ⟨rfl,
    ((subscribeStartId_spec
      { Topic := "t", SinceMilliTimestamp := 1700000000000, AfterId := "1700000000005-3",
        BatchSize := 10 }).2.1 1700000000005 (by decide) rfl).1 (by decide),
    ((subscribeStartId_spec
      { Topic := "t", SinceMilliTimestamp := 1700000000000, AfterId := "1699999999999-7",
        BatchSize := 10 }).2.1 1699999999999 (by decide) rfl).2 (by decide)⟩

/-! ## Publish and parse -/

/-- Claim C13. For an app id without `:`, messages that serialise and deserialise
back to themselves (base64 decoding inverting the encoding of their bytes), and a
store that gives the `n`-th entry the id `ids n`: `Publish` succeeds, adds one entry
per message, to the stream `appId:topic` with the one field `pubsub`, and parsing
each entry with the topic of its stream name yields the message with the id of the
entry, topic and payload as published. `parseXMessage` fails for an entry without
the field `pubsub` and for a field that is not valid base64. -/
theorem publish_parse_roundtrip (lib : PubSubLib) (ids : Nat → String) (appId : String)
    (opts : Option PublishOptions) (msgs : List Message)
    (happ : ':' ∉ appId.data)
    (hlib : ∀ m ∈ msgs, ∃ b, lib.marshal m = some b ∧ lib.unmarshal b = some m ∧
      lib.b64decode (lib.b64encode b) = some b) :
    (Publish lib (fun n => .ok (ids n)) (some appId) opts msgs).1 = none ∧
    (Publish lib (fun n => .ok (ids n)) (some appId) opts msgs).2.map
      (fun e => (e.1.Stream, e.1.Values.take 1, e.2)) =
      (withIds ids msgs 0).map (fun m => (appId ++ ":" ++ m.Topic, ["pubsub"], m.Id)) ∧
    parseEntries lib (Publish lib (fun n => .ok (ids n)) (some appId) opts msgs).2 =
      (withIds ids msgs 0).map Except.ok ∧
    (∀ (m : XMessage) (topic : String), kvGet "pubsub" m.Values = none →
      parseXMessage lib m topic = .error (.failure "failed to get pubsub message value")) ∧
    (∀ (m : XMessage) (topic v : String), kvGet "pubsub" m.Values = some v →
      lib.b64decode v = none →
      parseXMessage lib m topic = .error (.failure "failed to decode pubsub message")) := by
  have key : ∀ (args : XAddArgs) (l : List Message) (n : Nat),
      (∀ m ∈ l, ∃ b, lib.marshal m = some b ∧ lib.unmarshal b = some m ∧
        lib.b64decode (lib.b64encode b) = some b) →
      (publishLoop lib (fun n => .ok (ids n)) appId args l n).1 = none ∧
      (publishLoop lib (fun n => .ok (ids n)) appId args l n).2.map
        (fun e => (e.1.Stream, e.1.Values.take 1, e.2)) =
        (withIds ids l n).map (fun m => (appId ++ ":" ++ m.Topic, ["pubsub"], m.Id)) ∧
      parseEntries lib (publishLoop lib (fun n => .ok (ids n)) appId args l n).2 =
        (withIds ids l n).map Except.ok := by
    intro args l
    induction l generalizing args with
    | nil => intro n _; exact ⟨rfl, rfl, rfl⟩
    | cons m rest ih =>
      intro n h
      obtain ⟨b, hb₁, hb₂, hb₃⟩ := h m (List.mem_cons_self _ _)
      have hs := ((toStream_toTopic appId m.Topic).1 happ)
      obtain ⟨ih₁, ih₂, ih₃⟩ :=
        ih { args with Stream := appId ++ ":" ++ m.Topic,
                       Values := ["pubsub", lib.b64encode b] } (n + 1)
          (fun m' hm' => h m' (List.mem_cons_of_mem _ hm'))
      simp only [publishLoop, hb₁, hs.1]
      refine ⟨ih₁, ?_, ?_⟩
      · simp only [List.map_cons, withIds, ih₂]
        rfl
      · simp only [parseEntries, List.map_cons, withIds] at ih₃ ⊢
        rw [ih₃]
        simp [hs.2, parseXMessage, entryOf, fieldPairs, kvSet, kvGet, hb₂, hb₃]
  refine ⟨?_, ?_, ?_, ?_, ?_⟩
  · cases opts <;> exact (key _ msgs 0 hlib).1
  · cases opts <;> exact (key _ msgs 0 hlib).2.1
  · cases opts <;> exact (key _ msgs 0 hlib).2.2
  · intro m topic h
    simp [parseXMessage, h]
  · intro m topic v h hv
    simp [parseXMessage, h, hv]

/-! ## Consumer groups -/

theorem parseAll_length_le (lib : PubSubLib) (topic : String) (r : List XMessage) :
    (parseAll lib topic r).length ≤ r.length := by
  induction r with
  | nil => simp [parseAll]
  | cons m rest ih =>
    simp only [parseAll]
    split
    · exact Nat.le_succ_of_le ih
    · simpa using ih

theorem flatMap_filter_length_le (stream : String) (r1 : List XStream) :
    ((r1.filter (fun e => decide (e.Stream = stream))).flatMap
      (fun e => e.Messages)).length ≤ (r1.flatMap (fun e => e.Messages)).length := by
  induction r1 with
  | nil => simp
  | cons e rest ih =>
    by_cases h : e.Stream = stream
    · simp only [List.filter_cons, h, decide_True, if_true, List.flatMap_cons,
        List.length_append]
      omega
    · simp only [List.filter_cons, h, decide_False, Bool.false_eq_true, if_false,
        List.flatMap_cons, List.length_append]
      omega

/-- The returns of the loop of `readGroup`, for a store that answers a claim or a
group read with at most one entry and gives no entry with its empty-result signal. -/
theorem readGroupLoop_result (lib : PubSubLib) (o : GroupStore) (stream group topic : String)
    (hclaim : ∀ n, (o.xAutoClaim n).1.length ≤ 1)
    (hread : ∀ n, ((o.xReadGroup n).1.flatMap (fun e => e.Messages)).length ≤ 1)
    (hnil : ∀ n, (o.xReadGroup n).2 = some .nil →
      (o.xReadGroup n).1.flatMap (fun e => e.Messages) = [])
    (fuel n : Nat) (atRead : Bool) (msgs : List Message) (err : Option XErr)
    (h : (readGroupLoop lib o stream group topic fuel n atRead).result = some (msgs, err)) :
    (err ≠ none ∧ msgs = []) ∨ (err = none ∧ msgs.length = 1) := by
  induction fuel generalizing n atRead with
  | zero => simp [readGroupLoop] at h
  | succ fuel ih =>
    cases atRead with
    | false =>
      rcases hc : o.xAutoClaim n with ⟨r, e⟩
      have hlen := hclaim n
      rw [hc] at hlen
      simp only [readGroupLoop, hc] at h
      cases e with
      | some e =>
        simp only at h
        split at h
        · split at h
          · exact ih _ _ h
          · simp only [Option.some.injEq, Prod.mk.injEq] at h
            exact Or.inl ⟨by rw [← h.2]; simp, h.1.symm⟩
        · simp only [Option.some.injEq, Prod.mk.injEq] at h
          exact Or.inl ⟨by rw [← h.2]; simp, h.1.symm⟩
      | none =>
        simp only at h
        split at h
        · exact ih _ _ h
        · split at h
          · exact ih _ _ h
          · rename_i hne
            simp only [Option.some.injEq, Prod.mk.injEq] at h
            refine Or.inr ⟨h.2.symm, ?_⟩
            have := parseAll_length_le lib topic r
            rw [← h.1]
            simp only at hlen
            omega
    | true =>
      rcases hr : o.xReadGroup n with ⟨r1, e⟩
      have hlen := hread n
      have hn := hnil n
      rw [hr] at hlen hn
      simp only at hlen hn
      simp only [readGroupLoop, hr] at h
      split at h
      · split at h
        · split at h
          · exact ih _ _ h
          · simp only [Option.some.injEq, Prod.mk.injEq] at h
            exact Or.inl ⟨by rw [← h.2]; simp, h.1.symm⟩
        · rename_i hbad _
          simp only [Option.some.injEq, Prod.mk.injEq] at h
          exact Or.inl ⟨by rw [← h.2]; exact hbad.1, h.1.symm⟩
      · rename_i hgood
        split at h
        · exact ih _ _ h
        · rename_i hne
          simp only [Option.some.injEq, Prod.mk.injEq] at h
          have h₁ := parseAll_length_le lib topic
            ((r1.filter (fun e => decide (e.Stream = stream))).flatMap (fun e => e.Messages))
          have h₂ := flatMap_filter_length_le stream r1
          have herr : e = none := by
            by_contra hcon
            have he : e = some .nil := by
              by_contra hcon'
              exact hgood ⟨hcon, hcon'⟩
            have h₃ := hn he
            rw [h₃] at h₂
            simp only [List.length_nil, Nat.le_zero] at h₂
            omega
          refine Or.inr ⟨by rw [← h.2]; exact herr, ?_⟩
          rw [← h.1]
          omega

theorem readsFollowEmptyClaim_loop (lib : PubSubLib) (o : GroupStore)
    (stream group topic : String) (fuel n : Nat) :
    (∀ st, readsFollowEmptyClaim
      (readGroupLoop lib o stream group topic fuel n false).calls st = true) ∧
    readsFollowEmptyClaim
      (readGroupLoop lib o stream group topic fuel n true).calls true = true := by
  induction fuel generalizing n with
  | zero => simp [readGroupLoop, readsFollowEmptyClaim]
  | succ fuel ih =>
    constructor
    · intro st
      rcases hc : o.xAutoClaim n with ⟨r, e⟩
      simp only [readGroupLoop, hc]
      cases e with
      | some e =>
        simp only
        split
        · split
          · simp only [GroupRun.after, List.cons_append, List.nil_append,
              readsFollowEmptyClaim]
            exact (ih _).1 _
          · simp [readsFollowEmptyClaim]
        · simp [readsFollowEmptyClaim]
      | none =>
        simp only
        split
        · simp only [GroupRun.after, List.cons_append, List.nil_append,
            readsFollowEmptyClaim]
          simpa using (ih _).2
        · split
          · simp only [GroupRun.after, List.cons_append, List.nil_append,
              readsFollowEmptyClaim]
            exact (ih _).1 _
          · simp [readsFollowEmptyClaim]
    · rcases hr : o.xReadGroup n with ⟨r1, e⟩
      simp only [readGroupLoop, hr]
      split
      · split
        · split
          · simp only [GroupRun.after, List.cons_append, List.nil_append,
              readsFollowEmptyClaim, Bool.true_and]
            exact (ih _).2
          · simp [readsFollowEmptyClaim]
        · simp [readsFollowEmptyClaim]
      · split
        · simp only [GroupRun.after, List.cons_append, List.nil_append,
            readsFollowEmptyClaim, Bool.true_and]
          exact (ih _).1 _
        · simp [readsFollowEmptyClaim]

/-- Witness of C13: the two sample messages are published and read back. -/
theorem publish_parse_roundtrip_witness :
    ':' ∉ "myapp".data ∧
    (Publish demoLib (fun n => .ok (demoIds n)) (some "myapp") none [msgNews, msgChat]).1 =
      none ∧
    parseEntries demoLib
      (Publish demoLib (fun n => .ok (demoIds n)) (some "myapp") none [msgNews, msgChat]).2 =
      [.ok { Id := "1-0", Topic := "news", Payload := [104, 105] },
       .ok { Id := "2-0", Topic := "chat:eu", Payload := [] }] := by
  have H := publish_parse_roundtrip demoLib demoIds "myapp" none [msgNews, msgChat]
    (by decide)
    (by
      intro m hm
      simp only [List.mem_cons, List.mem_singleton, List.not_mem_nil, or_false] at hm
      rcases hm with rfl | rfl
      · exact ⟨[1, 2, 3], rfl, rfl, rfl⟩
      · exact ⟨[4, 5], rfl, rfl, rfl⟩)
  exact ⟨by decide, H.1, H.2.2.1⟩

/-- Claim C16. For a store that answers a claim or a group read with at most one
entry and gives no entry together with its empty-result signal: whenever `readGroup`
returns, it returns a non-nil error with no message, or no error with exactly one
message; and every group read it makes follows, in the same iteration, a claim that
returned nothing. -/
theorem readGroup_one_message (lib : PubSubLib) (o : GroupStore) (appId : String)
    (con : Consumption) (fuel : Nat) (run : GroupRun)
    (hclaim : ∀ n, (o.xAutoClaim n).1.length ≤ 1)
    (hread : ∀ n, ((o.xReadGroup n).1.flatMap (fun e => e.Messages)).length ≤ 1)
    (hnil : ∀ n, (o.xReadGroup n).2 = some .nil →
      (o.xReadGroup n).1.flatMap (fun e => e.Messages) = [])
    (hrun : readGroup lib o appId con fuel = .ok run) :
    (∀ msgs err, run.result = some (msgs, err) →
      (err ≠ none ∧ msgs = []) ∨ (err = none ∧ msgs.length = 1)) ∧
    readsFollowEmptyClaim run.calls false = true := by
  unfold readGroup at hrun
  split at hrun
  · cases hrun
  · simp only [Except.ok.injEq] at hrun
    subst hrun
    exact ⟨fun msgs err h =>
        readGroupLoop_result lib o _ _ _ hclaim hread hnil fuel 0 false msgs err h,
      (readsFollowEmptyClaim_loop lib o _ _ _ fuel 0).1 false⟩

/-- Witness of C16: the worker of a store with a stale entry returns it without a
group read; the worker of a store without the group creates it, claims nothing,
reads one new entry; the worker of a failing store returns the error. -/
theorem readGroup_one_message_witness :
    (∀ n, (storeFresh.xAutoClaim n).1.length ≤ 1) ∧
    readGroup demoLib storeStale "myapp" conNews 3 =
      .ok { result := some ([{ Id := "7-0", Topic := "news", Payload := [104, 105] }], none),
            calls := [.xAutoClaim "myapp:news" "3" 1 1 false] } ∧
    readGroup demoLib storeFresh "myapp" conNews 3 =
      .ok { result := some ([{ Id := "7-0", Topic := "news", Payload := [104, 105] }], none),
            calls := [.xAutoClaim "myapp:news" "3" 1 0 true,
                      .xGroupCreateMkStream "myapp:news" "3",
                      .xAutoClaim "myapp:news" "3" 1 0 false,
                      .xReadGroup "myapp:news" "3" 1] } ∧
    readGroup demoLib storeDown "myapp" conNews 3 =
      .ok { result := some ([], some (.other "connection refused")),
            calls := [.xAutoClaim "myapp:news" "3" 1 0 true] } ∧
    ((∀ msgs err,
        (readGroupLoop demoLib storeFresh "myapp:news" "3" "news" 3 0 false).result =
          some (msgs, err) →
        (err ≠ none ∧ msgs = []) ∨ (err = none ∧ msgs.length = 1)) ∧
      readsFollowEmptyClaim
        (readGroupLoop demoLib storeFresh "myapp:news" "3" "news" 3 0 false).calls false =
        true) := by
  have hclaim : ∀ n, (storeFresh.xAutoClaim n).1.length ≤ 1 := by
    intro n
    simp only [storeFresh]
    split <;> simp
  refine ⟨hclaim, rfl, rfl, rfl, ?_⟩
  exact readGroup_one_message demoLib storeFresh "myapp" conNews 3 _ hclaim
    (fun _ => by simp [storeFresh]) (fun _ h => by simp [storeFresh] at h) rfl

/-! ## Consume -/

/-- Visiting a list by its indices, in order, visits its elements in order. -/
theorem flatMap_range_get {α β : Type} (f : α → List β) (l : List α) :
    (List.range l.length).flatMap (fun i => ((l.get? i).map f).getD []) = l.flatMap f := by
  induction l with
  | nil => rfl
  | cons x rest ih =>
    rw [List.length_cons, List.range_succ_eq_map, List.flatMap_cons, List.flatMap_cons,
      List.flatMap_map]
    simp only [List.get?_cons_zero, List.get?_cons_succ, Option.map_some', Option.getD_some]
    rw [← ih]

/-- Claim C17. Once authorisation and the ack phase of `Consume` have succeeded,
`Consume` never returns an error; and when every worker returns, `Consume` returns
no error and a response whose messages are, up to order, exactly the messages of the
workers that returned without error. -/
theorem Consume_never_errors (lib : PubSubLib) (xack : Nat → Option XErr) (appId : String)
    (acks : List Ack) (workers : List (Consumption × GroupStore × Nat)) (order : List Nat)
    (hack : ackLoop xack appId acks 0 = none) :
    (∀ e, Consume lib xack (some appId) acks workers order ≠ .returned (.error e)) ∧
    ((∀ w ∈ workers, ∃ run res,
        readGroup lib w.2.1 appId w.1 w.2.2 = .ok run ∧ run.result = some res) →
      order.Perm (List.range workers.length) →
      ∃ msgs, Consume lib xack (some appId) acks workers order = .returned (.ok msgs) ∧
        msgs.Perm ((workers.map (fun w => readGroup lib w.2.1 appId w.1 w.2.2)).flatMap
          workerMsgs)) := by
  constructor
  · intro e h
    simp only [Consume, getAppId, hack] at h
    split at h
    · cases h
    · split at h <;> cases h
  · intro hall hperm
    have hfind : (workers.map (fun w => readGroup lib w.2.1 appId w.1 w.2.2)).find?
        (fun r => match r with
          | .error _ => true
          | .ok _ => false) = none := by
      rw [List.find?_eq_none]
      intro r hr
      obtain ⟨w, hw, rfl⟩ := List.mem_map.mp hr
      obtain ⟨run, res, h₁, -⟩ := hall w hw
      simp [h₁]
    have hany : (workers.map (fun w => readGroup lib w.2.1 appId w.1 w.2.2)).any
        (fun r => match r with
          | .ok { result := none, calls := _ } => true
          | _ => false) = false := by
      rw [List.any_eq_false]
      intro r hr
      obtain ⟨w, hw, rfl⟩ := List.mem_map.mp hr
      obtain ⟨run, res, h₁, h₂⟩ := hall w hw
      obtain ⟨result, calls⟩ := run
      simp only at h₂
      subst h₂
      simp [h₁]
    refine ⟨order.flatMap (fun i =>
      (((workers.map (fun w => readGroup lib w.2.1 appId w.1 w.2.2)).get? i).map
        workerMsgs).getD []), ?_, ?_⟩
    · simp only [Consume, getAppId, hack, hfind, hany, Bool.false_eq_true, if_false]
    · have h₁ := List.Perm.flatMap_right (fun i =>
        (((workers.map (fun w => readGroup lib w.2.1 appId w.1 w.2.2)).get? i).map
          workerMsgs).getD []) hperm
      have h₂ := flatMap_range_get workerMsgs
        (workers.map (fun w => readGroup lib w.2.1 appId w.1 w.2.2))
      rw [List.length_map] at h₂
      exact h₁.trans (List.Perm.of_eq h₂)

/-- Witness of C17: three workers, one with a message, one failing, one with a
message; the second worker enters the critical section last. -/
theorem Consume_never_errors_witness :
    ackLoop (fun _ => none) "myapp" [{ Topic := "news", GroupId := 3, MsgIds := ["7-0"] }] 0 =
      none ∧
    [2, 0, 1].Perm (List.range 3) ∧
    ∃ msgs,
      Consume demoLib (fun _ => none) (some "myapp")
        [{ Topic := "news", GroupId := 3, MsgIds := ["7-0"] }]
        [(conNews, storeStale, 3), (conNews, storeDown, 3), (conNews, storeFresh, 3)]
        [2, 0, 1] = .returned (.ok msgs) ∧
      msgs.Perm [{ Id := "7-0", Topic := "news", Payload := [104, 105] },
                 { Id := "7-0", Topic := "news", Payload := [104, 105] }] := by
  have hperm : [2, 0, 1].Perm (List.range 3) := by decide
  obtain ⟨msgs, h₁, h₂⟩ := (Consume_never_errors demoLib (fun _ => none) "myapp"
    [{ Topic := "news", GroupId := 3, MsgIds := ["7-0"] }]
    [(conNews, storeStale, 3), (conNews, storeDown, 3), (conNews, storeFresh, 3)]
    [2, 0, 1] rfl).2
    (by
      intro w hw
      simp only [List.mem_cons, List.mem_singleton, List.not_mem_nil, or_false] at hw
      rcases hw with rfl | rfl | rfl
      · exact ⟨_, _, rfl, rfl⟩
      · exact ⟨_, _, rfl, rfl⟩
      · exact ⟨_, _, rfl, rfl⟩)
    hperm
  exact ⟨rfl, hperm, msgs, h₁, h₂⟩

/-! ## Suffix index -/

/-- Induction over a tree: a property holds of every tree if it holds of a node
whenever it holds of all its sons. -/
theorem SuffixTree.induct (P : SuffixTree → Prop)
    (h : ∀ num ends sons, (∀ c son, (c, son) ∈ sons → P son) → P (.mk num ends sons)) :
    ∀ t, P t := by
  intro t
  exact @SuffixTree.rec P (fun sons => ∀ c son, (c, son) ∈ sons → P son) (fun e => P e.2)
    (fun num ends sons ih => h num ends sons ih)
    (fun c son hmem => by cases hmem)
    (fun head tail hh ht c son hmem => by
      rcases List.mem_cons.1 hmem with h | h
      · subst h
        exact hh
      · exact ht c son h)
    (fun c son ih => ih) t

theorem wrap32_of_range (x : Int) (h₁ : -(2 ^ 31) ≤ x) (h₂ : x < 2 ^ 31) : wrap32 x = x := by
  unfold wrap32
  omega

theorem wrap32_add_wrap32 (x y : Int) : wrap32 (wrap32 x + y) = wrap32 (x + y) := by
  unfold wrap32
  omega

theorem wrap32_add_wrap32_right (x y : Int) : wrap32 (x + wrap32 y) = wrap32 (x + y) := by
  unfold wrap32
  omega

theorem sonGet_sonSet (c c' : Char) (x : SuffixTree) (sons : List (Char × SuffixTree)) :
    sonGet c' (sonSet c x sons) = if c' = c then some x else sonGet c' sons := by
  induction sons with
  | nil =>
    by_cases h : c' = c
    · simp [sonSet, sonGet, h]
    · have h' : ¬ c = c' := fun e => h e.symm
      simp [sonSet, sonGet, h, h']
  | cons e rest ih =>
    obtain ⟨d, t⟩ := e
    by_cases hd : d = c
    · by_cases h : c' = c
      · simp [sonSet, sonGet, hd, h]
      · have h' : ¬ c = c' := fun e => h e.symm
        simp [sonSet, sonGet, hd, h, h']
    · by_cases hd' : d = c'
      · have h : ¬ c' = c := fun e => hd (hd'.trans e)
        simp [sonSet, sonGet, hd, hd', h]
      · simp [sonSet, sonGet, hd, hd', ih]

theorem sonGet_sonErase (c c' : Char) (sons : List (Char × SuffixTree)) :
    sonGet c' (sonErase c sons) = if c' = c then none else sonGet c' sons := by
  induction sons with
  | nil => simp [sonErase, sonGet]
  | cons e rest ih =>
    obtain ⟨d, t⟩ := e
    unfold sonErase at ih ⊢
    by_cases hd : d = c
    · by_cases h : c' = c
      · simpa [List.filter, hd, h] using ih
      · have h' : ¬ c = c' := fun e => h e.symm
        simpa [List.filter, sonGet, hd, h, h'] using ih
    · by_cases hd' : d = c'
      · have h : ¬ c' = c := fun e => hd (hd'.trans e)
        simp [List.filter, sonGet, hd, hd', h]
      · simpa [List.filter, sonGet, hd, hd'] using ih

theorem sonGet_mem {c : Char} {son : SuffixTree} {sons : List (Char × SuffixTree)}
    (h : sonGet c sons = some son) : (c, son) ∈ sons := by
  induction sons with
  | nil => simp [sonGet] at h
  | cons e rest ih =>
    obtain ⟨d, t⟩ := e
    by_cases hd : d = c
    · simp [sonGet, hd] at h
      simp [hd, h]
    · simp [sonGet, hd] at h
      exact List.mem_cons_of_mem _ (ih h)

theorem sonGet_of_mem {c : Char} {son : SuffixTree} {sons : List (Char × SuffixTree)}
    (hnd : (sons.map Prod.fst).Nodup) (h : (c, son) ∈ sons) : sonGet c sons = some son := by
  induction sons with
  | nil => cases h
  | cons e rest ih =>
    obtain ⟨d, t⟩ := e
    simp only [List.map_cons, List.nodup_cons] at hnd
    rcases List.mem_cons.1 h with h | h
    · cases h
      simp [sonGet]
    · have hd : d ≠ c := by
        intro e
        apply hnd.1
        rw [e]
        exact List.mem_map_of_mem Prod.fst h
      simp [sonGet, hd, ih hnd.2 h]

theorem sonSet_self {c : Char} {son : SuffixTree} {sons : List (Char × SuffixTree)}
    (h : sonGet c sons = some son) : sonSet c son sons = sons := by
  induction sons with
  | nil => simp [sonGet] at h
  | cons e rest ih =>
    obtain ⟨d, t⟩ := e
    by_cases hd : d = c
    · simp [sonGet, hd] at h
      simp [sonSet, hd, h]
    · simp [sonGet, hd] at h
      simp [sonSet, hd, ih h]

theorem keys_sonSet (c : Char) (x : SuffixTree) (sons : List (Char × SuffixTree)) :
    (sonSet c x sons).map Prod.fst =
      if c ∈ sons.map Prod.fst then sons.map Prod.fst else sons.map Prod.fst ++ [c] := by
  induction sons with
  | nil => simp [sonSet]
  | cons e rest ih =>
    obtain ⟨d, t⟩ := e
    by_cases hd : d = c
    · simp [sonSet, hd]
    · have hd' : ¬ c = d := fun e => hd e.symm
      by_cases hm : c ∈ rest.map Prod.fst
      · rw [if_pos hm] at ih
        have hm' : c ∈ ((d, t) :: rest).map Prod.fst := List.mem_cons_of_mem _ hm
        rw [if_pos hm']
        simp [sonSet, hd, ih]
      · rw [if_neg hm] at ih
        have hm' : c ∉ ((d, t) :: rest).map Prod.fst := by
          intro h
          rcases List.mem_cons.1 h with h | h
          · exact hd' h
          · exact hm h
        rw [if_neg hm']
        simp [sonSet, hd, ih]

theorem keys_sonSet_nodup {c : Char} {x : SuffixTree} {sons : List (Char × SuffixTree)}
    (h : (sons.map Prod.fst).Nodup) : ((sonSet c x sons).map Prod.fst).Nodup := by
  rw [keys_sonSet]
  split_ifs with hm
  · exact h
  · exact List.Nodup.append h (List.nodup_singleton c) (by
      intro a ha hb
      rw [List.mem_singleton] at hb
      exact hm (hb ▸ ha))

theorem keys_sonErase_nodup {c : Char} {sons : List (Char × SuffixTree)}
    (h : (sons.map Prod.fst).Nodup) : ((sonErase c sons).map Prod.fst).Nodup := by
  unfold sonErase
  exact (List.Nodup.sublist (List.Sublist.map _ (List.filter_sublist _)) h)

theorem sumNum_sonSet (c : Char) (x : SuffixTree) (sons : List (Char × SuffixTree)) :
    sumNum (sonSet c x sons) =
      sumNum sons - ((sonGet c sons).getD NewSuffixTree).Num + x.Num := by
  induction sons with
  | nil => simp [sumNum, sonSet, sonGet, NewSuffixTree, SuffixTree.Num]
  | cons e rest ih =>
    obtain ⟨d, t⟩ := e
    unfold sumNum at ih ⊢
    by_cases hd : d = c
    · simp [sonSet, sonGet, hd]
      ring
    · simp [sonSet, sonGet, hd, ih]
      ring

theorem sonErase_of_not_mem {c : Char} {sons : List (Char × SuffixTree)}
    (h : c ∉ sons.map Prod.fst) : sonErase c sons = sons := by
  unfold sonErase
  rw [List.filter_eq_self]
  intro e he
  have : e.1 ≠ c := by
    intro h'
    apply h
    rw [← h']
    exact List.mem_map_of_mem Prod.fst he
  simpa using this

theorem sonGet_none_of_not_mem {c : Char} {sons : List (Char × SuffixTree)}
    (h : c ∉ sons.map Prod.fst) : sonGet c sons = none := by
  cases hg : sonGet c sons with
  | none => rfl
  | some son => exact absurd (List.mem_map_of_mem Prod.fst (sonGet_mem hg)) h

theorem sumNum_sonErase {c : Char} {sons : List (Char × SuffixTree)}
    (hnd : (sons.map Prod.fst).Nodup) :
    sumNum (sonErase c sons) = sumNum sons - ((sonGet c sons).getD NewSuffixTree).Num := by
  induction sons with
  | nil => simp [sumNum, sonErase, sonGet, NewSuffixTree, SuffixTree.Num]
  | cons e rest ih =>
    obtain ⟨d, t⟩ := e
    simp only [List.map_cons, List.nodup_cons] at hnd
    by_cases hd : d = c
    · have hc : c ∉ rest.map Prod.fst := hd ▸ hnd.1
      have h₁ : sonErase c ((d, t) :: rest) = rest := by
        have := sonErase_of_not_mem hc
        unfold sonErase at this ⊢
        rw [List.filter_cons_of_neg (by simp [hd])]
        exact this
      rw [h₁]
      simp [sumNum, sonGet, hd]
    · have h₁ : sonErase c ((d, t) :: rest) = (d, t) :: sonErase c rest := by
        unfold sonErase
        simp [List.filter, hd]
      rw [h₁]
      have := ih hnd.2
      unfold sumNum at this ⊢
      simp [sonGet, hd, this]
      ring

/-! ### The inner calls -/

theorem SuffixTree.mk_eta (t : SuffixTree) : SuffixTree.mk t.Num t.Ends t.Sons = t := by
  cases t
  rfl

theorem add_nil (s : String) (t : SuffixTree) :
    SuffixTree.add [] s t =
      if searchStrings t.Ends s < t.Ends.length ∧ t.Ends.getD (searchStrings t.Ends s) "" = s
      then (false, t)
      else (true, .mk (wrap32 (t.Num + 1))
        (t.Ends.take (searchStrings t.Ends s) ++ s :: t.Ends.drop (searchStrings t.Ends s))
        t.Sons) := by
  cases t
  rfl

theorem add_cons (c : Char) (a : List Char) (s : String) (t : SuffixTree) :
    SuffixTree.add (c :: a) s t =
      if !(SuffixTree.add a s ((sonGet c t.Sons).getD NewSuffixTree)).1 then
        (false, .mk t.Num t.Ends
          (sonSet c (SuffixTree.add a s ((sonGet c t.Sons).getD NewSuffixTree)).2 t.Sons))
      else
        (true, .mk (wrap32 (t.Num + 1)) t.Ends
          (sonSet c (SuffixTree.add a s ((sonGet c t.Sons).getD NewSuffixTree)).2 t.Sons)) := by
  cases t
  rfl

theorem del_nil (s : String) (t : SuffixTree) :
    SuffixTree.del [] s t =
      if ¬ (searchStrings t.Ends s < t.Ends.length ∧
          t.Ends.getD (searchStrings t.Ends s) "" = s)
      then (false, t)
      else (true, .mk (wrap32 (t.Num - 1))
        (t.Ends.take (searchStrings t.Ends s) ++ t.Ends.drop (searchStrings t.Ends s + 1))
        t.Sons) := by
  cases t
  rfl

theorem del_cons_none {c : Char} (a : List Char) (s : String) {t : SuffixTree}
    (h : sonGet c t.Sons = none) : SuffixTree.del (c :: a) s t = (false, t) := by
  cases t
  simp only [SuffixTree.Sons] at h
  simp only [SuffixTree.del, h]

theorem del_cons_some {c : Char} (a : List Char) (s : String) {t son : SuffixTree}
    (h : sonGet c t.Sons = some son) :
    SuffixTree.del (c :: a) s t =
      if !(SuffixTree.del a s son).1 then
        (false, .mk t.Num t.Ends (sonSet c (SuffixTree.del a s son).2 t.Sons))
      else if (SuffixTree.del a s son).2.Num = 0 then
        (true, .mk (wrap32 (t.Num - 1)) t.Ends (sonErase c t.Sons))
      else (true, .mk (wrap32 (t.Num - 1)) t.Ends (sonSet c (SuffixTree.del a s son).2 t.Sons)) := by
  cases t
  simp only [SuffixTree.Sons] at h
  simp only [SuffixTree.del, h, SuffixTree.Num, SuffixTree.Ends, SuffixTree.Sons]

theorem nodeAt_new (p : List Char) : nodeAt p NewSuffixTree = NewSuffixTree := by
  induction p with
  | nil => rfl
  | cons c p ih =>
    show nodeAt p ((sonGet c []).getD NewSuffixTree) = NewSuffixTree
    simpa [sonGet] using ih

theorem nodeAt_cons (c : Char) (p : List Char) (t : SuffixTree) :
    nodeAt (c :: p) t = nodeAt p ((sonGet c t.Sons).getD NewSuffixTree) := rfl

theorem nodeAt_append (p q : List Char) (t : SuffixTree) :
    nodeAt (p ++ q) t = nodeAt q (nodeAt p t) := by
  induction p generalizing t with
  | nil => rfl
  | cons c p ih => exact ih _

theorem add_new_true (a : List Char) (s : String) :
    (SuffixTree.add a s NewSuffixTree).1 = true := by
  induction a with
  | nil => rfl
  | cons c a ih =>
    rw [add_cons]
    have h : (sonGet c NewSuffixTree.Sons).getD NewSuffixTree = NewSuffixTree := rfl
    rw [h, ih]
    rfl

theorem add_false_eq {a : List Char} {s : String} {t : SuffixTree}
    (h : (SuffixTree.add a s t).1 = false) : (SuffixTree.add a s t).2 = t := by
  induction a generalizing t with
  | nil =>
    rw [add_nil] at h ⊢
    split_ifs at h ⊢
    · rfl
  | cons c a ih =>
    rw [add_cons] at h ⊢
    cases hi : (SuffixTree.add a s ((sonGet c t.Sons).getD NewSuffixTree)).1 with
    | true => simp [hi] at h
    | false =>
      simp only [hi, Bool.not_false, if_true]
      have hson := ih hi
      rw [hson]
      cases hg : sonGet c t.Sons with
      | none =>
        rw [hg] at hi
        have := add_new_true a s
        simp only [Option.getD_none] at hi
        rw [this] at hi
        cases hi
      | some son =>
        simp only [Option.getD_some]
        rw [sonSet_self hg]
        exact SuffixTree.mk_eta t

theorem add_num {a : List Char} {s : String} {t : SuffixTree}
    (h : (SuffixTree.add a s t).1 = true) :
    (SuffixTree.add a s t).2.Num = wrap32 (t.Num + 1) := by
  cases a with
  | nil =>
    rw [add_nil] at h ⊢
    split_ifs at h ⊢
    · rfl
  | cons c a =>
    rw [add_cons] at h ⊢
    split_ifs at h ⊢
    · rfl

theorem add_cons_snd (c : Char) (a : List Char) (s : String) (t : SuffixTree) :
    (SuffixTree.add (c :: a) s t).2 =
      .mk (SuffixTree.add (c :: a) s t).2.Num t.Ends
        (sonSet c (SuffixTree.add a s ((sonGet c t.Sons).getD NewSuffixTree)).2 t.Sons) := by
  rw [add_cons]
  split_ifs <;> rfl

theorem add_cons_fst (c : Char) (a : List Char) (s : String) (t : SuffixTree) :
    (SuffixTree.add (c :: a) s t).1 =
      (SuffixTree.add a s ((sonGet c t.Sons).getD NewSuffixTree)).1 := by
  rw [add_cons]
  cases (SuffixTree.add a s ((sonGet c t.Sons).getD NewSuffixTree)).1 <;> rfl

theorem nodeAt_add_cons (c c' : Char) (a p : List Char) (s : String) (t : SuffixTree) :
    nodeAt (c' :: p) (SuffixTree.add (c :: a) s t).2 =
      if c' = c then nodeAt p (SuffixTree.add a s ((sonGet c t.Sons).getD NewSuffixTree)).2
      else nodeAt (c' :: p) t := by
  rw [nodeAt_cons, add_cons_snd]
  simp only [SuffixTree.Sons, sonGet_sonSet]
  split_ifs <;> rfl

/-- After `add a s`, the strings stored at a path are those stored before, and `s`
at the path `a`. -/
theorem nodeAt_add_ends (a p : List Char) (s s' : String) (t : SuffixTree) :
    s' ∈ (nodeAt p (SuffixTree.add a s t).2).Ends ↔
      s' ∈ (nodeAt p t).Ends ∨ (p = a ∧ s' = s) := by
  induction a generalizing t p with
  | nil =>
    cases p with
    | nil =>
      rw [add_nil]
      split_ifs with hf
      · constructor
        · intro h
          exact Or.inl h
        · rintro (h | ⟨-, h⟩)
          · exact h
          · subst h
            show s' ∈ t.Ends
            have := hf.2
            rw [List.getD_eq_getElem _ _ hf.1] at this
            rw [← this]
            exact List.getElem_mem _
      · show s' ∈ t.Ends.take _ ++ s :: t.Ends.drop _ ↔ s' ∈ t.Ends ∨ _
        generalize searchStrings t.Ends s = i
        have he : s' ∈ t.Ends ↔ s' ∈ t.Ends.take i ∨ s' ∈ t.Ends.drop i := by
          conv_lhs => rw [← List.take_append_drop i t.Ends]
          exact List.mem_append
        rw [he, List.mem_append, List.mem_cons]
        simp only [true_and]
        tauto
    | cons c' p =>
      have h : nodeAt (c' :: p) (SuffixTree.add [] s t).2 = nodeAt (c' :: p) t := by
        rw [add_nil]
        split_ifs <;> rfl
      rw [h]
      simp
  | cons c a ih =>
    cases p with
    | nil =>
      have h : (nodeAt [] (SuffixTree.add (c :: a) s t).2).Ends = t.Ends := by
        show (SuffixTree.add (c :: a) s t).2.Ends = t.Ends
        rw [add_cons_snd]
        rfl
      rw [h]
      show s' ∈ t.Ends ↔ s' ∈ t.Ends ∨ ([] = c :: a ∧ s' = s)
      simp
    | cons c' p =>
      rw [nodeAt_add_cons]
      by_cases hc : c' = c
      · subst hc
        simp only [if_true]
        rw [ih, nodeAt_cons]
        simp
      · simp only [hc, if_false]
        simp [hc]

theorem ok_iff (t : SuffixTree) :
    t.ok ↔ nodeOk t ∧ ∀ c, ((sonGet c t.Sons).getD NewSuffixTree).ok := by
  constructor
  · intro h
    exact ⟨h [], fun c p => h (c :: p)⟩
  · rintro ⟨h₁, h₂⟩ p
    cases p with
    | nil => exact h₁
    | cons c p => exact h₂ c p

theorem ok_new : NewSuffixTree.ok := by
  intro p
  rw [nodeAt_new]
  constructor
  · exact List.nodup_nil
  · rfl

theorem ok_son {t : SuffixTree} (h : t.ok) (c : Char) :
    ((sonGet c t.Sons).getD NewSuffixTree).ok := ((ok_iff t).1 h).2 c

theorem ok_set {c : Char} {x : SuffixTree} {sons : List (Char × SuffixTree)}
    (hx : x.ok) (h : ∀ c', ((sonGet c' sons).getD NewSuffixTree).ok) (c' : Char) :
    ((sonGet c' (sonSet c x sons)).getD NewSuffixTree).ok := by
  rw [sonGet_sonSet]
  split_ifs
  · exact hx
  · exact h c'

theorem ok_erase {c : Char} {sons : List (Char × SuffixTree)}
    (h : ∀ c', ((sonGet c' sons).getD NewSuffixTree).ok) (c' : Char) :
    ((sonGet c' (sonErase c sons)).getD NewSuffixTree).ok := by
  rw [sonGet_sonErase]
  split_ifs
  · exact ok_new
  · exact h c'

/-- The inner `add` keeps every node in order. -/
theorem add_ok {a : List Char} {s : String} {t : SuffixTree} (h : t.ok) :
    (SuffixTree.add a s t).2.ok := by
  induction a generalizing t with
  | nil =>
    rw [add_nil]
    split_ifs
    · exact h
    · obtain ⟨⟨hnd, hnum⟩, hsons⟩ := (ok_iff t).1 h
      refine (ok_iff _).2 ⟨⟨hnd, ?_⟩, hsons⟩
      show wrap32 (t.Num + 1) = wrap32 (((t.Ends.take _ ++ s :: t.Ends.drop _).length : Int) +
        sumNum t.Sons)
      generalize searchStrings t.Ends s = i
      have hl : (t.Ends.take i ++ s :: t.Ends.drop i).length = t.Ends.length + 1 := by
        have := congrArg List.length (List.take_append_drop i t.Ends)
        simp only [List.length_append, List.length_cons] at this ⊢
        omega
      rw [hl, hnum]
      push_cast
      unfold wrap32
      omega
  | cons c a ih =>
    obtain ⟨⟨hnd, hnum⟩, hsons⟩ := (ok_iff t).1 h
    have hson := ih (hsons c)
    cases hi : (SuffixTree.add a s ((sonGet c t.Sons).getD NewSuffixTree)).1 with
    | false =>
      have h₁ : (SuffixTree.add (c :: a) s t).1 = false := by
        rw [add_cons_fst]
        exact hi
      rw [add_false_eq h₁]
      exact h
    | true =>
      have h₁ : (SuffixTree.add (c :: a) s t).1 = true := by
        rw [add_cons_fst]
        exact hi
      rw [add_cons_snd, add_num h₁]
      refine (ok_iff _).2 ⟨⟨keys_sonSet_nodup hnd, ?_⟩, ok_set hson hsons⟩
      show wrap32 (t.Num + 1) = wrap32 ((t.Ends.length : Int) + sumNum (sonSet c _ t.Sons))
      rw [sumNum_sonSet, add_num hi, hnum]
      unfold wrap32
      omega

/-- A successful inner `add` raises `Num` by one at every node on its path. -/
theorem add_path_num {a : List Char} {s : String} {t : SuffixTree}
    (h : (SuffixTree.add a s t).1 = true) (p : List Char) (hp : p <+: a) :
    (nodeAt p (SuffixTree.add a s t).2).Num = wrap32 ((nodeAt p t).Num + 1) := by
  induction a generalizing t p with
  | nil =>
    rw [List.prefix_nil] at hp
    subst hp
    exact add_num h
  | cons c a ih =>
    cases p with
    | nil => exact add_num h
    | cons c' p =>
      rw [List.cons_prefix_cons] at hp
      obtain ⟨hc, hp⟩ := hp
      subst hc
      rw [nodeAt_add_cons, if_pos rfl, nodeAt_cons]
      rw [add_cons_fst] at h
      exact ih h p hp

/-- An inner `add` leaves the nodes off its path as they were. -/
theorem add_off_path (a p : List Char) (s : String) (t : SuffixTree) (hp : ¬ p <+: a) :
    nodeAt p (SuffixTree.add a s t).2 = nodeAt p t := by
  induction a generalizing t p with
  | nil =>
    cases p with
    | nil => exact absurd (List.prefix_refl _) hp
    | cons c' p =>
      rw [add_nil]
      split_ifs <;> rfl
  | cons c a ih =>
    cases p with
    | nil => exact absurd (List.nil_prefix) hp
    | cons c' p =>
      rw [nodeAt_add_cons]
      split_ifs with hc
      · subst hc
        rw [nodeAt_cons]
        apply ih
        intro hpa
        exact hp ((List.cons_prefix_cons).2 ⟨rfl, hpa⟩)
      · rfl

theorem del_new (a : List Char) (s : String) :
    SuffixTree.del a s NewSuffixTree = (false, NewSuffixTree) := by
  cases a with
  | nil => rfl
  | cons c a => exact del_cons_none a s rfl

theorem del_cons_fst (c : Char) (a : List Char) (s : String) (t : SuffixTree) :
    (SuffixTree.del (c :: a) s t).1 =
      (SuffixTree.del a s ((sonGet c t.Sons).getD NewSuffixTree)).1 := by
  cases hg : sonGet c t.Sons with
  | none =>
    rw [del_cons_none a s hg, Option.getD_none, del_new]
  | some son =>
    rw [del_cons_some a s hg, Option.getD_some]
    cases (SuffixTree.del a s son).1
    · rfl
    · simp only [Bool.not_true, Bool.false_eq_true, if_false]
      split_ifs <;> rfl

theorem del_false_eq {a : List Char} {s : String} {t : SuffixTree}
    (h : (SuffixTree.del a s t).1 = false) : (SuffixTree.del a s t).2 = t := by
  induction a generalizing t with
  | nil =>
    rw [del_nil] at h ⊢
    split_ifs at h ⊢
    · rfl
  | cons c a ih =>
    cases hg : sonGet c t.Sons with
    | none => rw [del_cons_none a s hg]
    | some son =>
      rw [del_cons_fst, hg, Option.getD_some] at h
      rw [del_cons_some a s hg]
      simp only [h, Bool.not_false, if_true]
      rw [ih h, sonSet_self hg]
      exact SuffixTree.mk_eta t

theorem del_num {a : List Char} {s : String} {t : SuffixTree}
    (h : (SuffixTree.del a s t).1 = true) :
    (SuffixTree.del a s t).2.Num = wrap32 (t.Num - 1) := by
  cases a with
  | nil =>
    rw [del_nil] at h ⊢
    split_ifs at h ⊢
    · rfl
  | cons c a =>
    cases hg : sonGet c t.Sons with
    | none =>
      rw [del_cons_none a s hg] at h
      cases h
    | some son =>
      rw [del_cons_some a s hg] at h ⊢
      split_ifs at h ⊢ <;> rfl

/-- A successful inner `del` found `s` at the end of its path. -/
theorem del_true_mem {a : List Char} {s : String} {t : SuffixTree}
    (h : (SuffixTree.del a s t).1 = true) : s ∈ (nodeAt a t).Ends := by
  induction a generalizing t with
  | nil =>
    rw [del_nil] at h
    split_ifs at h with hf
    have := hf.2
    rw [List.getD_eq_getElem _ _ hf.1] at this
    show s ∈ t.Ends
    rw [← this]
    exact List.getElem_mem _
  | cons c a ih =>
    rw [del_cons_fst] at h
    exact ih h

/-- The inner `del` keeps every node in order. -/
theorem del_ok {a : List Char} {s : String} {t : SuffixTree} (h : t.ok) :
    (SuffixTree.del a s t).2.ok := by
  induction a generalizing t with
  | nil =>
    rw [del_nil]
    split_ifs with hf
    · obtain ⟨⟨hnd, hnum⟩, hsons⟩ := (ok_iff t).1 h
      refine (ok_iff _).2 ⟨⟨hnd, ?_⟩, hsons⟩
      show wrap32 (t.Num - 1) = wrap32 (((t.Ends.take _ ++ t.Ends.drop _).length : Int) +
        sumNum t.Sons)
      have hi := hf.1
      generalize searchStrings t.Ends s = i at hi
      have hl : ((t.Ends.take i ++ t.Ends.drop (i + 1)).length : Int) = t.Ends.length - 1 := by
        simp only [List.length_append, List.length_take, List.length_drop]
        omega
      rw [hl, hnum]
      unfold wrap32
      omega
    · exact h
  | cons c a ih =>
    obtain ⟨⟨hnd, hnum⟩, hsons⟩ := (ok_iff t).1 h
    cases hg : sonGet c t.Sons with
    | none =>
      rw [del_cons_none a s hg]
      exact h
    | some son =>
      have hso : son.ok := by
        have := hsons c
        rwa [hg] at this
      have hson := ih hso
      cases hi : (SuffixTree.del a s son).1 with
      | false =>
        have h₁ : (SuffixTree.del (c :: a) s t).1 = false := by
          rw [del_cons_fst, hg]
          exact hi
        rw [del_false_eq h₁]
        exact h
      | true =>
        have hn := del_num hi
        have hgd : ((sonGet c t.Sons).getD NewSuffixTree).Num = son.Num := by
          rw [hg]
          rfl
        rw [del_cons_some a s hg]
        simp only [hi, Bool.not_true, Bool.false_eq_true, if_false]
        split_ifs with hz
        · refine (ok_iff _).2 ⟨⟨keys_sonErase_nodup hnd, ?_⟩, ok_erase hsons⟩
          show wrap32 (t.Num - 1) = wrap32 ((t.Ends.length : Int) + sumNum (sonErase c t.Sons))
          rw [sumNum_sonErase hnd, hgd, hnum]
          rw [hn] at hz
          unfold wrap32 at hz ⊢
          omega
        · refine (ok_iff _).2 ⟨⟨keys_sonSet_nodup hnd, ?_⟩, ok_set hson hsons⟩
          show wrap32 (t.Num - 1) = wrap32 ((t.Ends.length : Int) + sumNum (sonSet c _ t.Sons))
          rw [sumNum_sonSet, hgd, hn, hnum]
          unfold wrap32
          omega

/-- A successful inner `del` succeeded at every node on its path and lowered the
`Num` of each by one. -/
theorem del_path_num {a : List Char} {s : String} {t : SuffixTree}
    (h : (SuffixTree.del a s t).1 = true) (k : Nat) (hk : k ≤ a.length) :
    (SuffixTree.del (a.drop k) s (nodeAt (a.take k) t)).1 = true ∧
    (SuffixTree.del (a.drop k) s (nodeAt (a.take k) t)).2.Num =
      wrap32 ((nodeAt (a.take k) t).Num - 1) := by
  induction a generalizing t k with
  | nil =>
    have hk0 : k = 0 := by simpa using hk
    subst hk0
    exact ⟨h, del_num h⟩
  | cons c a ih =>
    cases k with
    | zero => exact ⟨h, del_num h⟩
    | succ k =>
      rw [del_cons_fst] at h
      have := ih h k (by simpa using hk)
      simpa [nodeAt_cons] using this

/-! ### Search -/

theorem collectSons_cons (e : Char × SuffixTree) (rest : List (Char × SuffixTree)) :
    collectSons (e :: rest) = e.2.collect ++ collectSons rest := by
  obtain ⟨c, son⟩ := e
  rw [collectSons]

theorem collect_mk (num : Int) (ends : List String) (sons : List (Char × SuffixTree)) :
    (SuffixTree.mk num ends sons).collect = ends ++ collectSons sons := by
  rw [SuffixTree.collect]

theorem mem_collectSons (s : String) (sons : List (Char × SuffixTree)) :
    s ∈ collectSons sons ↔ ∃ c son, (c, son) ∈ sons ∧ s ∈ son.collect := by
  induction sons with
  | nil =>
    rw [collectSons]
    simp
  | cons e rest ih =>
    rw [collectSons_cons, List.mem_append, ih]
    constructor
    · rintro (h | ⟨c, son, hm, h⟩)
      · exact ⟨e.1, e.2, List.mem_cons_self _ _, h⟩
      · exact ⟨c, son, List.mem_cons_of_mem _ hm, h⟩
    · rintro ⟨c, son, hm, h⟩
      rcases List.mem_cons.1 hm with he | hm
      · subst he
        exact Or.inl h
      · exact Or.inr ⟨c, son, hm, h⟩

theorem ok_of_mem {t : SuffixTree} (h : t.ok) {c : Char} {son : SuffixTree}
    (hm : (c, son) ∈ t.Sons) : sonGet c t.Sons = some son ∧ son.ok := by
  have hnd : (t.Sons.map Prod.fst).Nodup := (h []).1
  have hg := sonGet_of_mem hnd hm
  refine ⟨hg, ?_⟩
  have := ok_son h c
  rwa [hg] at this

/-- In a tree whose nodes are in order, the search for the empty query returns the
strings stored at the paths of the tree. -/
theorem mem_collect (s : String) :
    ∀ t : SuffixTree, t.ok → (s ∈ t.collect ↔ ∃ p, s ∈ (nodeAt p t).Ends) := by
  apply SuffixTree.induct
  intro num ends sons ih hok
  rw [collect_mk, List.mem_append, mem_collectSons]
  constructor
  · rintro (h | ⟨c, son, hm, h⟩)
    · exact ⟨[], h⟩
    · obtain ⟨hg, hso⟩ := ok_of_mem hok hm
      obtain ⟨p, hp⟩ := (ih c son hm hso).1 h
      refine ⟨c :: p, ?_⟩
      rw [nodeAt_cons, hg]
      exact hp
  · rintro ⟨p, hp⟩
    cases p with
    | nil => exact Or.inl hp
    | cons c p =>
      rw [nodeAt_cons] at hp
      cases hg : sonGet c (SuffixTree.mk num ends sons).Sons with
      | none =>
        rw [hg, Option.getD_none, nodeAt_new] at hp
        cases hp
      | some son =>
        rw [hg, Option.getD_some] at hp
        have hm : (c, son) ∈ sons := sonGet_mem hg
        obtain ⟨-, hso⟩ := ok_of_mem hok hm
        exact Or.inr ⟨c, son, hm, (ih c son hm hso).2 ⟨p, hp⟩⟩

theorem search_cons (c : Char) (a : List Char) (t : SuffixTree) :
    t.search (c :: a) = ((sonGet c t.Sons).map (SuffixTree.search a)).getD [] := by
  cases t with
  | mk num ends sons =>
    rw [SuffixTree.search]
    show _ = ((sonGet c sons).map (SuffixTree.search a)).getD []
    cases sonGet c sons <;> rfl

/-- In a tree whose nodes are in order, `search a` returns the strings stored at the
paths that extend `a`. -/
theorem mem_search (s : String) (a : List Char) (t : SuffixTree) (h : t.ok) :
    s ∈ t.search a ↔ ∃ p, s ∈ (nodeAt (a ++ p) t).Ends := by
  induction a generalizing t with
  | nil => exact mem_collect s t h
  | cons c a ih =>
    rw [search_cons]
    cases hg : sonGet c t.Sons with
    | none =>
      simp only [Option.map_none', Option.getD_none, List.not_mem_nil, false_iff]
      rintro ⟨p, hp⟩
      rw [List.cons_append, nodeAt_cons, hg, Option.getD_none, nodeAt_new] at hp
      cases hp
    | some son =>
      have hso : son.ok := by
        have := ok_son h c
        rwa [hg] at this
      simp only [Option.map_some', Option.getD_some]
      rw [ih son hso]
      simp only [List.cons_append, nodeAt_cons, hg, Option.getD_some]

/-! ### Add and Del -/

theorem foldl_add_ok (a : List Char) (s : String) (is : List Nat) (t : SuffixTree)
    (h : t.ok) : (is.foldl (fun t i => (t.add (a.drop i) s).2) t).ok := by
  induction is generalizing t with
  | nil => exact h
  | cons i is ih => exact ih _ (add_ok h)

theorem foldl_del_ok (a : List Char) (s : String) (is : List Nat) (t : SuffixTree)
    (h : t.ok) : (is.foldl (fun t i => (t.del (a.drop i) s).2) t).ok := by
  induction is generalizing t with
  | nil => exact h
  | cons i is ih => exact ih _ (del_ok h)

theorem Add_of_true {s : String} {t : SuffixTree} (h : (t.add s.data s).1 = true) :
    t.Add s = (true, (List.range' 1 (s.data.length - 1)).foldl
      (fun t i => (t.add (s.data.drop i) s).2) (t.add s.data s).2) := by
  simp [SuffixTree.Add, h]

theorem Add_of_false {s : String} {t : SuffixTree} (h : (t.add s.data s).1 = false) :
    t.Add s = (false, (t.add s.data s).2) := by
  simp [SuffixTree.Add, h]

theorem Del_of_true {s : String} {t : SuffixTree} (h : (t.del s.data s).1 = true) :
    t.Del s = (false, (t.del s.data s).2) := by
  simp [SuffixTree.Del, h]

theorem Del_of_false {s : String} {t : SuffixTree} (h : (t.del s.data s).1 = false) :
    t.Del s = (true, (List.range' 1 (s.data.length - 1)).foldl
      (fun t i => (t.del (s.data.drop i) s).2) (t.del s.data s).2) := by
  simp [SuffixTree.Del, h]

theorem Add_ok {s : String} {t : SuffixTree} (h : t.ok) : (t.Add s).2.ok := by
  cases hi : (t.add s.data s).1 with
  | false =>
    rw [Add_of_false hi]
    exact add_ok h
  | true =>
    rw [Add_of_true hi]
    exact foldl_add_ok _ _ _ _ (add_ok h)

theorem Del_ok {s : String} {t : SuffixTree} (h : t.ok) : (t.Del s).2.ok := by
  cases hi : (t.del s.data s).1 with
  | true =>
    rw [Del_of_true hi]
    exact del_ok h
  | false =>
    rw [Del_of_false hi]
    exact foldl_del_ok _ _ _ _ (del_ok h)

theorem addAll_ok (adds : List String) (t : SuffixTree) (h : t.ok) : (addAll t adds).ok := by
  induction adds generalizing t with
  | nil => exact h
  | cons s rest ih => exact ih _ (Add_ok h)

theorem runIndex_ok (ops : List IndexOp) (t : SuffixTree) (h : t.ok) :
    (runIndex t ops).ok := by
  induction ops generalizing t with
  | nil => exact h
  | cons op rest ih =>
    cases op with
    | add s => exact ih _ (Add_ok h)
    | del s => exact ih _ (Del_ok h)

theorem foldl_add_ends (a p : List Char) (s s' : String) (is : List Nat) (t : SuffixTree) :
    s' ∈ (nodeAt p (is.foldl (fun t i => (t.add (a.drop i) s).2) t)).Ends ↔
      s' ∈ (nodeAt p t).Ends ∨ (s' = s ∧ ∃ i ∈ is, p = a.drop i) := by
  induction is generalizing t with
  | nil => simp
  | cons i is ih =>
    rw [List.foldl_cons, ih, nodeAt_add_ends]
    simp only [List.mem_cons, exists_eq_or_imp]
    tauto

/-- The strings stored at a path after `Add s`: if `Add` returns true, those stored
before and `s` at its entry paths; if it returns false, the tree is as before and
`s` was stored at its full path. -/
theorem Add_ends (s : String) (t : SuffixTree) :
    ((t.Add s).1 = true ∧ ∀ p s', (s' ∈ (nodeAt p (t.Add s).2).Ends ↔
        s' ∈ (nodeAt p t).Ends ∨ (s' = s ∧ p ∈ entryPaths s.data))) ∨
    ((t.Add s).1 = false ∧ (t.Add s).2 = t ∧ s ∈ (nodeAt s.data t).Ends) := by
  cases hi : (t.add s.data s).1 with
  | false =>
    right
    rw [Add_of_false hi]
    refine ⟨rfl, add_false_eq hi, ?_⟩
    have := (nodeAt_add_ends s.data s.data s s t).2 (Or.inr ⟨rfl, rfl⟩)
    rwa [add_false_eq hi] at this
  | true =>
    left
    rw [Add_of_true hi]
    refine ⟨rfl, fun p s' => ?_⟩
    show s' ∈ (nodeAt p ((List.range' 1 (s.data.length - 1)).foldl
      (fun t i => (t.add (s.data.drop i) s).2) (t.add s.data s).2)).Ends ↔ _
    rw [foldl_add_ends, nodeAt_add_ends]
    simp only [entryPaths, List.mem_cons, List.mem_map]
    constructor
    · rintro ((h | ⟨hp, hs⟩) | ⟨hs, i, hi, hp⟩)
      · exact Or.inl h
      · exact Or.inr ⟨hs, Or.inl hp⟩
      · exact Or.inr ⟨hs, Or.inr ⟨i, hi, hp.symm⟩⟩
    · rintro (h | ⟨hs, hp | ⟨i, hi, hp⟩⟩)
      · exact Or.inl (Or.inl h)
      · exact Or.inl (Or.inr ⟨hp, hs⟩)
      · exact Or.inr ⟨hs, i, hi, hp.symm⟩

/-- A query `q` has an extension among the entry paths of `a` exactly when it is a
contiguous part of `a`. -/
theorem exists_entryPath (q a : List Char) :
    (∃ p, q ++ p ∈ entryPaths a) ↔ q <:+: a := by
  constructor
  · rintro ⟨p, hp⟩
    have hsuf : q ++ p <:+ a := by
      simp only [entryPaths, List.mem_cons, List.mem_map] at hp
      rcases hp with hp | ⟨i, -, hp⟩
      · rw [hp]
      · rw [← hp]
        exact List.drop_suffix i a
    obtain ⟨l, hl⟩ := hsuf
    exact ⟨l, p, by rw [← hl, List.append_assoc]⟩
  · rintro ⟨l, r, h⟩
    by_cases hq : l = [] ∨ q ++ r = []
    · rcases hq with hl | hqr
      · subst hl
        refine ⟨r, ?_⟩
        rw [← h]
        exact List.mem_cons_self _ _
      · have hq' : q = [] := (List.append_eq_nil.1 hqr).1
        subst hq'
        exact ⟨a, List.mem_cons_self _ _⟩
    · rw [not_or] at hq
      obtain ⟨hl, hqr⟩ := hq
      refine ⟨r, ?_⟩
      simp only [entryPaths, List.mem_cons, List.mem_map, List.mem_range'_1]
      right
      refine ⟨l.length, ⟨?_, ?_⟩, ?_⟩
      · exact Nat.one_le_iff_ne_zero.2 (fun h0 => hl (List.length_eq_zero.1 h0))
      · have hlen : a.length = l.length + (q ++ r).length := by
          rw [← h, List.append_assoc, List.length_append]
        have hpos : 0 < (q ++ r).length := List.length_pos.2 hqr
        omega
      · rw [← h, List.append_assoc, List.drop_left]

theorem addAll_ends (rest done : List String) (t : SuffixTree)
    (h : ∀ p s', s' ∈ (nodeAt p t).Ends ↔ s' ∈ done ∧ p ∈ entryPaths s'.data) :
    ∀ p s', s' ∈ (nodeAt p (addAll t rest)).Ends ↔
      s' ∈ done ++ rest ∧ p ∈ entryPaths s'.data := by
  induction rest generalizing t done with
  | nil => simpa using h
  | cons s rest ih =>
    have key : ∀ p s', s' ∈ (nodeAt p (t.Add s).2).Ends ↔
        s' ∈ done ++ [s] ∧ p ∈ entryPaths s'.data := by
      intro p s'
      rcases Add_ends s t with ⟨-, hA⟩ | ⟨-, hA, hmem⟩
      · rw [hA, h, List.mem_append, List.mem_singleton]
        constructor
        · rintro (⟨h₁, h₂⟩ | ⟨h₁, h₂⟩)
          · exact ⟨Or.inl h₁, h₂⟩
          · exact ⟨Or.inr h₁, h₁ ▸ h₂⟩
        · rintro ⟨h₁ | h₁, h₂⟩
          · exact Or.inl ⟨h₁, h₂⟩
          · exact Or.inr ⟨h₁, h₁ ▸ h₂⟩
      · rw [hA, h, List.mem_append, List.mem_singleton]
        have hs : s ∈ done := ((h _ _).1 hmem).1
        constructor
        · rintro ⟨h₁, h₂⟩
          exact ⟨Or.inl h₁, h₂⟩
        · rintro ⟨h₁ | h₁, h₂⟩
          · exact ⟨h₁, h₂⟩
          · exact ⟨h₁ ▸ hs, h₂⟩
    have := ih (done ++ [s]) (t.Add s).2 key
    simpa [addAll] using this

/-- Claim C14. On every tree built from `NewSuffixTree` by `Add` calls, `Search q`
contains `s` exactly when `s` was added and the runes of `q` are a contiguous part of
the runes of `s`; the empty query returns every added string; and a result can list
a string more than once. -/
theorem Search_sound_complete (adds : List String) (q s : String) :
    (s ∈ (addAll NewSuffixTree adds).Search q ↔ s ∈ adds ∧ q.data <:+: s.data) ∧
    (s ∈ (addAll NewSuffixTree adds).Search "" ↔ s ∈ adds) ∧
    (addAll NewSuffixTree ["ab"]).Search "" = ["ab", "ab"] := by
  have hends := addAll_ends adds [] NewSuffixTree (by
    intro p s'
    rw [nodeAt_new]
    simp [NewSuffixTree, SuffixTree.Ends])
  have hok := addAll_ok adds NewSuffixTree ok_new
  have main : ∀ q : String,
      s ∈ (addAll NewSuffixTree adds).Search q ↔ s ∈ adds ∧ q.data <:+: s.data := by
    intro q
    unfold SuffixTree.Search
    rw [mem_search s q.data _ hok, ← exists_entryPath]
    simp only [hends, List.nil_append]
    constructor
    · rintro ⟨p, h₁, h₂⟩
      exact ⟨h₁, p, h₂⟩
    · rintro ⟨h₁, p, h₂⟩
      exact ⟨p, h₁, h₂⟩
  refine ⟨main q, ?_, by decide⟩
  rw [main ""]
  constructor
  · exact fun h => h.1
  · exact fun h => ⟨h, List.nil_infix⟩

/-! ### Counting -/

theorem entries_mk (num : Int) (ends : List String) (sons : List (Char × SuffixTree)) :
    (SuffixTree.mk num ends sons).entries = ends.length + entriesSons sons := by
  rw [SuffixTree.entries]

theorem entriesSons_cons (e : Char × SuffixTree) (rest : List (Char × SuffixTree)) :
    entriesSons (e :: rest) = e.2.entries + entriesSons rest := by
  obtain ⟨c, son⟩ := e
  rw [entriesSons]

theorem sumNum_cons (e : Char × SuffixTree) (rest : List (Char × SuffixTree)) :
    sumNum (e :: rest) = e.2.Num + sumNum rest := by
  simp [sumNum]

theorem wrap32_sumNum (sons : List (Char × SuffixTree))
    (h : ∀ c son, (c, son) ∈ sons → son.Num = wrap32 son.entries) (k : Int) :
    wrap32 (k + sumNum sons) = wrap32 (k + entriesSons sons) := by
  induction sons generalizing k with
  | nil =>
    rw [entriesSons]
    simp [sumNum]
  | cons e rest ih =>
    have he := h e.1 e.2 (List.mem_cons_self _ _)
    have hr := ih (fun c son hm => h c son (List.mem_cons_of_mem _ hm)) (k + e.2.entries)
    rw [sumNum_cons, entriesSons_cons, he]
    push_cast
    unfold wrap32 at hr ⊢
    omega

theorem sumNum_exact (sons : List (Char × SuffixTree))
    (h : ∀ c son, (c, son) ∈ sons → son.Num = wrap32 son.entries)
    (hlt : entriesSons sons < 2 ^ 31) : sumNum sons = entriesSons sons := by
  induction sons with
  | nil =>
    rw [entriesSons]
    simp [sumNum]
  | cons e rest ih =>
    rw [entriesSons_cons] at hlt
    have he := h e.1 e.2 (List.mem_cons_self _ _)
    have hr := ih (fun c son hm => h c son (List.mem_cons_of_mem _ hm)) (by omega)
    rw [sumNum_cons, entriesSons_cons, he, hr, wrap32_of_range _ (by omega) (by omega)]
    push_cast
    rfl

/-- In a tree whose nodes are in order, `Num` is the 32-bit value of the number of
entries stored in the subtree. -/
theorem num_eq_entries : ∀ t : SuffixTree, t.ok → t.Num = wrap32 t.entries := by
  apply SuffixTree.induct
  intro num ends sons ih hok
  have hnum : num = wrap32 ((ends.length : Int) + sumNum sons) := (hok []).2
  have hs : ∀ c son, (c, son) ∈ sons → son.Num = wrap32 son.entries := fun c son hm =>
    ih c son hm (ok_of_mem hok hm).2
  rw [entries_mk]
  show num = _
  rw [hnum, wrap32_sumNum sons hs]
  push_cast
  rfl

/-- In a tree whose nodes are in order and that stores fewer than `2 ^ 31` entries,
`Num` is the number of entries, and it is `len(Ends)` plus the sum of `Num` over the
sons. -/
theorem num_exact (t : SuffixTree) (hok : t.ok) (hlt : t.entries < 2 ^ 31) :
    t.Num = t.entries ∧ t.Num = t.Ends.length + sumNum t.Sons := by
  have h₁ : t.Num = t.entries := by
    rw [num_eq_entries t hok]
    exact wrap32_of_range _ (by omega) (by omega)
  refine ⟨h₁, ?_⟩
  rw [h₁]
  cases t with
  | mk num ends sons =>
    rw [entries_mk] at hlt ⊢
    have hs : ∀ c son, (c, son) ∈ sons → son.Num = wrap32 son.entries := fun c son hm =>
      num_eq_entries son (ok_of_mem hok hm).2
    show _ = (ends.length : Int) + sumNum sons
    rw [sumNum_exact sons hs (by omega)]
    push_cast
    rfl

theorem ok_nodeAt {t : SuffixTree} (h : t.ok) (p : List Char) : (nodeAt p t).ok := by
  intro q
  rw [← nodeAt_append]
  exact h _

/-! ### Counting beyond 32 bits -/

theorem wrap32_idem (x : Int) : wrap32 (wrap32 x) = wrap32 x := by
  unfold wrap32
  omega

/-- The inner `add` succeeds when `s` is not stored at the end of its path. -/
theorem add_true_of_not_mem {a : List Char} {s : String} {t : SuffixTree}
    (h : s ∉ (nodeAt a t).Ends) : (SuffixTree.add a s t).1 = true := by
  induction a generalizing t with
  | nil =>
    rw [add_nil]
    split_ifs with hf
    · exfalso
      apply h
      show s ∈ t.Ends
      have := hf.2
      rw [List.getD_eq_getElem _ _ hf.1] at this
      rw [← this]
      exact List.getElem_mem _
    · rfl
  | cons c a ih =>
    rw [add_cons_fst]
    exact ih h

theorem drop_ne_drop {a : List Char} {i j : Nat} (hi : i < a.length) (hij : i ≠ j) :
    a.drop i ≠ a.drop j := by
  intro h
  have := congrArg List.length h
  simp only [List.length_drop] at this
  omega

theorem foldl_add_num (a : List Char) (s : String) (is : List Nat) (hnd : is.Nodup)
    (hlt : ∀ i ∈ is, i < a.length) (t : SuffixTree) (hr : wrap32 t.Num = t.Num)
    (hfree : ∀ i ∈ is, s ∉ (nodeAt (a.drop i) t).Ends) :
    (is.foldl (fun t i => (t.add (a.drop i) s).2) t).Num = wrap32 (t.Num + is.length) := by
  induction is generalizing t with
  | nil => simpa using hr.symm
  | cons i is ih =>
    rw [List.nodup_cons] at hnd
    have hi := add_true_of_not_mem (hfree i (List.mem_cons_self _ _))
    rw [List.foldl_cons, ih hnd.2 (fun j hj => hlt j (List.mem_cons_of_mem _ hj)) _
      (by rw [add_num hi, wrap32_idem])]
    · rw [add_num hi, wrap32_add_wrap32]
      congr 1
      simp only [List.length_cons]
      push_cast
      ring
    · intro j hj hmem
      rw [nodeAt_add_ends] at hmem
      rcases hmem with hmem | ⟨hp, -⟩
      · exact hfree j (List.mem_cons_of_mem _ hj) hmem
      · have hne : j ≠ i := fun e => hnd.1 (e ▸ hj)
        exact drop_ne_drop (hlt j (List.mem_cons_of_mem _ hj)) hne hp

theorem length_entryPaths (a : List Char) : (entryPaths a).length = 1 + (a.length - 1) := by
  simp [entryPaths, Nat.add_comm]

/-- On a tree that stores `s` at no path, `Add s` succeeds and raises `Num` of the
root once for every entry path of `s`, in 32-bit arithmetic. -/
theorem Add_fresh_num (s : String) (t : SuffixTree) (h : ∀ p, s ∉ (nodeAt p t).Ends) :
    (t.Add s).2.Num = wrap32 (t.Num + (entryPaths s.data).length) := by
  have hi := add_true_of_not_mem (h s.data)
  rw [Add_of_true hi]
  show ((List.range' 1 (s.data.length - 1)).foldl
    (fun t i => (t.add (s.data.drop i) s).2) (t.add s.data s).2).Num = _
  have hlt : ∀ i ∈ List.range' 1 (s.data.length - 1), i < s.data.length := by
    intro i hi'
    rw [List.mem_range'_1] at hi'
    omega
  have hfree : ∀ i ∈ List.range' 1 (s.data.length - 1),
      s ∉ (nodeAt (s.data.drop i) (t.add s.data s).2).Ends := by
    intro i hi' hmem
    have hil := hlt i hi'
    rw [List.mem_range'_1] at hi'
    rw [nodeAt_add_ends] at hmem
    rcases hmem with hmem | ⟨hp, -⟩
    · exact h _ hmem
    · have h0 : (0 : Nat) < s.data.length := by omega
      have hne : (0 : Nat) ≠ i := by omega
      apply drop_ne_drop h0 hne
      rw [List.drop_zero]
      exact hp.symm
  rw [foldl_add_num s.data s _ (List.nodup_range' 1 _) hlt _
    (by rw [add_num hi, wrap32_idem]) hfree]
  rw [add_num hi, wrap32_add_wrap32, length_entryPaths, List.length_range']
  congr 1
  push_cast
  ring

/-- After `Add` calls of distinct strings, `Num` of the root is the 32-bit value of
the number of entry paths of the strings. -/
theorem addAll_num (rest done : List String) (t : SuffixTree)
    (hr : wrap32 t.Num = t.Num)
    (hinv : ∀ p s', s' ∈ (nodeAt p t).Ends ↔ s' ∈ done ∧ p ∈ entryPaths s'.data)
    (hnd : (done ++ rest).Nodup) :
    (addAll t rest).Num =
      wrap32 (t.Num + ((rest.map (fun s => ((entryPaths s.data).length : Int))).sum)) := by
  induction rest generalizing t done with
  | nil => simpa [addAll] using hr.symm
  | cons s rest ih =>
    have hs : s ∉ done := by
      intro hmem
      have := (List.nodup_append.1 hnd).2.2
      exact this hmem (List.mem_cons_self _ _)
    have hfree : ∀ p, s ∉ (nodeAt p t).Ends := fun p hp => hs ((hinv p s).1 hp).1
    have hnum := Add_fresh_num s t hfree
    have hinv' : ∀ p s', s' ∈ (nodeAt p (t.Add s).2).Ends ↔
        s' ∈ done ++ [s] ∧ p ∈ entryPaths s'.data := addAll_ends [s] done t hinv
    have hnd' : ((done ++ [s]) ++ rest).Nodup := by
      simpa [List.append_assoc] using hnd
    have := ih (done ++ [s]) (t.Add s).2 (by rw [hnum, wrap32_idem]) hinv' hnd'
    show (addAll (t.Add s).2 rest).Num = _
    rw [this, hnum, wrap32_add_wrap32]
    congr 1
    simp only [List.map_cons, List.sum_cons]
    ring

theorem runIndex_map_add (adds : List String) (t : SuffixTree) :
    runIndex t (adds.map IndexOp.add) = addAll t adds := by
  induction adds generalizing t with
  | nil => rfl
  | cons s rest ih => exact ih _

theorem longString_data (n : Nat) : (longString n).data = List.replicate n 'a' := rfl

theorem manyStrings_nodup (n : Nat) : (manyStrings n).Nodup := by
  unfold manyStrings
  refine (List.nodup_map_iff_inj_on (List.nodup_range n)).2 ?_
  intro x _ y _ h
  have := congrArg (fun s => s.data.length) h
  simp only [longString_data, List.length_replicate] at this
  omega

theorem manyStrings_sum (n : Nat) :
    2 * ((manyStrings n).map (fun s => ((entryPaths s.data).length : Int))).sum =
      (n : Int) * (n + 1) := by
  unfold manyStrings
  induction n with
  | zero => simp
  | succ n ih =>
    rw [List.range_succ, List.map_append, List.map_append, List.sum_append, mul_add, ih]
    simp only [List.map_cons, List.map_nil, List.sum_cons, List.sum_nil, length_entryPaths,
      longString_data, List.length_replicate]
    push_cast
    ring

/-- Claim C19 as stated fails beyond 32 bits: after `Add` of the 65536 strings `a`,
`aa`, ... (2147516416 entries in all), `Num` of the root is `-2147450880`, a
negative number, and so differs from the number of entries stored in the tree. -/
theorem suffixTree_num_wraps :
    (runIndex NewSuffixTree ((manyStrings 65536).map IndexOp.add)).Num = -2147450880 ∧
    (runIndex NewSuffixTree ((manyStrings 65536).map IndexOp.add)).Num ≠
      ((runIndex NewSuffixTree ((manyStrings 65536).map IndexOp.add)).entries : Int) := by
  have hnum : (runIndex NewSuffixTree ((manyStrings 65536).map IndexOp.add)).Num =
      -2147450880 := by
    rw [runIndex_map_add, addAll_num (manyStrings 65536) [] NewSuffixTree rfl (by
      intro p s'
      rw [nodeAt_new]
      simp [NewSuffixTree, SuffixTree.Ends]) (by simpa using manyStrings_nodup 65536)]
    have hsum := manyStrings_sum 65536
    have h0 : NewSuffixTree.Num = 0 := rfl
    rw [h0]
    generalize ((manyStrings 65536).map
      (fun s => ((entryPaths s.data).length : Int))).sum = total at hsum
    have ht : total = 2147516416 := by
      push_cast at hsum
      omega
    rw [ht]
    unfold wrap32
    norm_num
  refine ⟨hnum, ?_⟩
  rw [hnum]
  intro h
  have : (0 : Int) ≤
      ((runIndex NewSuffixTree ((manyStrings 65536).map IndexOp.add)).entries : Int) :=
    Int.natCast_nonneg _
  omega

/-- Claim C19, amended. At every node of every tree reached from `NewSuffixTree` by
`Add` and `Del` calls, `Num` is the 32-bit value of `len(Ends)` plus the sum of `Num`
over the sons, and of the number of entries stored in the subtree; while the subtree
stores fewer than `2 ^ 31` entries the two equalities are exact. An inner `add` or
`del` that fails leaves the tree as it was; an `add` that succeeds raises `Num` by
one, in 32-bit arithmetic, at every node on its path; a `del` that succeeds has
succeeded at every node on its path and lowered the `Num` of each by one, in 32-bit
arithmetic. -/
theorem suffixTree_counting (ops : List IndexOp) (p a : List Char) (s : String)
    (t : SuffixTree) :
    (nodeAt p (runIndex NewSuffixTree ops)).Num =
      wrap32 ((nodeAt p (runIndex NewSuffixTree ops)).Ends.length +
        sumNum (nodeAt p (runIndex NewSuffixTree ops)).Sons) ∧
    (nodeAt p (runIndex NewSuffixTree ops)).Num =
      wrap32 (nodeAt p (runIndex NewSuffixTree ops)).entries ∧
    ((nodeAt p (runIndex NewSuffixTree ops)).entries < 2 ^ 31 →
      (nodeAt p (runIndex NewSuffixTree ops)).Num =
        (nodeAt p (runIndex NewSuffixTree ops)).entries ∧
      (nodeAt p (runIndex NewSuffixTree ops)).Num =
        (nodeAt p (runIndex NewSuffixTree ops)).Ends.length +
          sumNum (nodeAt p (runIndex NewSuffixTree ops)).Sons) ∧
    ((t.add a s).1 = false → (t.add a s).2 = t) ∧
    ((t.add a s).1 = true → ∀ q, q <+: a →
      (nodeAt q (t.add a s).2).Num = wrap32 ((nodeAt q t).Num + 1)) ∧
    ((t.del a s).1 = false → (t.del a s).2 = t) ∧
    ((t.del a s).1 = true → ∀ k, k ≤ a.length →
      ((nodeAt (a.take k) t).del (a.drop k) s).1 = true ∧
      ((nodeAt (a.take k) t).del (a.drop k) s).2.Num =
        wrap32 ((nodeAt (a.take k) t).Num - 1)) := by
  have hok := ok_nodeAt (runIndex_ok ops NewSuffixTree ok_new) p
  exact ⟨(hok []).2, num_eq_entries _ hok, num_exact _ hok, add_false_eq,
    fun h q hq => add_path_num h q hq, del_false_eq, fun h k hk => del_path_num h k hk⟩

/-- Witness of C19: the node under `b` after the sample history, an `add` and a
`del` on the tree that holds "ab". -/
theorem suffixTree_counting_witness :
    (nodeAt ['b'] (runIndex NewSuffixTree opsDemo)).entries < 2 ^ 31 ∧
    (nodeAt ['b'] (runIndex NewSuffixTree opsDemo)).Num =
      (nodeAt ['b'] (runIndex NewSuffixTree opsDemo)).entries ∧
    (nodeAt ['b'] (runIndex NewSuffixTree opsDemo)).entries = 3 ∧
    (treeAb.add ['b'] "b").1 = true ∧
    (∀ q, q <+: ['b'] →
      (nodeAt q (treeAb.add ['b'] "b").2).Num = wrap32 ((nodeAt q treeAb).Num + 1)) ∧
    (treeAb.del ['a', 'b'] "ab").1 = true ∧
    (∀ k, k ≤ ['a', 'b'].length →
      ((nodeAt (['a', 'b'].take k) treeAb).del (['a', 'b'].drop k) "ab").1 = true ∧
      ((nodeAt (['a', 'b'].take k) treeAb).del (['a', 'b'].drop k) "ab").2.Num =
        wrap32 ((nodeAt (['a', 'b'].take k) treeAb).Num - 1)) :=
  ⟨by decide,
    ((suffixTree_counting opsDemo ['b'] ['b'] "b" treeAb).2.2.1 (by decide)).1,
    by decide, by decide,
    (suffixTree_counting opsDemo ['b'] ['b'] "b" treeAb).2.2.2.2.1 (by decide),
    by decide,
    (suffixTree_counting opsDemo ['b'] ['a', 'b'] "ab" treeAb).2.2.2.2.2.2 (by decide)⟩

/-! ### The binary search -/

theorem strLess_iff (x y : String) : strLess x y ↔ x < y := String.lt_iff_toList_lt.symm

theorem strLess_irrefl (x : String) : ¬ strLess x x := by
  rw [strLess_iff]
  exact lt_irrefl x

theorem strLess_trans {x y z : String} (h₁ : strLess x y) (h₂ : strLess y z) :
    strLess x z := by
  rw [strLess_iff] at *
  exact lt_trans h₁ h₂

theorem strLess_total {x y : String} (h₁ : ¬ strLess x y) (h₂ : x ≠ y) : strLess y x := by
  rw [strLess_iff] at *
  rcases lt_trichotomy x y with h | h | h
  · exact absurd h h₁
  · exact absurd h h₂
  · exact h

/-- With fuel for the whole window the loop ends by its test `i < j`: more fuel
gives the same result. -/
theorem searchLoop_fuel (ends : List String) (s : String) (f k i j : Nat)
    (h : j - i ≤ f) : searchLoop ends s (f + k) i j = searchLoop ends s f i j := by
  induction f generalizing i j with
  | zero =>
    have hij : ¬ i < j := by omega
    cases k with
    | zero => rfl
    | succ k =>
      rw [Nat.zero_add, searchLoop, searchLoop, if_neg hij]
  | succ f ih =>
    rw [Nat.add_right_comm, searchLoop, searchLoop]
    split_ifs with hij hl
    · exact ih _ _ (by omega)
    · exact ih _ _ (by omega)
    · rfl

theorem sorted_getD {ends : List String} (hs : ends.Pairwise strLess) {k₁ k₂ : Nat}
    (h : k₁ < k₂) (h₂ : k₂ < ends.length) :
    strLess (ends.getD k₁ "") (ends.getD k₂ "") := by
  rw [List.getD_eq_getElem _ _ h₂, List.getD_eq_getElem _ _ (lt_trans h h₂)]
  exact List.pairwise_iff_getElem.1 hs k₁ k₂ _ _ h

/-- On a strictly increasing list the loop returns the boundary between the entries
below `s` and the others. -/
theorem searchLoop_spec (ends : List String) (s : String) (hs : ends.Pairwise strLess)
    (f i j : Nat) (hf : j - i ≤ f) (hij : i ≤ j) (hj : j ≤ ends.length)
    (hlo : ∀ k, k < i → strLess (ends.getD k "") s)
    (hhi : ∀ k, j ≤ k → k < ends.length → ¬ strLess (ends.getD k "") s) :
    searchLoop ends s f i j ≤ ends.length ∧
    (∀ k, k < searchLoop ends s f i j → strLess (ends.getD k "") s) ∧
    (∀ k, searchLoop ends s f i j ≤ k → k < ends.length →
      ¬ strLess (ends.getD k "") s) := by
  induction f generalizing i j with
  | zero =>
    have hji : j = i := by omega
    subst hji
    rw [searchLoop]
    exact ⟨hj, hlo, hhi⟩
  | succ f ih =>
    rw [searchLoop]
    split_ifs with hlt hl
    · apply ih _ _ (by omega) (by omega) hj
      · intro k hk
        rcases Nat.lt_or_ge k ((i + j) / 2) with hkh | hkh
        · exact strLess_trans (sorted_getD hs hkh (by omega)) hl
        · have : k = (i + j) / 2 := by omega
          rw [this]
          exact hl
      · exact hhi
    · apply ih _ _ (by omega) (by omega) (by omega) hlo
      intro k hk hkl hks
      rcases Nat.eq_or_lt_of_le hk with hkh | hkh
      · rw [← hkh] at hks
        exact hl hks
      · exact hl (strLess_trans (sorted_getD hs hkh hkl) hks)
    · have hji : j = i := by omega
      subst hji
      exact ⟨hj, hlo, hhi⟩

theorem searchStrings_spec (ends : List String) (s : String) (hs : ends.Pairwise strLess) :
    searchStrings ends s ≤ ends.length ∧
    (∀ k, k < searchStrings ends s → strLess (ends.getD k "") s) ∧
    (∀ k, searchStrings ends s ≤ k → k < ends.length → ¬ strLess (ends.getD k "") s) :=
  searchLoop_spec ends s hs ends.length 0 ends.length (by omega) (by omega) (by omega)
    (fun k hk => absurd hk (Nat.not_lt_zero k)) (fun k hk hkl => absurd hkl (by omega))

/-- On a strictly increasing list, `SearchStrings` points at `s` exactly when `s` is
in the list. -/
theorem searchStrings_found (ends : List String) (s : String)
    (hs : ends.Pairwise strLess) :
    (searchStrings ends s < ends.length ∧ ends.getD (searchStrings ends s) "" = s) ↔
      s ∈ ends := by
  obtain ⟨-, hlo, hhi⟩ := searchStrings_spec ends s hs
  constructor
  · rintro ⟨h₁, h₂⟩
    rw [List.getD_eq_getElem _ _ h₁] at h₂
    rw [← h₂]
    exact List.getElem_mem _
  · intro hm
    obtain ⟨k, hk, hks⟩ := List.mem_iff_getElem.1 hm
    have hkd : ends.getD k "" = s := by
      rw [List.getD_eq_getElem _ _ hk]
      exact hks
    have h₁ : searchStrings ends s ≤ k := by
      by_contra hlt
      have := hlo k (by omega)
      rw [hkd] at this
      exact strLess_irrefl s this
    have h₂ : searchStrings ends s = k := by
      by_contra hne
      have hlt : searchStrings ends s < k := by omega
      have := sorted_getD hs hlt hk
      rw [hkd] at this
      exact hhi _ (le_refl _) (by omega) this
    rw [h₂]
    exact ⟨hk, hkd⟩

theorem insert_sorted (ends : List String) (s : String) (hs : ends.Pairwise strLess)
    (hn : s ∉ ends) :
    (ends.take (searchStrings ends s) ++ s :: ends.drop (searchStrings ends s)).Pairwise
      strLess := by
  obtain ⟨-, hlo, hhi⟩ := searchStrings_spec ends s hs
  generalize searchStrings ends s = r at hlo hhi
  have hlow : ∀ a ∈ ends.take r, strLess a s := by
    intro a ha
    obtain ⟨i, hi, hia⟩ := List.mem_take_iff_getElem.1 ha
    have hir : i < r := lt_of_lt_of_le hi (min_le_left _ _)
    have hil : i < ends.length := lt_of_lt_of_le hi (min_le_right _ _)
    have := hlo i hir
    rw [List.getD_eq_getElem _ _ hil] at this
    rw [← hia]
    exact this
  have hhigh : ∀ b ∈ ends.drop r, strLess s b := by
    intro b hb
    obtain ⟨i, hi, hib⟩ := List.mem_drop_iff_getElem.1 hb
    have hil : r + i < ends.length := by omega
    have := hhi (r + i) (by omega) hil
    rw [List.getD_eq_getElem _ _ hil] at this
    rw [← hib]
    apply strLess_total this
    intro he
    apply hn
    rw [← he]
    exact List.getElem_mem _
  rw [List.pairwise_append]
  refine ⟨hs.sublist (List.take_sublist _ _), ?_, ?_⟩
  · rw [List.pairwise_cons]
    exact ⟨hhigh, hs.sublist (List.drop_sublist _ _)⟩
  · intro a ha b hb
    rcases List.mem_cons.1 hb with hb | hb
    · rw [hb]
      exact hlow a ha
    · exact strLess_trans (hlow a ha) (hhigh b hb)

theorem sorted_iff (t : SuffixTree) :
    t.sorted ↔ t.Ends.Pairwise strLess ∧
      ∀ c, ((sonGet c t.Sons).getD NewSuffixTree).sorted := by
  constructor
  · intro h
    exact ⟨h [], fun c p => h (c :: p)⟩
  · rintro ⟨h₁, h₂⟩ p
    cases p with
    | nil => exact h₁
    | cons c p => exact h₂ c p

theorem sorted_new : NewSuffixTree.sorted := by
  intro p
  rw [nodeAt_new]
  exact List.Pairwise.nil

/-- The inner `add` keeps `Ends` strictly increasing at every node. -/
theorem add_sorted {a : List Char} {s : String} {t : SuffixTree} (h : t.sorted) :
    (SuffixTree.add a s t).2.sorted := by
  induction a generalizing t with
  | nil =>
    obtain ⟨hends, hsons⟩ := (sorted_iff t).1 h
    rw [add_nil]
    split_ifs with hf
    · exact h
    · refine (sorted_iff _).2 ⟨?_, hsons⟩
      exact insert_sorted t.Ends s hends (fun hm => hf ((searchStrings_found _ _ hends).2 hm))
  | cons c a ih =>
    obtain ⟨hends, hsons⟩ := (sorted_iff t).1 h
    rw [add_cons_snd]
    refine (sorted_iff _).2 ⟨hends, fun c' => ?_⟩
    show ((sonGet c' (sonSet c _ t.Sons)).getD NewSuffixTree).sorted
    rw [sonGet_sonSet]
    split_ifs
    · exact ih (hsons c)
    · exact hsons c'

/-- On a tree with increasing `Ends`, the inner `add` succeeds exactly when `s` is not
stored at the end of its path. -/
theorem add_true_iff {a : List Char} {s : String} {t : SuffixTree} (h : t.sorted) :
    (SuffixTree.add a s t).1 = true ↔ s ∉ (nodeAt a t).Ends := by
  induction a generalizing t with
  | nil =>
    have hp : t.Ends.Pairwise strLess := h []
    show (SuffixTree.add [] s t).1 = true ↔ s ∉ t.Ends
    rw [add_nil, ← searchStrings_found t.Ends s hp]
    split_ifs with hf
    · exact ⟨fun hc => hc.elim, fun hc => absurd hf hc⟩
    · exact ⟨fun _ => hf, fun _ => rfl⟩
  | cons c a ih =>
    rw [add_cons_fst, nodeAt_cons]
    exact ih (((sorted_iff t).1 h).2 c)

/-- On a tree with increasing `Ends`, the inner `del` succeeds exactly when `s` is
stored at the end of its path. -/
theorem del_true_iff {a : List Char} {s : String} {t : SuffixTree} (h : t.sorted) :
    (SuffixTree.del a s t).1 = true ↔ s ∈ (nodeAt a t).Ends := by
  induction a generalizing t with
  | nil =>
    have hp : t.Ends.Pairwise strLess := h []
    show (SuffixTree.del [] s t).1 = true ↔ s ∈ t.Ends
    rw [del_nil, ← searchStrings_found t.Ends s hp]
    split_ifs with hf
    · exact ⟨fun _ => hf, fun _ => rfl⟩
    · exact ⟨fun hc => hc.elim, fun hc => absurd hc hf⟩
  | cons c a ih =>
    rw [del_cons_fst, nodeAt_cons]
    exact ih (((sorted_iff t).1 h).2 c)

theorem foldl_add_sorted (a : List Char) (s : String) (is : List Nat) (t : SuffixTree)
    (h : t.sorted) : (is.foldl (fun t i => (t.add (a.drop i) s).2) t).sorted := by
  induction is generalizing t with
  | nil => exact h
  | cons i is ih => exact ih _ (add_sorted h)

theorem Add_sorted {s : String} {t : SuffixTree} (h : t.sorted) : (t.Add s).2.sorted := by
  cases hi : (t.add s.data s).1 with
  | false =>
    rw [Add_of_false hi]
    exact add_sorted h
  | true =>
    rw [Add_of_true hi]
    exact foldl_add_sorted _ _ _ _ (add_sorted h)

theorem addAll_sorted (adds : List String) (t : SuffixTree) (h : t.sorted) :
    (addAll t adds).sorted := by
  induction adds generalizing t with
  | nil => exact h
  | cons s rest ih => exact ih _ (Add_sorted h)

/-! ### Del -/

theorem foldl_del_absent (a : List Char) (s : String) (is : List Nat) (t : SuffixTree)
    (h : ∀ p, s ∉ (nodeAt p t).Ends) :
    is.foldl (fun t i => (t.del (a.drop i) s).2) t = t := by
  induction is with
  | nil => rfl
  | cons i is ih =>
    have hf : (t.del (a.drop i) s).1 = false := by
      cases hd : (t.del (a.drop i) s).1 with
      | false => rfl
      | true => exact absurd (del_true_mem hd) (h _)
    rw [List.foldl_cons, del_false_eq hf]
    exact ih

/-- On a tree that stores `s` at no path, `Del s` returns true and leaves the tree
as it was. -/
theorem Del_absent (s : String) (t : SuffixTree) (h : ∀ p, s ∉ (nodeAt p t).Ends) :
    t.Del s = (true, t) := by
  have hf : (t.del s.data s).1 = false := by
    cases hd : (t.del s.data s).1 with
    | false => rfl
    | true => exact absurd (del_true_mem hd) (h _)
  rw [Del_of_false hf, del_false_eq hf, foldl_del_absent _ _ _ _ h]

theorem addAll_ends_new (adds : List String) (p : List Char) (s : String) :
    s ∈ (nodeAt p (addAll NewSuffixTree adds)).Ends ↔ s ∈ adds ∧ p ∈ entryPaths s.data := by
  have := addAll_ends adds [] NewSuffixTree (by
    intro p s'
    rw [nodeAt_new]
    simp [NewSuffixTree, SuffixTree.Ends]) p s
  simpa using this

theorem mem_entryPaths_self (a : List Char) : a ∈ entryPaths a :=
  List.mem_cons_self _ _

/-- On a tree built by `Add` calls, the inner `del` on the full path of `s` succeeds
exactly when `s` was added, and the inner `add` exactly when it was not. -/
theorem addAll_inner (adds : List String) (s : String) :
    (((addAll NewSuffixTree adds).del s.data s).1 = true ↔ s ∈ adds) ∧
    (((addAll NewSuffixTree adds).add s.data s).1 = true ↔ s ∉ adds) := by
  have hsorted := addAll_sorted adds NewSuffixTree sorted_new
  have hmem : s ∈ (nodeAt s.data (addAll NewSuffixTree adds)).Ends ↔ s ∈ adds := by
    rw [addAll_ends_new]
    exact ⟨fun h => h.1, fun h => ⟨h, mem_entryPaths_self _⟩⟩
  rw [del_true_iff hsorted, add_true_iff hsorted, hmem]
  exact ⟨Iff.rfl, Iff.rfl⟩

/-- Claim C15, where the code departs from it. `Del` answers the opposite of `Add`:
on every tree built by `Add` calls, `Del s` returns true exactly when `s` was never
added (and then leaves the tree as it was), while `Add s` returns true exactly when
`s` was not yet added. On the tree that holds "ab", `Del "ab"` returns false and
removes "ab" only at its full path, so that `Search "b"` and `Search ""` still
return it, and a second `Del "ab"` returns true. -/
theorem Del_inverted :
    (∀ (adds : List String) (s : String),
      ((addAll NewSuffixTree adds).Del s).1 = true ↔ s ∉ adds) ∧
    (∀ (adds : List String) (s : String),
      ((addAll NewSuffixTree adds).Add s).1 = true ↔ s ∉ adds) ∧
    (∀ (adds : List String) (s : String), s ∉ adds →
      (addAll NewSuffixTree adds).Del s = (true, addAll NewSuffixTree adds)) ∧
    (treeAb.Add "ab").1 = false ∧
    "ab" ∈ treeAb.Search "b" ∧
    (treeAb.Del "ab").1 = false ∧
    (treeAb.Del "ab").2.Search "ab" = [] ∧
    (treeAb.Del "ab").2.Search "b" = ["ab"] ∧
    (treeAb.Del "ab").2.Search "" = ["ab"] ∧
    ((treeAb.Del "ab").2.Del "ab").1 = true ∧
    ((treeAb.Del "ab").2.Del "ab").2.Search "" = [] := by
  refine ⟨?_, ?_, ?_, by decide, by decide, by decide, by decide, by decide, by decide,
    by decide, by decide⟩
  · intro adds s
    rw [← (addAll_inner adds s).1]
    cases hd : ((addAll NewSuffixTree adds).del s.data s).1 with
    | false =>
      rw [Del_of_false hd]
      simp
    | true =>
      rw [Del_of_true hd]
      simp
  · intro adds s
    rw [← (addAll_inner adds s).2]
    cases hd : ((addAll NewSuffixTree adds).add s.data s).1 with
    | false =>
      rw [Add_of_false hd]
    | true =>
      rw [Add_of_true hd]
  · intro adds s hs
    apply Del_absent
    intro p hp
    exact hs ((addAll_ends_new adds p s).1 hp).1

/-- Witness of C15: `Del "zz"` on the tree that holds "ab". -/
theorem Del_inverted_witness :
    "zz" ∉ ["ab"] ∧
    (addAll NewSuffixTree ["ab"]).Del "zz" = (true, addAll NewSuffixTree ["ab"]) :=
  ⟨by decide, Del_inverted.2.2.1 ["ab"] "zz" (by decide)⟩

end Librad
